import Mathlib

/-!
Andersama/containers: plain_array, real::vector and stable_stack.

A shallow embedding of the three containers of the repository
(`plain_array.h`, `real_vector.h`, `stable_stack.h`) and of the test driver
`containers.cpp`, followed by theorems about them.

Conventions of the embedding.

* A block of storage is a `List` of slots; a pointer or iterator into it is the
  index of the slot (`begin()` is index `0`, `end()` is index `size`).
* A load or store outside the block is undefined behaviour in C++; the
  embedding reports it as `none`.  The loops of the source are kept as loops,
  with their own exit tests, and run on a fuel argument; the callers pass
  `loop_fuel d`, one more than the number of slots, which no loop that stays
  inside the block and reaches its exit test can use up.  A loop that never
  exits has no result for any fuel.
* `assert` is compiled out (release build): it changes no state.
* `size_t` is 64 bits wide; arithmetic that can wrap is written with
  `% SIZE_T_MOD`.
* An argument passed by reference (`const value_type &`, or forwarded to a
  constructor of the element type) is a `const_reference`: an object outside the
  container's storage, given by its value, or a slot of the container itself.  It
  is loaded where the source reads it.  A member function that reads its argument
  before its first store takes the value instead.
* A range outside the container is the list of the values its iterators yield.
* A second container object is a second state; an operation on two objects
  returns both.
-/

namespace containers

/-- Number of values of a `size_t`. -/
def SIZE_T_MOD : Nat := 2 ^ 64

/-- Fuel that suffices for every in-bounds loop over the block `d`. -/
def loop_fuel {β : Type} (d : List β) : Nat := d.length + 1

/-- Store `*p = v`; `none` when `p` is outside the block. -/
def store {β : Type} (d : List β) (p : Nat) (v : β) : Option (List β) :=
  if p < d.length then some (d.set p v) else none

/-- An argument bound to a parameter of type `const value_type &`, or forwarded to the
constructor of `value_type`: an object outside the storage of the container, given by
its value, or the slot with index `i` of the storage of the container the member function
is called on (`a[i]`, for an element). -/
inductive const_reference (α : Type) where
  | outside (x : α)
  | element (i : Nat)
  deriving DecidableEq, Repr

/-- Load through the reference while the block is `d`: the value of an outside object
never changes, a slot is read as it is at that moment; `none` when the slot is outside
the block. -/
def load {β : Type} (d : List β) : const_reference β → Option β
  | .outside x => some x
  | .element i => d[i]?

/-- Source `plain_array::fill`, fallback branch (the other branch calls `std::fill`):
`for (; first != last; ++first) *first = value;` -/
def fill {β : Type} (d : List β) (first last : Nat) (value : β) : Nat → Option (List β)
  | 0 => none
  | fuel + 1 =>
    if first = last then some d
    else
      match store d first value with
      | none => none
      | some d1 => fill d1 (first + 1) last value fuel

/-- Source `plain_array::copy`, fallback branch (the other branch calls `std::copy`):
`while (first != last) *d_first++ = *first++; return d_first;` -/
def copy {β : Type} (d : List β) (first last d_first : Nat) : Nat → Option (List β × Nat)
  | 0 => none
  | fuel + 1 =>
    if first = last then some (d, d_first)
    else
      match d[first]? with
      | none => none
      | some x =>
        match store d d_first x with
        | none => none
        | some d1 => copy d1 (first + 1) last (d_first + 1) fuel

/-- Source `plain_array::copy_backward`, fallback branch (the other branch calls
`std::copy_backward`):
`while (first != last) *(--d_last) = *(--last); return d_last;`
Decrementing a pointer that stands at the start of the block leaves the block. -/
def copy_backward {β : Type} (d : List β) (first last d_last : Nat) : Nat → Option (List β × Nat)
  | 0 => none
  | fuel + 1 =>
    if first = last then some (d, d_last)
    else if last = 0 ∨ d_last = 0 then none
    else
      match d[last - 1]? with
      | none => none
      | some x =>
        match store d (d_last - 1) x with
        | none => none
        | some d1 => copy_backward d1 first (last - 1) (d_last - 1) fuel

/-- Source `plain_array::reverse`, fallback branch (the other branch calls `std::reverse`):
`for (; first != last && first != --last; ++first) swap *first and *last`. -/
def reverse {β : Type} (d : List β) (first last : Nat) : Nat → Option (List β)
  | 0 => none
  | fuel + 1 =>
    if first = last then some d
    else if last = 0 then none
    else if first = last - 1 then some d
    else
      match d[first]?, d[last - 1]? with
      | some tmp, some y =>
        match store d first y with
        | none => none
        | some d1 =>
          match store d1 (last - 1) tmp with
          | none => none
          | some d2 => reverse d2 (first + 1) (last - 1) fuel
      | _, _ => none

/-- Source `plain_array::rotate`: `if constexpr (false)` disables the cycle version; of
the two remaining branches this is the fallback (the other calls `std::rotate`):
`reverse(first, mid); reverse(mid, last); reverse(first, last);` -/
def rotate {β : Type} (d : List β) (first mid last : Nat) (fuel : Nat) : Option (List β) :=
  match reverse d first mid fuel with
  | none => none
  | some d1 =>
    match reverse d1 mid last fuel with
    | none => none
    | some d2 => reverse d2 first last fuel

/-- The state of a `plain_array<Ty, N>` or of a `plain_array_safe<Ty, N>`.
The two classes have the same members and the same code except for the
number of slots and `unchecked_emplace_back`; the functions below take
`safe : Bool` (true for `plain_array_safe`) and the template argument `N`. -/
structure plain_array (α : Type) where
  /-- Field `_data._values`: `N` slots, `N + 1` for `plain_array_safe`. -/
  data : List α
  /-- Field `_size`. -/
  size : Nat
  /-- Field `_overrun` of `plain_array_safe`; `plain_array` has no such member
  and the field stays `false`. -/
  overrun : Bool
  deriving DecidableEq, Repr

namespace plain_array

variable {α : Type}

/-- Number of slots of `storage::_values`. -/
def slots (safe : Bool) (N : Nat) : Nat := if safe then N + 1 else N

/-- Default constructor: `_size{0}`, `_values` value-initialised. -/
def empty [Inhabited α] (safe : Bool) (N : Nat) : plain_array α :=
  { data := List.replicate (slots safe N) default, size := 0, overrun := false }

/-- Source `capacity()`: `return N;` -/
def capacity (N : Nat) (_a : plain_array α) : Nat := N

/-- The live elements `[begin(), end())`. -/
def elements (a : plain_array α) : List α := a.data.take a.size

/-- Source `back()`: `assert(_size > 0); return data()[_size - 1];`
Returns the index of the slot the reference names (computed in `size_t`). -/
def back (a : plain_array α) : Nat := (a.size + SIZE_T_MOD - 1) % SIZE_T_MOD

/-- Source `emplace_back`: returns the new state and the index of the slot
whose reference is returned.  The argument is read before the store. -/
def emplace_back (N : Nat) (a : plain_array α) (value : α) : Option (plain_array α × Nat) :=
  if a.size < N then
    let idx := a.size
    match store a.data idx value with
    | none => none
    | some d => some ({ a with data := d, size := a.size + 1 }, idx)
  else some (a, back a)

/-- Source `unchecked_emplace_back`; the argument is read before the store.
`plain_array`: `data()[idx] = v; _size++;`
`plain_array_safe`: `data()[idx] = v; _size += (_size < N);
_overrun = _overrun || (_size >= N);` -/
def unchecked_emplace_back (safe : Bool) (N : Nat) (a : plain_array α) (value : α) :
    Option (plain_array α × Nat) :=
  let idx := a.size
  match store a.data idx value with
  | none => none
  | some d =>
    if safe then
      let size1 := a.size + (if a.size < N then 1 else 0)
      some ({ data := d, size := size1, overrun := a.overrun || decide (size1 ≥ N) }, idx)
    else some ({ a with data := d, size := a.size + 1 }, idx)

/-- Source `push_back`: `emplace_back(value);` -/
def push_back (N : Nat) (a : plain_array α) (value : α) : Option (plain_array α) :=
  (emplace_back N a value).map Prod.fst

/-- Source `pop_back`: `if (_size) _size--;` -/
def pop_back (a : plain_array α) : plain_array α :=
  if a.size ≠ 0 then { a with size := a.size - 1 } else a

/-- Source `clear`: `_size = 0;` -/
def clear (a : plain_array α) : plain_array α := { a with size := 0 }

/-- Source `pop_front`: `if (_size) { copy(begin() + 1, end(), begin()); _size--; }` -/
def pop_front (a : plain_array α) : Option (plain_array α) :=
  if a.size ≠ 0 then
    match copy a.data 1 a.size 0 (loop_fuel a.data) with
    | none => none
    | some (d, _) => some { a with data := d, size := a.size - 1 }
  else some a

/-- Source `erase(const_iterator pos)`; `pos` is `begin() + pos`. -/
def erase (a : plain_array α) (pos : Nat) : Option (plain_array α × Nat) :=
  if a.size ≠ 0 then
    let erase_idx := pos
    if erase_idx < a.size then
      match copy a.data (erase_idx + 1) a.size erase_idx (loop_fuel a.data) with
      | none => none
      | some (d, _) => some ({ a with data := d, size := a.size - 1 }, erase_idx)
    else some (a, a.size)
  else some (a, a.size)

/-- Source `erase(const_iterator first, const_iterator last)`. -/
def erase_range (a : plain_array α) (first last : Nat) : Option (plain_array α × Nat) :=
  if first = last then some (a, last)
  else if a.size ≠ 0 then
    let erase_idx := first
    let last_idx := last
    if erase_idx < last_idx ∧ erase_idx < a.size ∧ last_idx ≤ a.size then
      match copy a.data last_idx a.size erase_idx (loop_fuel a.data) with
      | none => none
      | some (d, c) => some ({ a with data := d, size := c }, erase_idx)
    else some (a, a.size)
  else some (a, a.size)

/-- Source `emplace(const_iterator pos, Args &&...args)` with one argument, as
`insert(pos, value)` calls it.  The argument is forwarded by reference and read where
the source constructs from it: in `unchecked_emplace_back`, before any store, or in
`data()[insert_idx] = value_type(args...)`, after `copy_backward` has moved the
elements. -/
def emplace (safe : Bool) (N : Nat) (a : plain_array α) (pos : Nat)
    (value : const_reference α) : Option (plain_array α × Nat) :=
  if a.size < N then
    let insert_idx := if pos ≤ N then pos else N
    let ret := insert_idx
    if insert_idx = a.size then
      match load a.data value with
      | none => none
      | some x =>
        match unchecked_emplace_back safe N a x with
        | none => none
        | some (a1, _) => some (a1, ret)
    else
      match copy_backward a.data insert_idx a.size (a.size + 1) (loop_fuel a.data) with
      | none => none
      | some (d, _) =>
        match load d value with
        | none => none
        | some x =>
          match store d insert_idx x with
          | none => none
          | some d1 => some ({ a with data := d1, size := a.size + 1 }, ret)
  else some (a, a.size)

/-- Source `insert(const_iterator pos, const value_type &value)`: `return emplace(pos, value);` -/
def insert (safe : Bool) (N : Nat) (a : plain_array α) (pos : Nat)
    (value : const_reference α) : Option (plain_array α × Nat) :=
  emplace safe N a pos value

/-- Source `insert_backwards(pos, count, const value_type &value)`.  `fill` reads
`value` at each of its stores; they all store the value the reference has when `fill`
starts (the one store that can hit the slot referred to stores its own value), which
is after `copy_backward` has moved the elements. -/
def insert_backwards (N : Nat) (a : plain_array α) (pos count : Nat)
    (value : const_reference α) : Option (plain_array α × Nat) :=
  if a.size < N then
    let insert_idx := if pos ≤ N then pos else N
    let ret := insert_idx
    if insert_idx = a.size then
      let remaining := N - a.size
      let insert_count := if count ≤ remaining then count else remaining
      match load a.data value with
      | none => none
      | some x =>
        match fill a.data a.size (a.size + insert_count) x (loop_fuel a.data) with
        | none => none
        | some d => some ({ a with data := d, size := a.size + insert_count }, ret)
    else
      let remaining := N - a.size
      let insert_count := if count ≤ remaining then count else remaining
      match copy_backward a.data insert_idx a.size (insert_count + a.size) (loop_fuel a.data) with
      | none => none
      | some (d, _) =>
        match load d value with
        | none => none
        | some x =>
          match fill d insert_idx (insert_idx + insert_count) x (loop_fuel a.data) with
          | none => none
          | some d1 => some ({ a with data := d1, size := a.size + insert_count }, ret)
  else some (a, a.size)

/-- Source `insert(pos, count, value)`: `return insert_backwards(pos, count, value);` -/
def insert_count (N : Nat) (a : plain_array α) (pos count : Nat)
    (value : const_reference α) : Option (plain_array α × Nat) :=
  insert_backwards N a pos count value

/-- Source `insert_rotate(pos, count, const value_type &value)`.  `fill` reads `value`
before any element is moved. -/
def insert_rotate (N : Nat) (a : plain_array α) (pos count : Nat)
    (value : const_reference α) : Option (plain_array α × Nat) :=
  if a.size < N then
    let insert_idx := if pos ≤ N then pos else N
    let ret := insert_idx
    if insert_idx = a.size then
      let remaining := N - a.size
      let insert_count := if count ≤ remaining then count else remaining
      match load a.data value with
      | none => none
      | some x =>
        match fill a.data a.size (a.size + insert_count) x (loop_fuel a.data) with
        | none => none
        | some d => some ({ a with data := d, size := a.size + insert_count }, ret)
    else
      let remaining := N - a.size
      let insert_count := if count ≤ remaining then count else remaining
      let mid_idx := a.size
      match load a.data value with
      | none => none
      | some x =>
        match fill a.data a.size (a.size + insert_count) x (loop_fuel a.data) with
        | none => none
        | some d =>
          let size1 := a.size + insert_count
          match rotate d insert_idx mid_idx size1 (loop_fuel a.data) with
          | none => none
          | some d1 => some ({ a with data := d1, size := size1 }, ret)
  else some (a, a.size)

/-- The loop `for (; _size < N && first != last; ++first) unchecked_emplace_back(*first);`
of the range overloads of `insert` and `append`; the range is the list `src`. -/
def emplace_range_loop (safe : Bool) (N : Nat) : plain_array α → List α → Option (plain_array α)
  | a, [] => some a
  | a, x :: rest =>
    if a.size < N then
      match unchecked_emplace_back safe N a x with
      | none => none
      | some (a1, _) => emplace_range_loop safe N a1 rest
    else some a

/-- Source `insert(pos, It first, It2 last)`. -/
def insert_range (safe : Bool) (N : Nat) (a : plain_array α) (pos : Nat) (src : List α) :
    Option (plain_array α × Nat) :=
  if a.size < N then
    let insert_idx := if pos ≤ N then pos else N
    let ret := insert_idx
    if insert_idx = a.size then
      match emplace_range_loop safe N a src with
      | none => none
      | some a1 => some (a1, ret)
    else
      let mid_insert := a.size
      match emplace_range_loop safe N a src with
      | none => none
      | some a1 =>
        match rotate a1.data insert_idx mid_insert a1.size (loop_fuel a1.data) with
        | none => none
        | some d => some ({ a1 with data := d }, ret)
  else some (a, a.size)

/-- Source `append(It first, It2 last)`. -/
def append_range (safe : Bool) (N : Nat) (a : plain_array α) (src : List α) :
    Option (plain_array α × Nat) :=
  if a.size < N then
    let idx := a.size
    match emplace_range_loop safe N a src with
    | none => none
    | some a1 => some (a1, idx)
  else some (a, a.size)

/-- The loop `for (size_t i = 0; _size < N && i < count; i++) unchecked_emplace_back(value);`
of `append(count, value)`; the argument counts the remaining `count - i`. -/
def append_loop (safe : Bool) (N : Nat) (value : α) : plain_array α → Nat → Option (plain_array α)
  | a, 0 => some a
  | a, k + 1 =>
    if a.size < N then
      match unchecked_emplace_back safe N a value with
      | none => none
      | some (a1, _) => append_loop safe N value a1 k
    else some a

/-- Source `append(size_t count, const value_type &value)`.  The stores go to the
slots from `end()` on; one that hits the slot `value` names stores its own value, so
every store writes the value the reference has on entry. -/
def append (safe : Bool) (N : Nat) (a : plain_array α) (count : Nat) (value : α) :
    Option (plain_array α × Nat) :=
  if a.size < N then
    let idx := a.size
    match append_loop safe N value a count with
    | none => none
    | some a1 => some (a1, idx)
  else some (a, a.size)

/-- Source `append(size_t count)`: as `append(count, value)` with `unchecked_emplace_back()`,
which stores `value_type()`. -/
def append_default [Inhabited α] (safe : Bool) (N : Nat) (a : plain_array α) (count : Nat) :
    Option (plain_array α × Nat) :=
  append safe N a count default

/-- Source `plain_array::swap(value_type (&left)[N], value_type (&right)[N])`, fallback
branch (the other branch calls `std::swap`), for two distinct arrays:
`for (; first1 != last1; ++first1, ++first2) swap(*first1, *first2);` with the element
swap `tmp = left; left = right; right = tmp;`. -/
def swap_array (left right : List α) (first1 last1 first2 : Nat) :
    Nat → Option (List α × List α)
  | 0 => none
  | fuel + 1 =>
    if first1 = last1 then some (left, right)
    else
      match left[first1]?, right[first2]? with
      | some tmp, some y =>
        match store left first1 y with
        | none => none
        | some left1 =>
          match store right first2 tmp with
          | none => none
          | some right1 => swap_array left1 right1 (first1 + 1) last1 (first2 + 1) fuel
      | _, _ => none

/-- Source `swap(plain_array &other)` for two distinct objects `a` (`*this`) and `b`
(`other`); returns both: `if constexpr (N > 0) { swap(_data._values, other._data._values);
tmp = _size; _size = other._size; other._size = tmp; }` -/
def swap (N : Nat) (a b : plain_array α) : Option (plain_array α × plain_array α) :=
  if N > 0 then
    match swap_array a.data b.data 0 N 0 (loop_fuel a.data) with
    | none => none
    | some (left, right) =>
      let tmp := a.size
      some ({ a with data := left, size := b.size }, { b with data := right, size := tmp })
  else some (a, b)

/-- Well-formed state of a `plain_array<Ty, N>` (`safe = false`) or of a
`plain_array_safe<Ty, N>` (`safe = true`): the storage has its declared number of
slots and `_size` does not exceed `N`. -/
def WF (safe : Bool) (N : Nat) (a : plain_array α) : Prop :=
  a.data.length = slots safe N ∧ a.size ≤ N

instance (safe : Bool) (N : Nat) (a : plain_array α) : Decidable (WF safe N a) := by
  unfold WF
  infer_instance

/-- A call of a mutating member function, with iterator arguments given as
indices from `begin()` and value arguments that are objects outside the array. -/
inductive Op (α : Type) where
  | emplace_back (value : α)
  | push_back (value : α)
  | unchecked_emplace_back (value : α)
  | pop_back
  | pop_front
  | clear
  | erase (pos : Nat)
  | erase_range (first last : Nat)
  | emplace (pos : Nat) (value : α)
  | insert (pos : Nat) (value : α)
  | insert_count (pos count : Nat) (value : α)
  | insert_backwards (pos count : Nat) (value : α)
  | insert_rotate (pos count : Nat) (value : α)
  | insert_range (pos : Nat) (src : List α)
  | append (count : Nat) (value : α)
  | append_default (count : Nat)
  | append_range (src : List α)
  deriving DecidableEq, Repr

/-- The state after one call; the returned iterator or reference is dropped. -/
def step [Inhabited α] (safe : Bool) (N : Nat) (a : plain_array α) : Op α → Option (plain_array α)
  | .emplace_back v => (emplace_back N a v).map Prod.fst
  | .push_back v => push_back N a v
  | .unchecked_emplace_back v => (unchecked_emplace_back safe N a v).map Prod.fst
  | .pop_back => some (pop_back a)
  | .pop_front => pop_front a
  | .clear => some (clear a)
  | .erase pos => (erase a pos).map Prod.fst
  | .erase_range first last => (erase_range a first last).map Prod.fst
  | .emplace pos v => (emplace safe N a pos (.outside v)).map Prod.fst
  | .insert pos v => (insert safe N a pos (.outside v)).map Prod.fst
  | .insert_count pos count v => (insert_count N a pos count (.outside v)).map Prod.fst
  | .insert_backwards pos count v => (insert_backwards N a pos count (.outside v)).map Prod.fst
  | .insert_rotate pos count v => (insert_rotate N a pos count (.outside v)).map Prod.fst
  | .insert_range pos src => (insert_range safe N a pos src).map Prod.fst
  | .append count v => (append safe N a count v).map Prod.fst
  | .append_default count => (append_default safe N a count).map Prod.fst
  | .append_range src => (append_range safe N a src).map Prod.fst

/-- The state after a sequence of calls. -/
def run [Inhabited α] (safe : Bool) (N : Nat) : plain_array α → List (Op α) → Option (plain_array α)
  | a, [] => some a
  | a, op :: ops =>
    match step safe N a op with
    | none => none
    | some a1 => run safe N a1 ops

/-- The call is one of the bounds-checked mutators and its iterator arguments
lie in `[begin(), end()]` of the state it is applied to. -/
def checked_call (a : plain_array α) : Op α → Bool
  | .unchecked_emplace_back _ => false
  | .erase pos => decide (pos ≤ a.size)
  | .erase_range first last => decide (first ≤ a.size) && decide (last ≤ a.size)
  | .emplace pos _ => decide (pos ≤ a.size)
  | .insert pos _ => decide (pos ≤ a.size)
  | .insert_count pos _ _ => decide (pos ≤ a.size)
  | .insert_backwards pos _ _ => decide (pos ≤ a.size)
  | .insert_rotate pos _ _ => decide (pos ≤ a.size)
  | .insert_range pos _ => decide (pos ≤ a.size)
  | _ => true

/-- Every call of the sequence is a `checked_call` of the state it is applied to. -/
def checked_calls [Inhabited α] (safe : Bool) (N : Nat) : plain_array α → List (Op α) → Bool
  | _, [] => true
  | a, op :: ops =>
    checked_call a op &&
      match step safe N a op with
      | none => true
      | some a1 => checked_calls safe N a1 ops

/-- Along the whole run every call returns and `size() <= capacity()`,
`capacity() == N` hold in every state passed through. -/
def size_bounded [Inhabited α] (safe : Bool) (N : Nat) : plain_array α → List (Op α) → Prop
  | a, [] => a.size ≤ capacity N a ∧ capacity N a = N
  | a, op :: ops =>
    a.size ≤ capacity N a ∧ capacity N a = N ∧
      ∃ a1, step safe N a op = some a1 ∧ size_bounded safe N a1 ops

/-- Every `unchecked_emplace_back` of the sequence is called while `size() < N`. -/
def unchecked_within [Inhabited α] (safe : Bool) (N : Nat) : plain_array α → List (Op α) → Bool
  | _, [] => true
  | a, op :: ops =>
    (match op with
      | .unchecked_emplace_back _ => decide (a.size < N)
      | _ => true) &&
      match step safe N a op with
      | none => true
      | some a1 => unchecked_within safe N a1 ops

/-- Some `unchecked_emplace_back` of the sequence is called while `size() == N`. -/
def overrun_attempted [Inhabited α] (safe : Bool) (N : Nat) : plain_array α → List (Op α) → Bool
  | _, [] => false
  | a, op :: ops =>
    (match op with
      | .unchecked_emplace_back _ => decide (a.size = N)
      | _ => false) ||
      match step safe N a op with
      | none => false
      | some a1 => overrun_attempted safe N a1 ops

/-- A `plain_array<Ty, N>` `a` and a `plain_array_safe<Ty, N>` `b` in well-formed states
with the same size and the same live elements. -/
def lockstep (N : Nat) (a b : plain_array α) : Prop :=
  WF false N a ∧ WF true N b ∧ a.size = b.size ∧ elements a = elements b

/-- Reference semantics of a call on an unbounded list (what the same call does
to a dynamically sized array). -/
def ref_step [Inhabited α] (xs : List α) : Op α → List α
  | .emplace_back v => xs ++ [v]
  | .push_back v => xs ++ [v]
  | .unchecked_emplace_back v => xs ++ [v]
  | .pop_back => xs.dropLast
  | .pop_front => xs.drop 1
  | .clear => []
  | .erase pos => xs.eraseIdx pos
  | .erase_range first last => xs.take first ++ xs.drop last
  | .emplace pos v => xs.take pos ++ [v] ++ xs.drop pos
  | .insert pos v => xs.take pos ++ [v] ++ xs.drop pos
  | .insert_count pos count v => xs.take pos ++ List.replicate count v ++ xs.drop pos
  | .insert_backwards pos count v => xs.take pos ++ List.replicate count v ++ xs.drop pos
  | .insert_rotate pos count v => xs.take pos ++ List.replicate count v ++ xs.drop pos
  | .insert_range pos src => xs.take pos ++ src ++ xs.drop pos
  | .append count v => xs ++ List.replicate count v
  | .append_default count => xs ++ List.replicate count default
  | .append_range src => xs ++ src

/-- Reference semantics of a sequence of calls. -/
def ref_run [Inhabited α] : List α → List (Op α) → List α
  | xs, [] => xs
  | xs, op :: ops => ref_run (ref_step xs op) ops

/-- The iterator arguments of the call are valid for the reference list
(`erase(pos)` needs an element at `pos`, a range needs `first <= last <= end`, an
insertion point lies in `[begin, end]`). -/
def positions_valid (xs : List α) : Op α → Bool
  | .erase pos => decide (pos < xs.length)
  | .erase_range first last => decide (first ≤ last) && decide (last ≤ xs.length)
  | .emplace pos _ => decide (pos ≤ xs.length)
  | .insert pos _ => decide (pos ≤ xs.length)
  | .insert_count pos _ _ => decide (pos ≤ xs.length)
  | .insert_backwards pos _ _ => decide (pos ≤ xs.length)
  | .insert_rotate pos _ _ => decide (pos ≤ xs.length)
  | .insert_range pos _ => decide (pos ≤ xs.length)
  | _ => true

/-- The sequence has valid positions throughout and the reference list never
grows beyond `N` elements. -/
def fits [Inhabited α] (N : Nat) : List α → List (Op α) → Bool
  | _, [] => true
  | xs, op :: ops =>
    positions_valid xs op && decide ((ref_step xs op).length ≤ N) && fits N (ref_step xs op) ops

/-- The operation sequence of the `constexpr` test in `containers.cpp` (`main`),
for `plain_array<int, 32>` and `plain_array_safe<int, 32>`: the three filling
loops, with the values they pass, then the erase / pop / insert calls. -/
def main_test_ops : List (Op Int) :=
  ((List.range 16).map fun i => Op.unchecked_emplace_back (i : Int)) ++
  ((List.range 8).map fun i => Op.append 1 (16 + (i : Int))) ++
  ((List.range 8).map fun i => Op.emplace_back (24 + (i : Int))) ++
  [Op.erase_range 8 24, Op.pop_front, Op.pop_front, Op.erase 3, Op.pop_back, Op.pop_back,
   Op.insert_count 6 2 4]

/-- The array `swap_test` of `containers.cpp` (`main`) after `emplace_back(10);
emplace_back(2);`, a `plain_array<int, 32>`. -/
def swap_test : plain_array Int :=
  { data := [10, 2] ++ List.replicate 30 0, size := 2, overrun := false }

/-- The array `swap_test_2` of `containers.cpp` (`main`) after `emplace_back(3);`. -/
def swap_test_2 : plain_array Int :=
  { data := [3] ++ List.replicate 31 0, size := 1, overrun := false }

/-- A `plain_array<int, 4>` holding `[1, 2]`. -/
def two_of_four_slots : plain_array Int := { data := [1, 2, 0, 0], size := 2, overrun := false }

/-- A full `plain_array<int, 4>` holding `[1, 2, 3, 4]`. -/
def four_slots_full : plain_array Int := { data := [1, 2, 3, 4], size := 4, overrun := false }

/-- The loops `for (; i < bound; i++) data()[i] = value;` of `assign(count, value)`;
returns the block and `i` at exit. -/
def assign_fill_loop (value : α) (bound : Nat) : List α → Nat → Nat → Option (List α × Nat)
  | _, _, 0 => none
  | d, i, fuel + 1 =>
    if i < bound then
      match store d i value with
      | none => none
      | some d1 => assign_fill_loop value bound d1 (i + 1) fuel
    else some (d, i)

/-- Source `assign(size_type count, const value_type &value)`:
`size_t i = 0; const size_t mx = count >= N ? N : count; _size = mx;
for (; i < mx; i++) data()[i] = value;
for (; i < count; i++) data()[i] = value_type();` -- a store of the first loop that
hits the slot `value` names stores its own value, so every store writes the value the
reference has on entry. -/
def assign_fill [Inhabited α] (N : Nat) (a : plain_array α) (count : Nat) (value : α) :
    Option (plain_array α) :=
  let mx := if count ≥ N then N else count
  match assign_fill_loop value mx a.data 0 (loop_fuel a.data) with
  | none => none
  | some (d1, i) =>
    match assign_fill_loop default count d1 i (loop_fuel a.data) with
    | none => none
    | some (d2, _) => some { a with data := d2, size := mx }

/-- Source constructor `plain_array(size_type count, const value_type &value)`:
`assign(count, value);` on the members as default-initialised. -/
def construct_fill [Inhabited α] (safe : Bool) (N : Nat) (count : Nat) (value : α) :
    Option (plain_array α) :=
  assign_fill N (empty safe N) count value

/-- The loop `for (; _size < N && first != last; ++first) { data()[_size] = *first; _size++; }`
of `assign(It first, It2 last)` over a range with the values `src`. -/
def assign_loop (N : Nat) : plain_array α → List α → Option (plain_array α)
  | a, [] => some a
  | a, x :: rest =>
    if a.size < N then
      match store a.data a.size x with
      | none => none
      | some d => assign_loop N { a with data := d, size := a.size + 1 } rest
    else some a

/-- Source `assign(It first, It2 last)`: `_size = 0;` and the loop. -/
def assign_range (N : Nat) (a : plain_array α) (src : List α) : Option (plain_array α) :=
  assign_loop N { a with size := 0 } src

/-- Source move constructor `plain_array(plain_array &&other)`:
`assign(std::make_move_iterator(other.begin()), std::make_move_iterator(other.end()));`
on the members as default-initialised.  Returns the new object and `other`; a
moved-from element keeps its value.  Reading `[begin(), end())` of an object whose
size exceeds its block is undefined. -/
def move_construct [Inhabited α] (safe : Bool) (N : Nat) (other : plain_array α) :
    Option (plain_array α × plain_array α) :=
  if other.size ≤ other.data.length then
    match assign_range N (empty safe N) (elements other) with
    | none => none
    | some t => some (t, other)
  else none

/-- Source move assignment `operator=(plain_array &&other)` on two objects (the guard
`this == &other` is for one object):
`plain_array(std::forward<plain_array &&>(other)); return *this;` -- the statement
move-constructs a temporary, which is destroyed at the end of the statement; no
member of `*this` is assigned.  Returns `*this` and `other`. -/
def move_assign [Inhabited α] (safe : Bool) (N : Nat) (a other : plain_array α) :
    Option (plain_array α × plain_array α) :=
  match move_construct safe N other with
  | none => none
  | some (_temporary, other1) => some (a, other1)

/-- Every call of the sequence is an `unchecked_emplace_back` or a `checked_call` of
the state it is applied to. -/
def emplace_or_push_calls [Inhabited α] (safe : Bool) (N : Nat) :
    plain_array α → List (Op α) → Bool
  | _, [] => true
  | a, op :: ops =>
    (match op with
      | .unchecked_emplace_back _ => true
      | _ => checked_call a op) &&
      match step safe N a op with
      | none => true
      | some a1 => emplace_or_push_calls safe N a1 ops

/-- A full `plain_array_safe<int, 4>` holding `[1, 2, 3, 4]`, as four calls of
`emplace_back` leave it; the fifth slot is the spare one. -/
def four_full_safe : plain_array Int := { data := [1, 2, 3, 4, 0], size := 4, overrun := true }

/-- A `plain_array<int, 4>` holding `[1, 2, 3]`, as three calls of `emplace_back` on an
empty array leave it. -/
def three_of_four_slots : plain_array Int := { data := [1, 2, 3, 0], size := 3, overrun := false }

/-- A `plain_array<int, 8>` holding `[1, 2, 3, 4, 5]`. -/
def five_of_eight_slots : plain_array Int :=
  { data := [1, 2, 3, 4, 5, 0, 0, 0], size := 5, overrun := false }

end plain_array
end containers

namespace real

open containers (SIZE_T_MOD loop_fuel store const_reference)

/-- Largest value of a `ptrdiff_t`; no allocation has more slots, since
`_end - _begin` must be representable. -/
def PTRDIFF_MAX : Nat := 2 ^ 63 - 1

/-- Source `default_expansion_policy::grow_capacity`: `return required_capacity;` -/
def default_expansion_policy.grow_capacity (_size _capacity required_capacity : Nat) : Nat :=
  required_capacity

/-- Source `geometric_int_expansion_policy<N>::grow_capacity`:
`expanded_capacity = (capacity ? capacity : 1) * N;` in `size_t`, then
`return expanded_capacity < required_capacity ? required_capacity : expanded_capacity;` -/
def geometric_int_expansion_policy.grow_capacity (N : Nat) (_size capacity required_capacity : Nat) :
    Nat :=
  let expanded_capacity := ((if capacity ≠ 0 then capacity else 1) * N) % SIZE_T_MOD
  if expanded_capacity < required_capacity then required_capacity else expanded_capacity

/-- What the element type and the allocator type fix: `sizeof(T)` and
`std::allocator_traits<allocator_type>::max_size(get_allocator())`. -/
structure Traits where
  sizeof_T : Nat
  allocator_max_size : Nat
  deriving DecidableEq, Repr

/-- Source `max_size()`. -/
def max_size (t : Traits) : Nat :=
  let system_max_size := (SIZE_T_MOD - 1) / t.sizeof_T
  let allocator_max_size := t.allocator_max_size
  if system_max_size < allocator_max_size then system_max_size else allocator_max_size

/-- How a member function can fail: the two exceptions thrown by the source,
undefined behaviour (a load or store outside the allocation), a statement
that does not type-check, so that no call of the function compiles, and an
exception thrown by a constructor of the element type. -/
inductive failure where
  | length_error
  | out_of_range
  | undefined
  | ill_formed
  | element_exception
  deriving DecidableEq, Repr

deriving instance DecidableEq for Except

/-- A call made on the allocator. -/
inductive alloc_event where
  | allocate (ptr count : Nat)
  | deallocate (ptr count : Nat)
  deriving DecidableEq, Repr

/-- The state of a `real::vector<T, Allocator>`.  A slot of the allocation holds
`some x` when an object `x` is constructed there and `none` when it is raw
memory.  The allocator is assumed never to run out of memory. -/
structure vector (α : Type) where
  /-- Field `_begin`: `none` is `nullptr`, `some p` the allocation numbered `p`. -/
  begin_ : Option Nat
  /-- The slots of the allocation `_begin` points to. -/
  mem : List (Option α)
  /-- The difference `_end - _begin`. -/
  size : Nat
  /-- Field `_capacity_allocator.second()`. -/
  capacity : Nat
  /-- The calls made on the allocator so far, oldest first. -/
  heap : List alloc_event
  deriving DecidableEq, Repr

namespace vector

variable {α : Type}

/-- Default constructor: null pointers, capacity `0`. -/
def empty : vector α := { begin_ := none, mem := [], size := 0, capacity := 0, heap := [] }

/-- The slots `[begin(), end())`. -/
def live (v : vector α) : List (Option α) := v.mem.take v.size

/-- Number of `allocate` calls made so far. -/
def allocations (v : vector α) : Nat :=
  (v.heap.filter fun e => match e with
    | .allocate _ _ => true
    | .deallocate _ _ => false).length

/-- A vector in a consistent state: the capacity field is the number of slots of
the allocation, `begin <= end <= begin + capacity`, every slot before `end` holds
an object, a null `_begin` goes with capacity `0`, and the allocation is no
larger than `PTRDIFF_MAX`. -/
def Valid (v : vector α) : Prop :=
  v.capacity = v.mem.length ∧ v.size ≤ v.capacity ∧ v.capacity ≤ PTRDIFF_MAX ∧
    (v.begin_ = none → v.capacity = 0) ∧ ∀ s ∈ live v, s ≠ none

instance [DecidableEq α] (v : vector α) : Decidable (Valid v) := by
  unfold Valid
  infer_instance

/-- Pointer returned by the next `allocate` call: distinct from all earlier ones. -/
def fresh_ptr (v : vector α) : Nat := v.heap.length + 1

/-- Std `uninitialized_copy(make_move_iterator(first), make_move_iterator(last), d_first)`
from the block `src` into the block `dst`:
`for (; first != last; ++first, ++d_first) construct *d_first from *first`. -/
def uninitialized_copy {β : Type} (src : List β) (first last : Nat) (dst : List β) (d_first : Nat) :
    Nat → Option (List β)
  | 0 => none
  | fuel + 1 =>
    if first = last then some dst
    else
      match src[first]? with
      | none => none
      | some x =>
        match store dst d_first x with
        | none => none
        | some dst1 => uninitialized_copy src (first + 1) last dst1 (d_first + 1) fuel

/-- The loop of `erase`:
`for (; first != last; ++dest, (void)++first) *dest = std::move(*first);` -/
def move_down {β : Type} (m : List β) (first last dest : Nat) : Nat → Option (List β)
  | 0 => none
  | fuel + 1 =>
    if first = last then some m
    else
      match m[first]? with
      | none => none
      | some x =>
        match store m dest x with
        | none => none
        | some m1 => move_down m1 (first + 1) last (dest + 1) fuel

/-- The loop of `emplace` and `insert(pos, count, value)`:
`for (; target != last; target--, start--) construct(target, std::move(*start));`
Returns the block and the final `target`. -/
def move_construct_backward {β : Type} (m : List β) (target last start : Nat) :
    Nat → Option (List β × Nat)
  | 0 => none
  | fuel + 1 =>
    if target = last then some (m, target)
    else
      match m[start]? with
      | none => none
      | some x =>
        match store m target x with
        | none => none
        | some m1 =>
          if target = 0 ∨ start = 0 then none
          else move_construct_backward m1 (target - 1) last (start - 1) fuel

/-- Source `details::destroy(first, last)`: `for (; first != last; ++first) destroy_at(first)`;
a destroyed slot is raw memory again. -/
def destroy (m : List (Option α)) (first last : Nat) (fuel : Nat) : Option (List (Option α)) :=
  containers.fill m first last none fuel

/-- Source `reserve(new_capacity)`. -/
def reserve (t : Traits) (v : vector α) (new_capacity : Nat) : Except failure (vector α) :=
  let old_size := v.size
  let old_capacity := v.capacity
  if old_capacity < new_capacity then
    if new_capacity > max_size t then .error .length_error
    else
      let newdata := fresh_ptr v
      let heap1 := v.heap ++ [.allocate newdata new_capacity]
      match uninitialized_copy v.mem 0 old_size (List.replicate new_capacity none) 0
          (loop_fuel v.mem) with
      | none => .error .undefined
      | some newmem =>
        let heap2 :=
          match v.begin_ with
          | some old_begin => heap1 ++ [.deallocate old_begin old_capacity]
          | none => heap1
        .ok { begin_ := some newdata, mem := newmem, size := old_size,
              capacity := new_capacity, heap := heap2 }
  else .ok v

/-- Source `full()`: `return size() >= capacity();` -/
def full (v : vector α) : Bool := decide (v.size ≥ v.capacity)

/-- Load through a reference while the vector's block is `mem`; reading a slot that
holds no object, or a slot outside the block, is undefined. -/
def load (mem : List (Option α)) : const_reference α → Option α
  | .outside x => some x
  | .element i =>
    match mem[i]? with
    | some (some y) => some y
    | _ => none

/-- Load through a reference that was bound when the vector was `v`, the vector now
being `v1`.  A reference to an element names a slot of the block `v` had; once an
allocator call has been made since (`reserve` deallocates the old block after
allocating the new one) that block is gone and the load is undefined. -/
def load_after (v v1 : vector α) : const_reference α → Option α
  | .outside x => some x
  | .element i => if v1.heap = v.heap then load v1.mem (.element i) else none

/-- Source `emplace_back(Args &&...args)` with one argument, as `push_back(value)`
calls it: returns the new state and the index of the slot whose reference is
returned.  The argument is forwarded by reference and read in
`construct(_end, args...)`, after the call of `reserve`. -/
def emplace_back (t : Traits) (v : vector α) (x : const_reference α) :
    Except failure (vector α × Nat) :=
  let grown :=
    if full v then
      let target_capacity := geometric_int_expansion_policy.grow_capacity 2 v.size v.capacity
        ((v.capacity + 1) % SIZE_T_MOD)
      reserve t v target_capacity
    else .ok v
  match grown with
  | .error e => .error e
  | .ok v1 =>
    let it := v1.size
    match load_after v v1 x with
    | none => .error .undefined
    | some y =>
      match store v1.mem it (some y) with
      | none => .error .undefined
      | some m => .ok ({ v1 with mem := m, size := v1.size + 1 }, it)

/-- Source `unchecked_emplace_back`; the argument is read before the store. -/
def unchecked_emplace_back (v : vector α) (x : α) : Except failure (vector α × Nat) :=
  let it := v.size
  match store v.mem it (some x) with
  | none => .error .undefined
  | some m => .ok ({ v with mem := m, size := v.size + 1 }, it)

/-- Source `push_back(const T &value)`: `emplace_back(std::forward<const T &>(value));` -/
def push_back (t : Traits) (v : vector α) (x : const_reference α) : Except failure (vector α) :=
  match emplace_back t v x with
  | .error e => .error e
  | .ok (v1, _) => .ok v1

/-- Source `emplace(pos, Args &&...args)` with one argument, as `insert(pos, value)`
calls it; `pos` is `begin() + pos`.  Returns the new state and the index of the
returned iterator.  The argument is forwarded by reference and read where the source
constructs from it: in `unchecked_emplace_back` or `emplace_back`, in
`construct(pos, args...)` after the loop, or in `construct(newdata + insert_idx,
args...)` while the old block is still allocated. -/
def emplace (t : Traits) (v : vector α) (pos : Nat) (x : const_reference α) :
    Except failure (vector α × Nat) :=
  let insert_idx := pos
  if v.size < v.capacity then
    if pos = v.size then
      match load v.mem x with
      | none => .error .undefined
      | some y =>
        match unchecked_emplace_back v y with
        | .error e => .error e
        | .ok (v1, _) => .ok (v1, insert_idx)
    else
      let start := v.size
      let last := start
      let target := start + 1
      match move_construct_backward v.mem target last start (loop_fuel v.mem) with
      | none => .error .undefined
      | some (m, target1) =>
        match load m x with
        | none => .error .undefined
        | some y =>
          match store m pos (some y) with
          | none => .error .undefined
          | some m1 => .ok ({ v with mem := m1, size := target1 }, insert_idx)
  else
    if pos = v.size then
      match emplace_back t v x with
      | .error e => .error e
      | .ok (v1, _) => .ok (v1, insert_idx)
    else
      let new_capacity := geometric_int_expansion_policy.grow_capacity 2 v.size v.capacity
        ((v.capacity + 1) % SIZE_T_MOD)
      let newdata := fresh_ptr v
      let heap1 := v.heap ++ [.allocate newdata new_capacity]
      match load v.mem x with
      | none => .error .undefined
      | some y =>
        match store (List.replicate new_capacity none) insert_idx (some y) with
        | none => .error .undefined
        | some m1 =>
          match uninitialized_copy v.mem 0 insert_idx m1 0 (loop_fuel v.mem) with
          | none => .error .undefined
          | some m2 =>
            match uninitialized_copy v.mem insert_idx v.size m2 (insert_idx + 1)
                (loop_fuel v.mem) with
            | none => .error .undefined
            | some m3 =>
              let heap2 :=
                match v.begin_ with
                | some old_begin => heap1 ++ [.deallocate old_begin v.capacity]
                | none => heap1
              let old_size := v.size
              .ok ({ begin_ := some newdata, mem := m3, size := old_size + 1,
                     capacity := new_capacity, heap := heap2 }, insert_idx)

/-- Source `insert(const_iterator pos, const T &value)`: `return emplace(pos, value);` -/
def insert (t : Traits) (v : vector α) (pos : Nat) (x : const_reference α) :
    Except failure (vector α × Nat) :=
  emplace t v pos x

/-- Source `erase(const_iterator pos)`. -/
def erase (v : vector α) (pos : Nat) : Except failure (vector α × Nat) :=
  let erase_idx := pos
  match move_down v.mem (erase_idx + 1) v.size erase_idx (loop_fuel v.mem) with
  | none => .error .undefined
  | some m =>
    if v.size = 0 then .error .undefined
    else
      match store m (v.size - 1) none with
      | none => .error .undefined
      | some m1 => .ok ({ v with mem := m1, size := v.size - 1 }, erase_idx)

/-- Source `erase(const_iterator first, const_iterator last)`.  Outside the asserted
precondition `first <= last <= end()` the count `last - first` wraps or the loop
starts beyond `end()`, and the pointers leave the allocation. -/
def erase_range (v : vector α) (first last : Nat) : Except failure (vector α × Nat) :=
  let erase_idx := first
  if first ≠ last then
    if last < first ∨ v.size < last then .error .undefined
    else
      let erase_count := last - first
      match move_down v.mem (erase_idx + erase_count) v.size erase_idx (loop_fuel v.mem) with
      | none => .error .undefined
      | some m =>
        match destroy m (v.size - erase_count) v.size (loop_fuel v.mem) with
        | none => .error .undefined
        | some m1 => .ok ({ v with mem := m1, size := v.size - erase_count }, erase_idx)
  else .ok (v, erase_idx)

/-- A call of a member function that reserves, appends, inserts or erases, with
iterator arguments given as indices from `begin()` and value arguments that are
objects outside the vector's storage. -/
inductive Op (α : Type) where
  | reserve (new_capacity : Nat)
  | push_back (value : α)
  | emplace_back (value : α)
  | insert (pos : Nat) (value : α)
  | emplace (pos : Nat) (value : α)
  | erase (pos : Nat)
  | erase_range (first last : Nat)
  deriving DecidableEq, Repr

/-- Drops the returned iterator or reference. -/
def state_of (r : Except failure (vector α × Nat)) : Except failure (vector α) :=
  match r with
  | .error e => .error e
  | .ok (v1, _) => .ok v1

/-- The state after one call. -/
def step (t : Traits) (v : vector α) : Op α → Except failure (vector α)
  | .reserve n => reserve t v n
  | .push_back x => push_back t v (.outside x)
  | .emplace_back x => state_of (emplace_back t v (.outside x))
  | .insert pos x => state_of (insert t v pos (.outside x))
  | .emplace pos x => state_of (emplace t v pos (.outside x))
  | .erase pos => state_of (erase v pos)
  | .erase_range first last => state_of (erase_range v first last)

/-- The state after a sequence of calls. -/
def run (t : Traits) : vector α → List (Op α) → Except failure (vector α)
  | v, [] => .ok v
  | v, op :: ops =>
    match step t v op with
    | .error e => .error e
    | .ok v1 => run t v1 ops

/-- Reference semantics of a call on a list: insertion and removal at the same
indices; `reserve` does not change the elements. -/
def ref_step (xs : List α) : Op α → List α
  | .reserve _ => xs
  | .push_back x => xs ++ [x]
  | .emplace_back x => xs ++ [x]
  | .insert pos x => xs.take pos ++ [x] ++ xs.drop pos
  | .emplace pos x => xs.take pos ++ [x] ++ xs.drop pos
  | .erase pos => xs.eraseIdx pos
  | .erase_range first last => xs.take first ++ xs.drop last

/-- Reference semantics of a sequence of calls. -/
def ref_run : List α → List (Op α) → List α
  | xs, [] => xs
  | xs, op :: ops => ref_run (ref_step xs op) ops

/-- Traits of `real::vector<int>` with `std::allocator<int>`: `sizeof(int) == 4`, and
the allocator's `max_size()` is `PTRDIFF_MAX / sizeof(int)`. -/
def int_traits : Traits := { sizeof_T := 4, allocator_max_size := PTRDIFF_MAX / 4 }

/-- Traits of a `real::vector<int, A>` whose allocator `A` reports `max_size() == 5`. -/
def small_allocator_traits : Traits := { sizeof_T := 4, allocator_max_size := 5 }

/-- The vector after `reserve(4); push_back(1); push_back(2);`. -/
def two_of_four : vector Int :=
  { begin_ := some 1, mem := [some 1, some 2, none, none], size := 2, capacity := 4,
    heap := [.allocate 1 4] }

/-- The vector after `reserve(8); push_back(1); push_back(2); push_back(3);`. -/
def three_of_eight : vector Int :=
  { begin_ := some 1, mem := [some 1, some 2, some 3, none, none, none, none, none], size := 3,
    capacity := 8, heap := [.allocate 1 8] }

/-- The vector after `reserve(4); push_back(1); push_back(2); push_back(3); push_back(4);`. -/
def four_of_four : vector Int :=
  { begin_ := some 1, mem := [some 1, some 2, some 3, some 4], size := 4, capacity := 4,
    heap := [.allocate 1 4] }

/-- Subtraction `a - b` of two `size_t` values. -/
def size_t_sub (a b : Nat) : Nat := (a + SIZE_T_MOD - b % SIZE_T_MOD) % SIZE_T_MOD

/-- Source `can_store(count)`: `return (capacity() - size()) >= count;` -/
def can_store (v : vector α) (count : Nat) : Bool :=
  decide (size_t_sub v.capacity v.size ≥ count)

/-- Std `uninitialized_fill(first, last, value)`:
`for (; first != last; ++first) construct *first from value`. -/
def uninitialized_fill (m : List (Option α)) (first last : Nat) (x : α) (fuel : Nat) :
    Option (List (Option α)) :=
  containers.fill m first last (some x) fuel

/-- Std `uninitialized_copy(first, last, d_first)` for a source range outside the
vector; `rs` lists the values `*first, ..., *(last - 1)`. -/
def uninitialized_copy_range : List α → List (Option α) → Nat → Option (List (Option α))
  | [], dst, _ => some dst
  | x :: rest, dst, d_first =>
    match store dst d_first (some x) with
    | none => none
    | some dst1 => uninitialized_copy_range rest dst1 (d_first + 1)

/-- Source `_cleanup()`: `if (_begin) { destroy(_begin, _end); deallocate(_begin, capacity());
_begin = nullptr; _end = nullptr; capacity = 0; }` -/
def cleanup (v : vector α) : Except failure (vector α) :=
  match v.begin_ with
  | none => .ok v
  | some old_begin =>
    match destroy v.mem 0 v.size (loop_fuel v.mem) with
    | none => .error .undefined
    | some _ =>
      .ok { begin_ := none, mem := [], size := 0, capacity := 0,
            heap := v.heap ++ [.deallocate old_begin v.capacity] }

/-- Source `clear()`: `destroy(_begin, _end); _end = _begin;` (the `destroy` call is
compiled out for a trivially constructible `T`; the slots after `_end` hold no
object either way). -/
def clear (v : vector α) : Except failure (vector α) :=
  match destroy v.mem 0 v.size (loop_fuel v.mem) with
  | none => .error .undefined
  | some m => .ok { v with mem := m, size := 0 }

/-- Source `cleared_reserve(new_capacity)`. -/
def cleared_reserve (v : vector α) (new_capacity : Nat) : Except failure (vector α) :=
  let newdata := fresh_ptr v
  let heap1 := v.heap ++ [.allocate newdata new_capacity]
  match v.begin_ with
  | none =>
    .ok { begin_ := some newdata, mem := List.replicate new_capacity none, size := 0,
          capacity := new_capacity, heap := heap1 }
  | some old_begin =>
    match destroy v.mem 0 v.size (loop_fuel v.mem) with
    | none => .error .undefined
    | some _ =>
      .ok { begin_ := some newdata, mem := List.replicate new_capacity none, size := 0,
            capacity := new_capacity, heap := heap1 ++ [.deallocate old_begin v.capacity] }

/-- Source `unchecked_reserve(new_capacity)`. -/
def unchecked_reserve (v : vector α) (new_capacity : Nat) : Except failure (vector α) :=
  let old_size := v.size
  let old_capacity := v.capacity
  let required_capacity := max old_size new_capacity
  let newdata := fresh_ptr v
  let heap1 := v.heap ++ [.allocate newdata required_capacity]
  match uninitialized_copy v.mem 0 old_size (List.replicate required_capacity none) 0
      (loop_fuel v.mem) with
  | none => .error .undefined
  | some newmem =>
    let heap2 :=
      match v.begin_ with
      | some old_begin => heap1 ++ [.deallocate old_begin old_capacity]
      | none => heap1
    .ok { begin_ := some newdata, mem := newmem, size := old_size,
          capacity := required_capacity, heap := heap2 }

/-- Source `shrink_to_fit()`; `_begin == _end` is `size() == 0`. -/
def shrink_to_fit (v : vector α) : Except failure (vector α) :=
  if v.size ≠ v.capacity then
    if v.size = 0 then cleanup v
    else unchecked_reserve v v.size
  else .ok v

/-- Source `assign(size_type count, const T &value)`, for a `value` that is not a
reference into the vector (the precondition of `assign` in the standard). -/
def assign_fill (v : vector α) (count : Nat) (x : α) : Except failure (vector α) :=
  match clear v with
  | .error e => .error e
  | .ok v1 =>
    let reserved : Except failure (vector α) :=
      if count > v1.capacity then cleared_reserve v1 count else .ok v1
    match reserved with
    | .error e => .error e
    | .ok v2 =>
      match uninitialized_fill v2.mem 0 count x (loop_fuel v2.mem) with
      | none => .error .undefined
      | some m => .ok { v2 with mem := m, size := count }

/-- The loop `for (; first != last; ++first) unchecked_emplace_back(*first);` over a
range with the values `rs`. -/
def unchecked_emplace_back_all : vector α → List α → Except failure (vector α)
  | v, [] => .ok v
  | v, x :: rest =>
    match unchecked_emplace_back v x with
    | .error e => .error e
    | .ok (v1, _) => unchecked_emplace_back_all v1 rest

/-- Source `assign(Iterator first, Iterator last)` for a range outside the vector with
the values `rs`; `random_access` selects the branch of the `if constexpr` on the
iterator category. -/
def assign_range (random_access : Bool) (v : vector α) (rs : List α) :
    Except failure (vector α) :=
  let count := rs.length
  match clear v with
  | .error e => .error e
  | .ok v1 =>
    let reserved : Except failure (vector α) :=
      if count > v1.capacity then cleared_reserve v1 count else .ok v1
    match reserved with
    | .error e => .error e
    | .ok v2 =>
      if random_access then
        match uninitialized_copy_range rs v2.mem v2.size with
        | none => .error .undefined
        | some m => .ok { v2 with mem := m, size := count }
      else unchecked_emplace_back_all v2 rs

/-- The values of the objects in a run of slots; `none` if a slot holds no object. -/
def read_range : List (Option α) → Option (List α)
  | [] => some []
  | none :: _ => none
  | some x :: rest =>
    match read_range rest with
    | none => none
    | some xs => some (x :: xs)

/-- Source `operator=(const vector &other)` for two distinct objects `a` (`*this`) and
`b` (`other`); returns both.  `pocca` is `propagate_on_container_copy_assignment`,
`allocators_differ` is `!is_always_equal && allocator != other.allocator`; with
`std::allocator`, `pocca` is false.  The argument range `other.begin(), other.end()`
is a pair of pointers, hence random access. -/
def copy_assign (pocca allocators_differ : Bool) (a b : vector α) :
    Except failure (vector α × vector α) :=
  let cleaned : Except failure (vector α) :=
    if pocca && allocators_differ then cleanup a else .ok a
  match cleaned with
  | .error e => .error e
  | .ok a1 =>
    match read_range (live b) with
    | none => .error .undefined
    | some rs =>
      match assign_range true a1 rs with
      | .error e => .error e
      | .ok a2 => .ok (a2, b)

/-- Source `operator=(vector &&other)` for two distinct objects `a` (`*this`) and `b`
(`other`); returns both: `_cleanup(); _begin = std::move(other._begin);
_end = std::move(other._end); capacity = std::move(other.capacity);`.  `std::move` of a
pointer or of a `size_t` copies it, and nothing is assigned to `other`. -/
def move_assign (a b : vector α) : Except failure (vector α × vector α) :=
  match cleanup a with
  | .error e => .error e
  | .ok a1 =>
    .ok ({ a1 with begin_ := b.begin_, mem := b.mem, size := b.size, capacity := b.capacity }, b)

/-- Source `insert(const_iterator pos, size_type count, const T &value)`.  The function
has no `return` statement, so only the state is given.  In the reallocating branch
the statement `uninitialized_fill(newdata + insert_point, ...)` adds two pointers and
does not type-check. -/
def insert_count (v : vector α) (pos count : Nat) (x : α) : Except failure (vector α) :=
  if count ≠ 0 then
    let remaining_capacity := size_t_sub v.capacity v.size
    if count > remaining_capacity then .error .ill_formed
    else
      let start := v.size
      let last := start
      let target := start + count
      match move_construct_backward v.mem target last start (loop_fuel v.mem) with
      | none => .error .undefined
      | some (m, target1) =>
        match uninitialized_fill m pos (pos + count) x (loop_fuel v.mem) with
        | none => .error .undefined
        | some m1 => .ok { v with mem := m1, size := target1 }
  else .ok v

/-- The loop `for (; first != last && size() < capacity(); ++first)
unchecked_emplace_back(*first);` of `insert_range`; returns the vector and the rest of
the range. -/
def append_while_spare : vector α → List α → Except failure (vector α × List α)
  | v, [] => .ok (v, [])
  | v, x :: rest =>
    if v.size < v.capacity then
      match unchecked_emplace_back v x with
      | .error e => .error e
      | .ok (v1, _) => append_while_spare v1 rest
    else .ok (v, x :: rest)

/-- The loop `for (; first != last; ++first) emplace_back(*first);` of `insert_range`. -/
def emplace_back_all (t : Traits) : vector α → List α → Except failure (vector α)
  | v, [] => .ok v
  | v, x :: rest =>
    match emplace_back t v (.outside x) with
    | .error e => .error e
    | .ok (v1, _) => emplace_back_all t v1 rest

/-- The statements of `insert_range` that append the range behind `end()`, one branch
of the `if constexpr` per iterator category. -/
def insert_range_append (t : Traits) (random_access : Bool) (policy : Nat → Nat → Nat → Nat)
    (v : vector α) (rs : List α) : Except failure (vector α) :=
  let old_size := v.size
  if random_access then
    let insert_count := rs.length
    let grown : Except failure (vector α) :=
      if can_store v insert_count then .ok v
      else
        let target_capacity := policy old_size v.capacity
          ((v.capacity + insert_count) % SIZE_T_MOD)
        reserve t v target_capacity
    match grown with
    | .error e => .error e
    | .ok v1 =>
      match uninitialized_copy_range rs v1.mem v1.size with
      | none => .error .undefined
      | some m => .ok { v1 with mem := m, size := v1.size + insert_count }
  else
    match append_while_spare v rs with
    | .error e => .error e
    | .ok (v1, rest) => emplace_back_all t v1 rest

/-- Source `insert_range(pos, first, last, ExpansionPolicy)` for a range outside the
vector with the values `rs`.  `policy` is `ExpansionPolicy::grow_capacity` and
`random_access` selects the branch of the `if constexpr`.  The returned iterator
`ret_it = begin() + insert_idx` is computed on entry: it is given as the block it
points into and the index.  `std::rotate` is the rotation of `plain_array.h`
(`containers.rotate`), which has the effect the standard specifies. -/
def insert_range (t : Traits) (random_access : Bool) (policy : Nat → Nat → Nat → Nat)
    (v : vector α) (pos : Nat) (rs : List α) :
    Except failure (vector α × (Option Nat × Nat)) :=
  let insert_idx := pos
  let ret_it := (v.begin_, insert_idx)
  match rs with
  | [] => .ok (v, ret_it)
  | _ :: _ =>
    let old_size := v.size
    match insert_range_append t random_access policy v rs with
    | .error e => .error e
    | .ok v2 =>
      match containers.rotate v2.mem insert_idx old_size v2.size (loop_fuel v2.mem) with
      | none => .error .undefined
      | some m => .ok ({ v2 with mem := m }, ret_it)

/-- Source `insert(const_iterator pos, InputIt first, InputIt last)`:
`return insert_range(pos, first, last);`.  `insert_range` has a fourth parameter, the
expansion policy, with no default argument and no way to deduce it: the call does
not type-check. -/
def insert_first_last (_v : vector α) (_pos : Nat) (_rs : List α) :
    Except failure (vector α × (Option Nat × Nat)) :=
  .error .ill_formed

/-- One `push_back` in a program that catches `length_error`: the vector after the
call.  `reserve` throws before it changes anything, so a call that throws leaves the
vector as it was.  `none` when the call has no defined outcome. -/
def push_back_caught (t : Traits) (v : vector α) (x : α) : Option (vector α) :=
  match push_back t v (.outside x) with
  | .ok v1 => some v1
  | .error .length_error => some v
  | .error _ => none

/-- The capacity before the first and after each of the successive `push_back` calls
with the values `xs`. -/
def capacities (t : Traits) : vector α → List α → Option (List Nat)
  | v, [] => some [v.capacity]
  | v, x :: xs =>
    match push_back_caught t v x with
    | none => none
    | some v1 =>
      match capacities t v1 xs with
      | none => none
      | some caps => some (v.capacity :: caps)

/-- Number of steps at which the value changes. -/
def capacity_changes : List Nat → Nat
  | a :: b :: rest => (if a ≠ b then 1 else 0) + capacity_changes (b :: rest)
  | _ => 0

/-- The value never decreases from one step to the next. -/
def non_decreasing : List Nat → Prop
  | a :: b :: rest => a ≤ b ∧ non_decreasing (b :: rest)
  | _ => True

/-- Source `at(pos)`: `if (!(pos < size())) throw std::out_of_range(...); return _begin[pos];`
Returns the members at the end of the call (no statement assigns one) and the
element or the exception. -/
def at_ (v : vector α) (pos : Nat) : vector α × Except failure α :=
  if ¬ (pos < v.size) then (v, .error .out_of_range)
  else
    match v.mem[pos]? with
    | some (some x) => (v, .ok x)
    | _ => (v, .error .undefined)

/-- Std `uninitialized_copy(make_move_iterator(first), make_move_iterator(last), d_first)`
for an element type whose move constructor can throw: `budget` constructions complete
and the next one throws.  On a throw the objects constructed so far, in
`[d_start, d_first)`, are destroyed and the exception leaves the call: the result is
the destination block and `none`.  Otherwise it is the block and the budget left. -/
def uninitialized_copy_throwing (src : List (Option α)) (first last : Nat)
    (dst : List (Option α)) (d_start d_first : Nat) (budget : Nat) :
    Nat → Option (List (Option α) × Option Nat)
  | 0 => none
  | fuel + 1 =>
    if first = last then some (dst, some budget)
    else
      match src[first]? with
      | none => none
      | some x =>
        match budget with
        | 0 =>
          match destroy dst d_start d_first (loop_fuel dst) with
          | none => none
          | some dst1 => some (dst1, none)
        | budget1 + 1 =>
          match store dst d_first x with
          | none => none
          | some dst1 =>
            uninitialized_copy_throwing src (first + 1) last dst1 d_start (d_first + 1) budget1
              fuel

/-- Source `reserve(new_capacity)` for an element type whose move constructor can throw
(`budget` as in `uninitialized_copy_throwing`): `try { uninitialized_copy(...); }
catch (...) { deallocate(newdata, new_capacity); throw; }`.  Returns the members at the
end of the call and the exception that leaves it, if any. -/
def reserve_throwing (t : Traits) (v : vector α) (new_capacity : Nat) (budget : Nat) :
    vector α × Option failure :=
  let old_size := v.size
  let old_capacity := v.capacity
  if old_capacity < new_capacity then
    if new_capacity > max_size t then (v, some .length_error)
    else
      let newdata := fresh_ptr v
      let heap1 := v.heap ++ [.allocate newdata new_capacity]
      match uninitialized_copy_throwing v.mem 0 old_size (List.replicate new_capacity none) 0 0
          budget (loop_fuel v.mem) with
      | none => (v, some .undefined)
      | some (_, none) =>
        ({ v with heap := heap1 ++ [.deallocate newdata new_capacity] },
          some .element_exception)
      | some (newmem, some _) =>
        let heap2 :=
          match v.begin_ with
          | some old_begin => heap1 ++ [.deallocate old_begin old_capacity]
          | none => heap1
        ({ begin_ := some newdata, mem := newmem, size := old_size,
           capacity := new_capacity, heap := heap2 }, none)
  else (v, none)

/-- The `try` block of the reallocating branch of `emplace`, for an element type whose
constructors can throw: `construct(newdata + insert_idx, args...);` then the two
`uninitialized_copy` calls for the prefix and the suffix.  Returns the new block and
whether an exception left the block. -/
def emplace_try (v : vector α) (insert_idx : Nat) (x : α) (block : List (Option α))
    (budget : Nat) : Option (List (Option α) × Bool) :=
  match budget with
  | 0 => some (block, true)
  | budget1 + 1 =>
    match store block insert_idx (some x) with
    | none => none
    | some m1 =>
      match uninitialized_copy_throwing v.mem 0 insert_idx m1 0 0 budget1 (loop_fuel v.mem) with
      | none => none
      | some (m2, none) => some (m2, true)
      | some (m2, some budget2) =>
        match uninitialized_copy_throwing v.mem insert_idx v.size m2 (insert_idx + 1)
            (insert_idx + 1) budget2 (loop_fuel v.mem) with
        | none => none
        | some (m3, none) => some (m3, true)
        | some (m3, some _) => some (m3, false)

/-- Source `emplace(pos, args...)`, the branch taken when `size() >= capacity()` and
`pos != cend()`, for an element type whose constructors can throw (`budget` as in
`uninitialized_copy_throwing`).  The handler is `catch (...) { destroy(newdata,
newdata + insert_idx + 1); deallocate(newdata, new_capacity); }` and does not rethrow;
the statements after it free the old buffer and assign the members.  A deallocated
block has no slots.  Returns the members at the end of the call and the exception that
leaves it, if any. -/
def emplace_reallocating (v : vector α) (pos : Nat) (x : α) (budget : Nat) :
    vector α × Option failure :=
  let insert_idx := pos
  let new_capacity := geometric_int_expansion_policy.grow_capacity 2 v.size v.capacity
    ((v.capacity + 1) % SIZE_T_MOD)
  let newdata := fresh_ptr v
  let heap1 := v.heap ++ [.allocate newdata new_capacity]
  match emplace_try v insert_idx x (List.replicate new_capacity none) budget with
  | none => (v, some .undefined)
  | some (m, threw) =>
    let handled : Option (List (Option α) × List alloc_event) :=
      if threw then
        match destroy m 0 (insert_idx + 1) (loop_fuel m) with
        | none => none
        | some _ => some ([], heap1 ++ [.deallocate newdata new_capacity])
      else some (m, heap1)
    match handled with
    | none => (v, some .undefined)
    | some (m1, heap2) =>
      let heap3 :=
        match v.begin_ with
        | some old_begin => heap2 ++ [.deallocate old_begin v.capacity]
        | none => heap2
      let old_size := v.size
      ({ begin_ := some newdata, mem := m1, size := old_size + 1, capacity := new_capacity,
         heap := heap3 }, none)

/-- Source `uncorrupted()`:
`return (_begin == nullptr && _end == nullptr && capacity == 0) ||
(_begin && _end >= _begin && (_end <= (_begin + capacity)));`
with `_end` at `_begin + size`. -/
def uncorrupted (v : vector α) : Bool :=
  (v.begin_.isNone && decide (v.size = 0) && decide (v.capacity = 0)) ||
    (v.begin_.isSome && decide (0 ≤ v.size) && decide (v.size ≤ v.capacity))

/-- Source `pop_back()`: `if (size()) { _end -= 1; end()->~element_type(); } else { }`
(the destructor call is compiled out for a trivially destructible `T`; the slot after
`_end` holds no object either way). -/
def pop_back (v : vector α) : Except failure (vector α) :=
  if v.size ≠ 0 then
    match store v.mem (v.size - 1) none with
    | none => .error .undefined
    | some m => .ok { v with mem := m, size := v.size - 1 }
  else .ok v

/-- A call of one of the mutating member functions, with iterator arguments given as
indices from `begin()`, value arguments that are objects outside the vector's storage,
ranges as the values they yield and the other vector of an assignment as a second
state. -/
inductive Call (α : Type) where
  | reserve (new_capacity : Nat)
  | emplace_back (value : α)
  | push_back (value : α)
  | pop_back
  | clear
  | emplace (pos : Nat) (value : α)
  | insert (pos : Nat) (value : α)
  | erase (pos : Nat)
  | erase_range (first last : Nat)
  | assign_fill (count : Nat) (value : α)
  | assign_range (random_access : Bool) (rs : List α)
  | copy_assign (pocca allocators_differ : Bool) (other : vector α)
  | move_assign (other : vector α)
  | shrink_to_fit

/-- The vector after the call; the returned iterator or reference and the other
vector of an assignment are dropped. -/
def call (t : Traits) (v : vector α) : Call α → Except failure (vector α)
  | .reserve n => reserve t v n
  | .emplace_back x => state_of (emplace_back t v (.outside x))
  | .push_back x => push_back t v (.outside x)
  | .pop_back => pop_back v
  | .clear => clear v
  | .emplace pos x => state_of (emplace t v pos (.outside x))
  | .insert pos x => state_of (insert t v pos (.outside x))
  | .erase pos => state_of (erase v pos)
  | .erase_range first last => state_of (erase_range v first last)
  | .assign_fill count x => assign_fill v count x
  | .assign_range random_access rs => assign_range random_access v rs
  | .copy_assign pocca allocators_differ other =>
    match copy_assign pocca allocators_differ v other with
    | .error e => .error e
    | .ok (v1, _) => .ok v1
  | .move_assign other =>
    match move_assign v other with
    | .error e => .error e
    | .ok (v1, _) => .ok v1
  | .shrink_to_fit => shrink_to_fit v

/-- The asserted preconditions of the call: an insertion position in
`[begin(), end()]`, an erase position in `[begin(), end())`, an erase range with
`first <= last <= end()`; the other vector of an assignment is a `Valid` vector. -/
def within_preconditions (v : vector α) : Call α → Prop
  | .emplace pos _ => pos ≤ v.size
  | .insert pos _ => pos ≤ v.size
  | .erase pos => pos < v.size
  | .erase_range first last => first ≤ last ∧ last ≤ v.size
  | .copy_assign _ _ other => Valid other
  | .move_assign other => Valid other
  | _ => True

/-- The vector after `reserve(4); push_back(1); push_back(2); push_back(3);`: one slot
is spare. -/
def three_of_four : vector Int :=
  { begin_ := some 1, mem := [some 1, some 2, some 3, none], size := 3, capacity := 4,
    heap := [.allocate 1 4] }

end vector
end real

/-- The state of a `stable_stack<T, N>`. -/
structure stable_stack (α : Type) where
  /-- Field `_data`: the owned blocks in order.  A block is the address the
  `unique_ptr` holds together with the `N` slots of its `std::array<T, N>`. -/
  data : List (Nat × List α)
  /-- Field `_size`. -/
  size : Nat
  /-- Field `_capacity`. -/
  capacity : Nat
  /-- Number of blocks allocated so far: `make_unique` returns an address that no
  earlier block has. -/
  allocated : Nat
  deriving DecidableEq, Repr

namespace stable_stack

variable {α : Type}

/-- Default construction: no block, size and capacity `0`. -/
def empty : stable_stack α := { data := [], size := 0, capacity := 0, allocated := 0 }

/-- Source `emplace_back`.  `_size / N` with `N == 0` is undefined, as is indexing
`_data` or the block outside its bounds.  Returns the new state and the
position `(d, r)` of the slot whose reference is returned. -/
def emplace_back [Inhabited α] (N : Nat) (s : stable_stack α) (value : α) :
    Option (stable_stack α × (Nat × Nat)) :=
  if N = 0 then none
  else
    let d := s.size / N
    let r := s.size % N
    let s1 :=
      if s.size = s.capacity then
        { s with data := s.data ++ [(s.allocated + 1, List.replicate N default)],
                 capacity := s.capacity + N, allocated := s.allocated + 1 }
      else s
    let s2 := { s1 with size := s1.size + 1 }
    match s2.data[d]? with
    | none => none
    | some (addr, block) =>
      match containers.store block r value with
      | none => none
      | some block1 => some ({ s2 with data := s2.data.set d (addr, block1) }, (d, r))

/-- Source `push(value)`: `emplace_back(value);` -/
def push [Inhabited α] (N : Nat) (s : stable_stack α) (value : α) : Option (stable_stack α) :=
  (emplace_back N s value).map Prod.fst

/-- Source `push_back(value)`: `emplace_back(value);` -/
def push_back [Inhabited α] (N : Nat) (s : stable_stack α) (value : α) : Option (stable_stack α) :=
  (emplace_back N s value).map Prod.fst

/-- Source `pop_back`: `_size -= (_size > 0);` -/
def pop_back (s : stable_stack α) : stable_stack α :=
  { s with size := s.size - (if s.size > 0 then 1 else 0) }

/-- Source `pop`: `pop_back();` -/
def pop (s : stable_stack α) : stable_stack α := pop_back s

/-- Where `operator[](pos)` looks: the address of block `pos / N` and the offset
`pos % N` in it; `none` when `_data` has no such block. -/
def address (N : Nat) (s : stable_stack α) (pos : Nat) : Option (Nat × Nat) :=
  if N = 0 then none
  else
    let d := pos / N
    let r := pos % N
    match s.data[d]? with
    | none => none
    | some (addr, _) => some (addr, r)

/-- Source `operator[](pos)`: `_data[pos / N]->operator[](pos % N)`. -/
def get (N : Nat) (s : stable_stack α) (pos : Nat) : Option α :=
  if N = 0 then none
  else
    let d := pos / N
    let r := pos % N
    match s.data[d]? with
    | none => none
    | some (_, block) => block[r]?

/-- Source `back()`: `return operator[](_size - 1);`, the subtraction in `size_t`. -/
def back (N : Nat) (s : stable_stack α) : Option α :=
  get N s ((s.size + containers.SIZE_T_MOD - 1) % containers.SIZE_T_MOD)

/-- Source `top()`: `return back();` -/
def top (N : Nat) (s : stable_stack α) : Option α := back N s

/-- The addresses of the owned blocks, in order. -/
def block_addresses (s : stable_stack α) : List Nat := s.data.map Prod.fst

/-- Consistent state: `_capacity` is `N` times the number of blocks, `_size` does
not exceed it, and every block has `N` slots. -/
def Valid (N : Nat) (s : stable_stack α) : Prop :=
  s.capacity = N * s.data.length ∧ s.size ≤ s.capacity ∧ ∀ b ∈ s.data, b.2.length = N

instance (N : Nat) (s : stable_stack α) : Decidable (Valid N s) := by
  unfold Valid
  infer_instance

/-- A call of a member function that pushes or pops. -/
inductive Op (α : Type) where
  | push (value : α)
  | push_back (value : α)
  | emplace_back (value : α)
  | pop
  | pop_back
  deriving DecidableEq, Repr

/-- The state after one call. -/
def step [Inhabited α] (N : Nat) (s : stable_stack α) : Op α → Option (stable_stack α)
  | .push v => push N s v
  | .push_back v => push_back N s v
  | .emplace_back v => (emplace_back N s v).map Prod.fst
  | .pop => some (pop s)
  | .pop_back => some (pop_back s)

/-- The state after a sequence of calls. -/
def run [Inhabited α] (N : Nat) : stable_stack α → List (Op α) → Option (stable_stack α)
  | s, [] => some s
  | s, op :: ops =>
    match step N s op with
    | none => none
    | some s1 => run N s1 ops

/-- The call stores a value (it is one of the three push functions). -/
def Op.is_push : Op α → Bool
  | .pop => false
  | .pop_back => false
  | _ => true

/-- Some push of the sequence is made while `size() == i`, that is, it writes
logical index `i`. -/
def writes_index [Inhabited α] (N : Nat) (i : Nat) : stable_stack α → List (Op α) → Bool
  | _, [] => false
  | s, op :: ops =>
    (op.is_push && decide (s.size = i)) ||
      match step N s op with
      | none => false
      | some s1 => writes_index N i s1 ops

/-- The `stable_stack<int, 4>` after pushing `0, 1, ..., 9`. -/
def ten_pushed : stable_stack Int :=
  { data := [(1, [0, 1, 2, 3]), (2, [4, 5, 6, 7]), (3, [8, 9, 0, 0])], size := 10,
    capacity := 12, allocated := 3 }

/-- Twenty further pushes, of `10, 11, ..., 29`. -/
def twenty_more : List (Op Int) := (List.range 20).map fun i => Op.push (10 + (i : Int))

/-- Source `reserve(new_capacity)`: `d = new_capacity / N; r = new_capacity % N;
_data.reserve(d + (r > 0));`.  `std::vector::reserve` on the vector of block handles
changes only the spare room of that vector, which the embedding does not track (adding
a handle never fails); no block is created and `_capacity` is not assigned.
`new_capacity / N` with `N == 0` is undefined. -/
def reserve (N : Nat) (s : stable_stack α) (_new_capacity : Nat) : Option (stable_stack α) :=
  if N = 0 then none else some s

/-- A call of a member function that pushes, pops or reserves. -/
inductive Call (α : Type) where
  | op (o : Op α)
  | reserve (new_capacity : Nat)
  deriving DecidableEq, Repr

/-- The state after one call, `reserve` included. -/
def call_step [Inhabited α] (N : Nat) (s : stable_stack α) : Call α → Option (stable_stack α)
  | .op o => step N s o
  | .reserve n => reserve N s n

/-- The state after a sequence of calls, `reserve` included. -/
def call_run [Inhabited α] (N : Nat) :
    stable_stack α → List (Call α) → Option (stable_stack α)
  | s, [] => some s
  | s, c :: cs =>
    match call_step N s c with
    | none => none
    | some s1 => call_run N s1 cs

end stable_stack

/-! The copy assignment of `plain_array`, which needs `real.failure`, and the `rotate`
of `containers.cpp`. -/

namespace containers
namespace plain_array

variable {α : Type}

/-- Source copy assignment `operator=(const plain_array &other)` on two objects:
`plain_array(other.begin(), other.end()); return *this;`.  The only constructor with
two iterator parameters is `template <typename It, typename It2> plain_array(It first,
It last)`, whose `It2` appears in no parameter and has no default, so it is never
deduced, and a pointer does not convert to the `size_type` of
`plain_array(size_type, const value_type &)`: the statement does not type-check. -/
def copy_assign (_a _other : plain_array α) :
    Except real.failure (plain_array α × plain_array α) :=
  .error .ill_formed

end plain_array
end containers

namespace containers_cpp

/-- The inner loop of `rotate` in `containers.cpp`:
`for (; j != m; i = j, j = ((j + p) < n) ? (j + p) : (j + p - n), count++)
*(first + i) = *(first + j);`.  Returns the block, `i` and `count` at exit. -/
def rotate_inner {β : Type} (first p n m : Nat) :
    List β → Nat → Nat → Nat → Nat → Option (List β × Nat × Nat)
  | _, _, _, _, 0 => none
  | d, i, j, count, fuel + 1 =>
    if j = m then some (d, i, count)
    else
      match d[first + j]? with
      | none => none
      | some x =>
        match containers.store d (first + i) x with
        | none => none
        | some d1 =>
          rotate_inner first p n m d1 j (if j + p < n then j + p else j + p - n) (count + 1) fuel

/-- The outer loop of `rotate` in `containers.cpp`:
`for (m = 0, count = 0; count != n; m++) { value t = *(first + m); size_t i = m;
size_t j = m + p; (inner loop) *(first + i) = t; count++; }`; `inner` is the fuel
given to each run of the inner loop. -/
def rotate_outer {β : Type} (first p n inner : Nat) :
    List β → Nat → Nat → Nat → Option (List β)
  | _, _, _, 0 => none
  | d, m, count, fuel + 1 =>
    if count = n then some d
    else
      match d[first + m]? with
      | none => none
      | some t =>
        match rotate_inner first p n m d m (m + p) count inner with
        | none => none
        | some (d1, i, count1) =>
          match containers.store d1 (first + i) t with
          | none => none
          | some d2 => rotate_outer first p n inner d2 (m + 1) (count1 + 1) fuel

/-- Source `rotate(value *first, value *mid, value *last)` of `containers.cpp`, the
cycle-based rotation: `const size_t p = mid - first; const size_t n = last - first;`
and the loops.  The pointers are indices into the block `d`; for
`first <= mid <= last` inside an array no difference or sum wraps. -/
def rotate {β : Type} (d : List β) (first mid last : Nat) (fuel : Nat) : Option (List β) :=
  rotate_outer first (mid - first) (last - first) fuel d 0 0 fuel

/-- The array `values` of `main`: `0, 1, ..., 9`. -/
def values : List Int := [0, 1, 2, 3, 4, 5, 6, 7, 8, 9]

end containers_cpp

/-!
Theorems.

First the loops over a block of storage, then each container's member functions,
then the claims.
-/

namespace containers

theorem store_eq_some {β : Type} (d : List β) (p : Nat) (v : β) (h : p < d.length) :
    store d p v = some (d.set p v) := by
  simp [store, h]

theorem slot_congr {β : Type} (d : List β) {a b : Nat} (h : a = b) : d[a]? = d[b]? := by
  rw [h]

theorem fill_spec {β : Type} (last : Nat) (value : β) :
    ∀ (fuel : Nat) (d : List β) (first : Nat), first ≤ last → last ≤ d.length →
      last - first < fuel →
      ∃ d1, fill d first last value fuel = some d1 ∧ d1.length = d.length ∧
        ∀ j, d1[j]? = if first ≤ j ∧ j < last then some value else d[j]? := by
  intro fuel
  induction fuel with
  | zero => intro d first _ _ h; omega
  | succ fuel ih =>
    intro d first h1 h2 h3
    by_cases hfl : first = last
    · refine ⟨d, by simp [fill, hfl], rfl, ?_⟩
      intro j
      have : ¬ (first ≤ j ∧ j < last) := by omega
      rw [if_neg this]
    · have hlt : first < d.length := by omega
      have p2 : last ≤ (d.set first value).length := by simpa using h2
      obtain ⟨d1, hd1, hlen, hget⟩ := ih (d.set first value) (first + 1) (by omega) p2 (by omega)
      refine ⟨d1, ?_, by simpa using hlen, ?_⟩
      · simp [fill, hfl, store_eq_some _ _ _ hlt, hd1]
      · intro j
        rw [hget j, List.getElem?_set]
        by_cases hj : first = j
        · subst hj
          have : ¬ (first + 1 ≤ first ∧ first < last) := by omega
          have h4 : first ≤ first ∧ first < last := by omega
          simp [this, h4, hlt]
        · by_cases hr : first + 1 ≤ j ∧ j < last
          · have : first ≤ j ∧ j < last := by omega
            simp [hr, this]
          · have : ¬ (first ≤ j ∧ j < last) := by omega
            simp [hr, this, hj]

theorem copy_spec {β : Type} (last : Nat) :
    ∀ (fuel : Nat) (d : List β) (first d_first : Nat), d_first ≤ first → first ≤ last →
      last ≤ d.length → last - first < fuel →
      ∃ d1, copy d first last d_first fuel = some (d1, d_first + (last - first)) ∧
        d1.length = d.length ∧
        ∀ j, d1[j]? = if d_first ≤ j ∧ j < d_first + (last - first)
                      then d[j + (first - d_first)]? else d[j]? := by
  intro fuel
  induction fuel with
  | zero => intro d first d_first _ _ _ h; omega
  | succ fuel ih =>
    intro d first d_first h0 h1 h2 h3
    by_cases hfl : first = last
    · refine ⟨d, by simp [copy, hfl], rfl, ?_⟩
      intro j
      have : ¬ (d_first ≤ j ∧ j < d_first + (last - first)) := by omega
      rw [if_neg this]
    · have hlt : first < d.length := by omega
      have hdl : d_first < d.length := by omega
      have hx : d[first]? = some d[first] := List.getElem?_eq_getElem hlt
      have p2 : last ≤ (d.set d_first d[first]).length := by simpa using h2
      obtain ⟨d1, hd1, hlen, hget⟩ := ih (d.set d_first d[first]) (first + 1) (d_first + 1)
        (by omega) (by omega) p2 (by omega)
      refine ⟨d1, ?_, by simpa using hlen, ?_⟩
      · have e : d_first + 1 + (last - (first + 1)) = d_first + (last - first) := by omega
        simp [copy, hfl, hx, store_eq_some _ _ _ hdl, hd1, e]
      · intro j
        rw [hget j]
        by_cases hj : d_first = j
        · subst hj
          have c1 : ¬ (d_first + 1 ≤ d_first ∧ d_first < d_first + 1 + (last - (first + 1))) := by
            omega
          have c2 : d_first ≤ d_first ∧ d_first < d_first + (last - first) := by omega
          rw [if_neg c1, if_pos c2, List.getElem?_set, if_pos rfl, if_pos hdl, ← hx]
          exact slot_congr d (by omega)
        · by_cases hr : d_first + 1 ≤ j ∧ j < d_first + 1 + (last - (first + 1))
          · have c2 : d_first ≤ j ∧ j < d_first + (last - first) := by omega
            rw [if_pos hr, if_pos c2, List.getElem?_set]
            have : d_first ≠ j + (first + 1 - (d_first + 1)) := by omega
            rw [if_neg this]
            exact slot_congr d (by omega)
          · have c2 : ¬ (d_first ≤ j ∧ j < d_first + (last - first)) := by omega
            rw [if_neg hr, if_neg c2, List.getElem?_set, if_neg hj]

theorem copy_backward_spec {β : Type} (first : Nat) :
    ∀ (fuel : Nat) (d : List β) (last d_last : Nat), first ≤ last → last ≤ d_last →
      d_last ≤ d.length → last - first < fuel →
      ∃ d1, copy_backward d first last d_last fuel = some (d1, d_last - (last - first)) ∧
        d1.length = d.length ∧
        ∀ j, d1[j]? = if d_last - (last - first) ≤ j ∧ j < d_last
                      then d[j - (d_last - last)]? else d[j]? := by
  intro fuel
  induction fuel with
  | zero => intro d last d_last _ _ _ h; omega
  | succ fuel ih =>
    intro d last d_last h0 h1 h2 h3
    by_cases hfl : first = last
    · refine ⟨d, by simp [copy_backward, hfl], rfl, ?_⟩
      intro j
      have : ¬ (d_last - (last - first) ≤ j ∧ j < d_last) := by omega
      rw [if_neg this]
    · have hlt : last - 1 < d.length := by omega
      have hdl : d_last - 1 < d.length := by omega
      have hx : d[last - 1]? = some d[last - 1] := List.getElem?_eq_getElem hlt
      have hz : ¬ (last = 0 ∨ d_last = 0) := by omega
      have p2 : d_last - 1 ≤ (d.set (d_last - 1) d[last - 1]).length := by simp; omega
      obtain ⟨d1, hd1, hlen, hget⟩ := ih (d.set (d_last - 1) d[last - 1]) (last - 1) (d_last - 1)
        (by omega) (by omega) p2 (by omega)
      refine ⟨d1, ?_, by simpa using hlen, ?_⟩
      · have e : d_last - 1 - (last - 1 - first) = d_last - (last - first) := by omega
        simp [copy_backward, hfl, hz, hx, store_eq_some _ _ _ hdl, hd1, e]
      · intro j
        rw [hget j]
        by_cases hj : d_last - 1 = j
        · subst hj
          have c1 : ¬ (d_last - 1 - (last - 1 - first) ≤ d_last - 1 ∧ d_last - 1 < d_last - 1) := by
            omega
          have c2 : d_last - (last - first) ≤ d_last - 1 ∧ d_last - 1 < d_last := by omega
          rw [if_neg c1, if_pos c2, List.getElem?_set, if_pos rfl, if_pos hdl, ← hx]
          exact slot_congr d (by omega)
        · by_cases hr : d_last - 1 - (last - 1 - first) ≤ j ∧ j < d_last - 1
          · have c2 : d_last - (last - first) ≤ j ∧ j < d_last := by omega
            rw [if_pos hr, if_pos c2, List.getElem?_set]
            have : d_last - 1 ≠ j - (d_last - 1 - (last - 1)) := by omega
            rw [if_neg this]
            exact slot_congr d (by omega)
          · have c2 : ¬ (d_last - (last - first) ≤ j ∧ j < d_last) := by omega
            rw [if_neg hr, if_neg c2, List.getElem?_set, if_neg hj]

theorem reverse_spec {β : Type} :
    ∀ (fuel : Nat) (d : List β) (first last : Nat), first ≤ last → last ≤ d.length →
      last - first < fuel →
      ∃ d1, reverse d first last fuel = some d1 ∧ d1.length = d.length ∧
        ∀ j, d1[j]? = if first ≤ j ∧ j < last then d[first + last - 1 - j]? else d[j]? := by
  intro fuel
  induction fuel with
  | zero => intro d first last _ _ h; omega
  | succ fuel ih =>
    intro d first last h1 h2 h3
    by_cases hfl : first = last
    · refine ⟨d, by simp [reverse, hfl], rfl, ?_⟩
      intro j
      have : ¬ (first ≤ j ∧ j < last) := by omega
      rw [if_neg this]
    · have hz : ¬ last = 0 := by omega
      by_cases hf1 : first = last - 1
      · refine ⟨d, by simp [reverse, hfl, hz, hf1], rfl, ?_⟩
        intro j
        by_cases c : first ≤ j ∧ j < last
        · rw [if_pos c]; exact slot_congr d (by omega)
        · rw [if_neg c]
      · have hlt : first < d.length := by omega
        have hlt2 : last - 1 < d.length := by omega
        have hx : d[first]? = some d[first] := List.getElem?_eq_getElem hlt
        have hy : d[last - 1]? = some d[last - 1] := List.getElem?_eq_getElem hlt2
        have p2 : last - 1 ≤ ((d.set first d[last - 1]).set (last - 1) d[first]).length := by
          simp; omega
        obtain ⟨d1, hd1, hlen, hget⟩ :=
          ih ((d.set first d[last - 1]).set (last - 1) d[first]) (first + 1) (last - 1)
            (by omega) p2 (by omega)
        refine ⟨d1, ?_, by simpa using hlen, ?_⟩
        · rw [reverse]
          simp only [hfl, hz, hf1, if_false, hx, hy]
          rw [store_eq_some _ _ _ hlt]
          simp only []
          rw [store_eq_some _ _ _ (by simpa using hlt2)]
          exact hd1
        · intro j
          rw [hget j]
          simp only [List.getElem?_set, List.length_set]
          by_cases hj : first = j
          · subst hj
            have c1 : ¬ (first + 1 ≤ first ∧ first < last - 1) := by omega
            have c2 : first ≤ first ∧ first < last := by omega
            have c3 : ¬ last - 1 = first := by omega
            rw [if_neg c1, if_pos c2, if_neg c3, if_pos rfl, if_pos hlt, ← hy]
            exact slot_congr d (by omega)
          · by_cases hj2 : last - 1 = j
            · subst hj2
              have c1 : ¬ (first + 1 ≤ last - 1 ∧ last - 1 < last - 1) := by omega
              have c2 : first ≤ last - 1 ∧ last - 1 < last := by omega
              rw [if_neg c1, if_pos c2, if_pos rfl, if_pos hlt2, ← hx]
              exact slot_congr d (by omega)
            · by_cases hr : first + 1 ≤ j ∧ j < last - 1
              · have c2 : first ≤ j ∧ j < last := by omega
                have c3 : ¬ last - 1 = first + 1 + (last - 1) - 1 - j := by omega
                have c4 : ¬ first = first + 1 + (last - 1) - 1 - j := by omega
                rw [if_pos hr, if_pos c2, if_neg c3, if_neg c4]
                exact slot_congr d (by omega)
              · have c2 : ¬ (first ≤ j ∧ j < last) := by omega
                rw [if_neg hr, if_neg c2, if_neg hj2, if_neg hj]

theorem rotate_spec {β : Type} (fuel : Nat) (d : List β) (first mid last : Nat)
    (h1 : first ≤ mid) (h2 : mid ≤ last) (h3 : last ≤ d.length) (h4 : last - first < fuel) :
    ∃ d1, rotate d first mid last fuel = some d1 ∧ d1.length = d.length ∧
      ∀ j, d1[j]? = if first ≤ j ∧ j < last then
                      (if j < first + (last - mid) then d[j + (mid - first)]?
                       else d[j - (last - mid)]?)
                    else d[j]? := by
  obtain ⟨r1, e1, l1, g1⟩ := reverse_spec fuel d first mid h1 (by omega) (by omega)
  obtain ⟨r2, e2, l2, g2⟩ := reverse_spec fuel r1 mid last h2 (by omega) (by omega)
  obtain ⟨r3, e3, l3, g3⟩ := reverse_spec fuel r2 first last (by omega) (by omega) (by omega)
  refine ⟨r3, by simp [rotate, e1, e2, e3], by omega, ?_⟩
  intro j
  rw [g3 j]
  by_cases c : first ≤ j ∧ j < last
  · rw [if_pos c, if_pos c, g2]
    by_cases c2 : j < first + (last - mid)
    · have c3 : mid ≤ first + last - 1 - j ∧ first + last - 1 - j < last := by omega
      have c4 : ¬ (first ≤ mid + last - 1 - (first + last - 1 - j) ∧
          mid + last - 1 - (first + last - 1 - j) < mid) := by omega
      rw [if_pos c2, if_pos c3, g1, if_neg c4]
      exact slot_congr d (by omega)
    · have c3 : ¬ (mid ≤ first + last - 1 - j ∧ first + last - 1 - j < last) := by omega
      have c4 : first ≤ first + last - 1 - j ∧ first + last - 1 - j < mid := by omega
      rw [if_neg c2, if_neg c3, g1, if_pos c4]
      exact slot_congr d (by omega)
  · have c3 : ¬ (mid ≤ j ∧ j < last) := by omega
    have c4 : ¬ (first ≤ j ∧ j < mid) := by omega
    rw [if_neg c, if_neg c, g2, if_neg c3, g1, if_neg c4]

theorem copy_backward_diverges {β : Type} :
    ∀ (fuel : Nat) (d : List β) (first last d_last : Nat), last < first →
      copy_backward d first last d_last fuel = none := by
  intro fuel
  induction fuel with
  | zero => intro d first last d_last _; rfl
  | succ fuel ih =>
    intro d first last d_last h
    have hne : first ≠ last := by omega
    unfold copy_backward
    rw [if_neg hne]
    by_cases hz : last = 0 ∨ d_last = 0
    · rw [if_pos hz]
    · rw [if_neg hz]
      cases hr : d[last - 1]? with
      | none => simp only [hr]
      | some x =>
        cases hs : store d (d_last - 1) x with
        | none => simp only [hr, hs]
        | some d1 =>
          simp only [hr, hs]
          exact ih d1 first (last - 1) (d_last - 1) (by omega)

theorem reverse_diverges {β : Type} :
    ∀ (fuel : Nat) (d : List β) (first last : Nat), last < first →
      reverse d first last fuel = none := by
  intro fuel
  induction fuel with
  | zero => intro d first last _; rfl
  | succ fuel ih =>
    intro d first last h
    have hne : first ≠ last := by omega
    unfold reverse
    rw [if_neg hne]
    by_cases hz : last = 0
    · rw [if_pos hz]
    · rw [if_neg hz, if_neg (by omega)]
      cases hr : d[first]? with
      | none => simp only [hr]
      | some tmp =>
        cases hl : d[last - 1]? with
        | none => simp only [hr, hl]
        | some y =>
          cases hs : store d first y with
          | none => simp only [hr, hl, hs]
          | some d1 =>
            cases hs2 : store d1 (last - 1) tmp with
            | none => simp only [hr, hl, hs, hs2]
            | some d2 =>
              simp only [hr, hl, hs, hs2]
              exact ih d2 (first + 1) (last - 1) (by omega)

theorem rotate_diverges {β : Type} (d : List β) (first mid last fuel : Nat) (h : mid < first) :
    rotate d first mid last fuel = none := by
  simp only [rotate, reverse_diverges fuel d first mid h]

namespace plain_array

variable {α : Type}

theorem le_slots (safe : Bool) (N : Nat) : N ≤ slots safe N := by
  unfold slots; split <;> omega

theorem elements_get (a : plain_array α) (j : Nat) :
    (elements a)[j]? = if j < a.size then a.data[j]? else none := by
  simp [elements, List.getElem?_take]

theorem insert_backwards_spec (safe : Bool) (N : Nat) (a : plain_array α) (i c : Nat) (v : α)
    (hwf : WF safe N a) (hi : i ≤ a.size) (hs : a.size < N) :
    ∃ a1, insert_backwards N a i c (.outside v) = some (a1, i) ∧ WF safe N a1 ∧
      a1.size = a.size + min c (N - a.size) ∧ a1.overrun = a.overrun ∧
      ∀ j, a1.data[j]? =
        if i ≤ j ∧ j < i + min c (N - a.size) then some v
        else if i + min c (N - a.size) ≤ j ∧ j < a.size + min c (N - a.size)
          then a.data[j - min c (N - a.size)]?
        else a.data[j]? := by
  obtain ⟨hlen, hsz⟩ := hwf
  have hN := le_slots safe N
  have hk : (if c ≤ N - a.size then c else N - a.size) = min c (N - a.size) := by
    split <;> omega
  have hpos : (if i ≤ N then i else N) = i := by
    rw [if_pos (by omega)]
  by_cases hie : i = a.size
  · obtain ⟨d1, e1, l1, g1⟩ := fill_spec (a.size + min c (N - a.size)) v (loop_fuel a.data) a.data
      a.size (by omega) (by omega) (by unfold loop_fuel; omega)
    refine ⟨{ a with data := d1, size := a.size + min c (N - a.size) }, ?_, ⟨?_, ?_⟩, rfl, rfl, ?_⟩
    · rw [hie] at hpos
      simp only [insert_backwards, load, if_pos hs, hie, hpos, hk, if_true, e1]
    · simpa [l1] using hlen
    · show a.size + min c (N - a.size) ≤ N
      omega
    · intro j
      show d1[j]? = _
      rw [g1 j, hie]
      by_cases c1 : a.size ≤ j ∧ j < a.size + min c (N - a.size)
      · rw [if_pos c1, if_pos c1]
      · have c2 : ¬ (a.size + min c (N - a.size) ≤ j ∧ j < a.size + min c (N - a.size)) := by
          omega
        rw [if_neg c1, if_neg c1, if_neg c2]
  · obtain ⟨d1, e1, l1, g1⟩ := copy_backward_spec i (loop_fuel a.data) a.data a.size
      (min c (N - a.size) + a.size) hi (by omega) (by omega) (by unfold loop_fuel; omega)
    obtain ⟨d2, e2, l2, g2⟩ := fill_spec (i + min c (N - a.size)) v (loop_fuel a.data) d1 i
      (by omega) (by omega) (by unfold loop_fuel; omega)
    refine ⟨{ a with data := d2, size := a.size + min c (N - a.size) }, ?_, ⟨?_, ?_⟩, rfl, rfl, ?_⟩
    · simp only [insert_backwards, load, if_pos hs, hpos, hie, hk, if_false, e1, e2]
    · show d2.length = _
      omega
    · show a.size + min c (N - a.size) ≤ N
      omega
    · intro j
      show d2[j]? = _
      rw [g2 j]
      by_cases c1 : i ≤ j ∧ j < i + min c (N - a.size)
      · rw [if_pos c1, if_pos c1]
      · rw [if_neg c1, if_neg c1, g1 j]
        by_cases c2 : i + min c (N - a.size) ≤ j ∧ j < a.size + min c (N - a.size)
        · have c3 : min c (N - a.size) + a.size - (a.size - i) ≤ j ∧
              j < min c (N - a.size) + a.size := by omega
          rw [if_pos c2, if_pos c3]
          exact slot_congr _ (by omega)
        · have c3 : ¬ (min c (N - a.size) + a.size - (a.size - i) ≤ j ∧
              j < min c (N - a.size) + a.size) := by omega
          rw [if_neg c2, if_neg c3]

theorem elements_length (safe : Bool) (N : Nat) (a : plain_array α) (h : WF safe N a) :
    (elements a).length = a.size := by
  have := le_slots safe N
  obtain ⟨h1, h2⟩ := h
  simp [elements, List.length_take]
  omega

theorem insert_backwards_elements (safe : Bool) (N : Nat) (a : plain_array α) (i c : Nat) (v : α)
    (hwf : WF safe N a) (hi : i ≤ a.size) (hs : a.size < N) :
    ∃ a1, insert_backwards N a i c (.outside v) = some (a1, i) ∧ WF safe N a1 ∧
      a1.size = a.size + min c (N - a.size) ∧ a1.overrun = a.overrun ∧
      elements a1 = (elements a).take i ++ List.replicate (min c (N - a.size)) v ++
        (elements a).drop i := by
  obtain ⟨a1, e, w, s, o, g⟩ := insert_backwards_spec safe N a i c v hwf hi hs
  refine ⟨a1, e, w, s, o, ?_⟩
  have hl := elements_length safe N a hwf
  apply List.ext_getElem?
  intro j
  simp only [List.getElem?_append, List.length_append, List.length_take, List.length_replicate,
    List.getElem?_take, List.getElem?_replicate, List.getElem?_drop, elements_get, g, hl, s]
  split_ifs <;> first | rfl | omega | exact slot_congr _ (by omega)

theorem unchecked_emplace_back_spec (safe : Bool) (N : Nat) (a : plain_array α) (v : α)
    (hwf : WF safe N a) (hs : a.size < N) :
    ∃ a1, unchecked_emplace_back safe N a v = some (a1, a.size) ∧ WF safe N a1 ∧
      a1.size = a.size + 1 ∧ a1.data = a.data.set a.size v := by
  obtain ⟨hlen, hsz⟩ := hwf
  have hN := le_slots safe N
  have hlt : a.size < a.data.length := by omega
  cases safe with
  | false =>
    refine ⟨{ a with data := a.data.set a.size v, size := a.size + 1 }, ?_, ⟨?_, ?_⟩, rfl, rfl⟩
    · simp [unchecked_emplace_back, store_eq_some _ _ _ hlt]
    · simpa using hlen
    · show a.size + 1 ≤ N
      omega
  | true =>
    refine ⟨{ data := a.data.set a.size v, size := a.size + 1,
              overrun := a.overrun || decide (a.size + 1 ≥ N) }, ?_, ⟨?_, ?_⟩, rfl, rfl⟩
    · simp [unchecked_emplace_back, store_eq_some _ _ _ hlt, hs]
    · simpa using hlen
    · show a.size + 1 ≤ N
      omega

theorem emplace_back_spec (safe : Bool) (N : Nat) (a : plain_array α) (v : α)
    (hwf : WF safe N a) (hs : a.size < N) :
    ∃ a1, emplace_back N a v = some (a1, a.size) ∧ WF safe N a1 ∧
      a1.size = a.size + 1 ∧ a1.data = a.data.set a.size v := by
  obtain ⟨hlen, hsz⟩ := hwf
  have hN := le_slots safe N
  have hlt : a.size < a.data.length := by omega
  refine ⟨{ a with data := a.data.set a.size v, size := a.size + 1 }, ?_, ⟨?_, ?_⟩, rfl, rfl⟩
  · simp [emplace_back, store_eq_some _ _ _ hlt, hs]
  · simpa using hlen
  · show a.size + 1 ≤ N
    omega

theorem emplace_back_full (N : Nat) (a : plain_array α) (v : α) (hs : ¬ a.size < N) :
    emplace_back N a v = some (a, back a) := by
  simp [emplace_back, hs]

theorem append_loop_spec (safe : Bool) (N : Nat) (v : α) :
    ∀ (k : Nat) (a : plain_array α), WF safe N a →
      ∃ a1, append_loop safe N v a k = some a1 ∧ WF safe N a1 ∧
        a1.size = a.size + min k (N - a.size) ∧
        ∀ j, a1.data[j]? =
          if a.size ≤ j ∧ j < a.size + min k (N - a.size) then some v else a.data[j]? := by
  intro k
  induction k with
  | zero =>
    intro a hwf
    refine ⟨a, rfl, hwf, by simp, ?_⟩
    intro j
    have : ¬ (a.size ≤ j ∧ j < a.size + min 0 (N - a.size)) := by omega
    rw [if_neg this]
  | succ k ih =>
    intro a hwf
    by_cases hs : a.size < N
    · obtain ⟨a1, e1, w1, s1, d1⟩ := unchecked_emplace_back_spec safe N a v hwf hs
      obtain ⟨a2, e2, w2, s2, g2⟩ := ih a1 w1
      have hlt : a.size < a.data.length := by
        have := le_slots safe N
        have := hwf.1
        omega
      refine ⟨a2, ?_, w2, by omega, ?_⟩
      · simp [append_loop, hs, e1, e2]
      · intro j
        rw [g2 j, d1, s1, List.getElem?_set]
        by_cases hj : a.size = j
        · have c1 : ¬ (a.size + 1 ≤ j ∧ j < a.size + 1 + min k (N - (a.size + 1))) := by omega
          have c2 : a.size ≤ j ∧ j < a.size + min (k + 1) (N - a.size) := by omega
          rw [if_neg c1, if_pos c2, if_pos hj, if_pos hlt]
        · by_cases c1 : a.size + 1 ≤ j ∧ j < a.size + 1 + min k (N - (a.size + 1))
          · have c2 : a.size ≤ j ∧ j < a.size + min (k + 1) (N - a.size) := by omega
            rw [if_pos c1, if_pos c2]
          · have c2 : ¬ (a.size ≤ j ∧ j < a.size + min (k + 1) (N - a.size)) := by omega
            rw [if_neg c1, if_neg c2, if_neg hj]
    · refine ⟨a, by simp [append_loop, hs], hwf, by omega, ?_⟩
      intro j
      have : ¬ (a.size ≤ j ∧ j < a.size + min (k + 1) (N - a.size)) := by omega
      rw [if_neg this]

theorem emplace_range_loop_spec (safe : Bool) (N : Nat) :
    ∀ (src : List α) (a : plain_array α), WF safe N a →
      ∃ a1, emplace_range_loop safe N a src = some a1 ∧ WF safe N a1 ∧
        a1.size = a.size + min src.length (N - a.size) ∧
        ∀ j, a1.data[j]? =
          if a.size ≤ j ∧ j < a.size + min src.length (N - a.size) then src[j - a.size]?
          else a.data[j]? := by
  intro src
  induction src with
  | nil =>
    intro a hwf
    refine ⟨a, rfl, hwf, by simp, ?_⟩
    intro j
    have : ¬ (a.size ≤ j ∧ j < a.size + min ([] : List α).length (N - a.size)) := by
      simp
    rw [if_neg this]
  | cons x rest ih =>
    intro a hwf
    by_cases hs : a.size < N
    · obtain ⟨a1, e1, w1, s1, d1⟩ := unchecked_emplace_back_spec safe N a x hwf hs
      obtain ⟨a2, e2, w2, s2, g2⟩ := ih a1 w1
      have hlt : a.size < a.data.length := by
        have := le_slots safe N
        have := hwf.1
        omega
      have hlen : (x :: rest).length = rest.length + 1 := rfl
      refine ⟨a2, ?_, w2, by omega, ?_⟩
      · simp [emplace_range_loop, hs, e1, e2]
      · intro j
        rw [g2 j, d1, s1, List.getElem?_set, hlen]
        by_cases hj : a.size = j
        · have c1 : ¬ (a.size + 1 ≤ j ∧ j < a.size + 1 + min rest.length (N - (a.size + 1))) := by
            omega
          have c2 : a.size ≤ j ∧ j < a.size + min (rest.length + 1) (N - a.size) := by omega
          rw [if_neg c1, if_pos c2, if_pos hj, if_pos hlt]
          have : j - a.size = 0 := by omega
          rw [this]
          simp
        · by_cases c1 : a.size + 1 ≤ j ∧ j < a.size + 1 + min rest.length (N - (a.size + 1))
          · have c2 : a.size ≤ j ∧ j < a.size + min (rest.length + 1) (N - a.size) := by omega
            rw [if_pos c1, if_pos c2]
            have : j - a.size = (j - (a.size + 1)) + 1 := by omega
            rw [this, List.getElem?_cons_succ]
          · have c2 : ¬ (a.size ≤ j ∧ j < a.size + min (rest.length + 1) (N - a.size)) := by
              omega
            rw [if_neg c1, if_neg c2, if_neg hj]
    · refine ⟨a, by simp [emplace_range_loop, hs], hwf, by omega, ?_⟩
      intro j
      have : ¬ (a.size ≤ j ∧ j < a.size + min (x :: rest).length (N - a.size)) := by omega
      rw [if_neg this]

theorem insert_rotate_spec (safe : Bool) (N : Nat) (a : plain_array α) (i c : Nat) (v : α)
    (hwf : WF safe N a) (hi : i ≤ a.size) (hs : a.size < N) :
    ∃ a1, insert_rotate N a i c (.outside v) = some (a1, i) ∧ WF safe N a1 ∧
      a1.size = a.size + min c (N - a.size) ∧ a1.overrun = a.overrun ∧
      ∀ j, a1.data[j]? =
        if i ≤ j ∧ j < i + min c (N - a.size) then some v
        else if i + min c (N - a.size) ≤ j ∧ j < a.size + min c (N - a.size)
          then a.data[j - min c (N - a.size)]?
        else a.data[j]? := by
  obtain ⟨hlen, hsz⟩ := hwf
  have hN := le_slots safe N
  have hk : (if c ≤ N - a.size then c else N - a.size) = min c (N - a.size) := by
    split <;> omega
  have hpos : (if i ≤ N then i else N) = i := by
    rw [if_pos (by omega)]
  obtain ⟨d1, e1, l1, g1⟩ := fill_spec (a.size + min c (N - a.size)) v (loop_fuel a.data) a.data
    a.size (by omega) (by omega) (by unfold loop_fuel; omega)
  by_cases hie : i = a.size
  · refine ⟨{ a with data := d1, size := a.size + min c (N - a.size) }, ?_, ⟨?_, ?_⟩, rfl, rfl, ?_⟩
    · rw [hie] at hpos
      simp only [insert_rotate, load, if_pos hs, hie, hpos, hk, if_true, e1]
    · simpa [l1] using hlen
    · show a.size + min c (N - a.size) ≤ N
      omega
    · intro j
      show d1[j]? = _
      rw [g1 j, hie]
      by_cases c1 : a.size ≤ j ∧ j < a.size + min c (N - a.size)
      · rw [if_pos c1, if_pos c1]
      · have c2 : ¬ (a.size + min c (N - a.size) ≤ j ∧ j < a.size + min c (N - a.size)) := by
          omega
        rw [if_neg c1, if_neg c1, if_neg c2]
  · obtain ⟨d2, e2, l2, g2⟩ := rotate_spec (loop_fuel a.data) d1 i a.size
      (a.size + min c (N - a.size)) hi (by omega) (by omega) (by unfold loop_fuel; omega)
    refine ⟨{ a with data := d2, size := a.size + min c (N - a.size) }, ?_, ⟨?_, ?_⟩, rfl, rfl, ?_⟩
    · simp only [insert_rotate, load, if_pos hs, hpos, hie, hk, if_false, e1, e2]
    · show d2.length = _
      omega
    · show a.size + min c (N - a.size) ≤ N
      omega
    · intro j
      show d2[j]? = _
      rw [g2 j]
      by_cases c1 : i ≤ j ∧ j < i + min c (N - a.size)
      · have c2 : i ≤ j ∧ j < a.size + min c (N - a.size) := by omega
        have c3 : j < i + (a.size + min c (N - a.size) - a.size) := by omega
        have c4 : a.size ≤ j + (a.size - i) ∧ j + (a.size - i) < a.size + min c (N - a.size) := by
          omega
        rw [if_pos c1, if_pos c2, if_pos c3, g1, if_pos c4]
      · rw [if_neg c1]
        by_cases c2 : i + min c (N - a.size) ≤ j ∧ j < a.size + min c (N - a.size)
        · have c3 : i ≤ j ∧ j < a.size + min c (N - a.size) := by omega
          have c4 : ¬ j < i + (a.size + min c (N - a.size) - a.size) := by omega
          have c5 : ¬ (a.size ≤ j - (a.size + min c (N - a.size) - a.size) ∧
              j - (a.size + min c (N - a.size) - a.size) < a.size + min c (N - a.size)) := by
            omega
          rw [if_pos c2, if_pos c3, if_neg c4, g1, if_neg c5]
          exact slot_congr _ (by omega)
        · have c3 : ¬ (i ≤ j ∧ j < a.size + min c (N - a.size)) := by omega
          have c5 : ¬ (a.size ≤ j ∧ j < a.size + min c (N - a.size)) := by omega
          rw [if_neg c2, if_neg c3, g1, if_neg c5]

theorem insert_full (N : Nat) (a : plain_array α) (i c : Nat) (v : α) (hs : ¬ a.size < N) :
    insert_backwards N a i c (.outside v) = some (a, a.size) ∧
      insert_rotate N a i c (.outside v) = some (a, a.size) := by
  simp [insert_backwards, insert_rotate, hs]

theorem data_ext (a b : plain_array α) (h1 : a.size = b.size) (h2 : a.overrun = b.overrun)
    (h3 : ∀ j : Nat, a.data[j]? = b.data[j]?) : a = b := by
  cases a; cases b
  simp only [plain_array.mk.injEq]
  exact ⟨List.ext_getElem? h3, h1, h2⟩

theorem insert_rotate_eq_insert_backwards (safe : Bool) (N : Nat) (a : plain_array α)
    (i c : Nat) (v : α) (hwf : WF safe N a) (hi : i ≤ a.size) :
    ∃ r, insert_rotate N a i c (.outside v) = some r ∧
      insert_backwards N a i c (.outside v) = some r := by
  by_cases hs : a.size < N
  · obtain ⟨a1, e1, _, s1, o1, g1⟩ := insert_rotate_spec safe N a i c v hwf hi hs
    obtain ⟨a2, e2, _, s2, o2, g2⟩ := insert_backwards_spec safe N a i c v hwf hi hs
    have : a1 = a2 := data_ext a1 a2 (by omega) (by rw [o1, o2]) (fun j => by rw [g1, g2])
    subst this
    exact ⟨(a1, i), e1, e2⟩
  · exact ⟨(a, a.size), (insert_full N a i c v hs).2, (insert_full N a i c v hs).1⟩

theorem erase_spec (safe : Bool) (N : Nat) (a : plain_array α) (i : Nat)
    (hwf : WF safe N a) (hi : i < a.size) :
    ∃ a1, erase a i = some (a1, i) ∧ WF safe N a1 ∧ a1.size = a.size - 1 ∧
      elements a1 = (elements a).eraseIdx i := by
  obtain ⟨hlen, hsz⟩ := hwf
  have hN := le_slots safe N
  obtain ⟨d1, e1, l1, g1⟩ := copy_spec a.size (loop_fuel a.data) a.data (i + 1) i
    (by omega) (by omega) (by omega) (by unfold loop_fuel; omega)
  refine ⟨{ a with data := d1, size := a.size - 1 }, ?_, ⟨?_, ?_⟩, rfl, ?_⟩
  · have : a.size ≠ 0 := by omega
    simp [erase, this, hi, e1]
  · show d1.length = _
    omega
  · show a.size - 1 ≤ N
    omega
  · apply List.ext_getElem?
    intro j
    simp only [List.getElem?_eraseIdx, elements_get, g1]
    split_ifs <;> first | rfl | omega | exact slot_congr _ (by omega)

theorem erase_range_spec (safe : Bool) (N : Nat) (a : plain_array α) (f l : Nat)
    (hwf : WF safe N a) (hfl : f < l) (hl : l ≤ a.size) :
    ∃ a1, erase_range a f l = some (a1, f) ∧ WF safe N a1 ∧ a1.size = a.size - (l - f) ∧
      elements a1 = (elements a).take f ++ (elements a).drop l := by
  have hel := elements_length safe N a hwf
  obtain ⟨hlen, hsz⟩ := hwf
  have hN := le_slots safe N
  obtain ⟨d1, e1, l1, g1⟩ := copy_spec a.size (loop_fuel a.data) a.data l f
    (by omega) (by omega) (by omega) (by unfold loop_fuel; omega)
  refine ⟨{ a with data := d1, size := f + (a.size - l) }, ?_, ⟨?_, ?_⟩, ?_, ?_⟩
  · have h0 : a.size ≠ 0 := by omega
    have h1 : f ≠ l := by omega
    have h2 : f < l ∧ f < a.size ∧ l ≤ a.size := by omega
    simp [erase_range, h0, h1, h2, e1]
  · show d1.length = _
    omega
  · show f + (a.size - l) ≤ N
    omega
  · show f + (a.size - l) = _
    omega
  · apply List.ext_getElem?
    intro j
    simp only [List.getElem?_append, List.length_take, List.getElem?_take, List.getElem?_drop,
      elements_get, g1, hel]
    split_ifs <;> first | rfl | omega | exact slot_congr _ (by omega)

theorem pop_front_spec (safe : Bool) (N : Nat) (a : plain_array α) (hwf : WF safe N a) :
    ∃ a1, pop_front a = some a1 ∧ WF safe N a1 ∧ a1.size = a.size - 1 ∧
      elements a1 = (elements a).drop 1 := by
  obtain ⟨hlen, hsz⟩ := hwf
  have hN := le_slots safe N
  by_cases h0 : a.size = 0
  · refine ⟨a, by simp [pop_front, h0], ⟨hlen, hsz⟩, by omega, ?_⟩
    simp [elements, h0]
  · obtain ⟨d1, e1, l1, g1⟩ := copy_spec a.size (loop_fuel a.data) a.data 1 0
      (by omega) (by omega) (by omega) (by unfold loop_fuel; omega)
    refine ⟨{ a with data := d1, size := a.size - 1 }, ?_, ⟨?_, ?_⟩, rfl, ?_⟩
    · simp [pop_front, h0, e1]
    · show d1.length = _
      omega
    · show a.size - 1 ≤ N
      omega
    · apply List.ext_getElem?
      intro j
      simp only [List.getElem?_drop, elements_get, g1]
      split_ifs <;> first | rfl | omega | exact slot_congr _ (by omega)

theorem pop_back_spec (safe : Bool) (N : Nat) (a : plain_array α) (hwf : WF safe N a) :
    WF safe N (pop_back a) ∧ (pop_back a).size = a.size - 1 ∧
      elements (pop_back a) = (elements a).dropLast := by
  have hel := elements_length safe N a hwf
  obtain ⟨hlen, hsz⟩ := hwf
  by_cases h0 : a.size = 0
  · have : pop_back a = a := by simp [pop_back, h0]
    rw [this]
    refine ⟨⟨hlen, hsz⟩, by omega, ?_⟩
    simp [elements, h0]
  · have : pop_back a = { a with size := a.size - 1 } := by simp [pop_back, h0]
    rw [this]
    refine ⟨⟨hlen, ?_⟩, rfl, ?_⟩
    · show a.size - 1 ≤ N
      omega
    · rw [List.dropLast_eq_take, hel]
      simp only [elements, List.take_take]
      congr 1
      omega

theorem clear_spec (safe : Bool) (N : Nat) (a : plain_array α) (hwf : WF safe N a) :
    WF safe N (clear a) ∧ (clear a).size = 0 ∧ elements (clear a) = [] := by
  refine ⟨⟨hwf.1, Nat.zero_le _⟩, rfl, ?_⟩
  simp [elements, clear]

theorem emplace_spec (safe : Bool) (N : Nat) (a : plain_array α) (i : Nat) (v : α)
    (hwf : WF safe N a) (hi : i ≤ a.size) (hs : a.size < N) :
    ∃ a1, emplace safe N a i (.outside v) = some (a1, i) ∧ WF safe N a1 ∧ a1.size = a.size + 1 ∧
      elements a1 = (elements a).take i ++ [v] ++ (elements a).drop i := by
  have hel := elements_length safe N a hwf
  have hpos : (if i ≤ N then i else N) = i := by
    rw [if_pos (by omega)]
  by_cases hie : i = a.size
  · obtain ⟨a1, e1, w1, s1, d1⟩ := unchecked_emplace_back_spec safe N a v hwf hs
    refine ⟨a1, ?_, w1, s1, ?_⟩
    · rw [hie] at hpos
      simp only [emplace, load, if_pos hs, hie, hpos, if_true, e1]
    · apply List.ext_getElem?
      intro j
      simp only [List.getElem?_append, List.length_append, List.length_take, List.length_cons,
        List.length_nil, List.getElem?_take, List.getElem?_drop, elements_get, hel, s1, d1,
        List.getElem?_set, List.getElem?_cons, List.getElem?_nil]
      have := hwf.1
      have := le_slots safe N
      split_ifs <;> first
        | rfl
        | omega
  · obtain ⟨hlen, hsz⟩ := hwf
    have hN := le_slots safe N
    obtain ⟨d1, e1, l1, g1⟩ := copy_backward_spec i (loop_fuel a.data) a.data a.size
      (a.size + 1) hi (by omega) (by omega) (by unfold loop_fuel; omega)
    have hlt : i < d1.length := by omega
    refine ⟨{ a with data := d1.set i v, size := a.size + 1 }, ?_, ⟨?_, ?_⟩, rfl, ?_⟩
    · simp only [emplace, load, if_pos hs, hpos, hie, if_false, e1, store_eq_some _ _ _ hlt]
    · show (d1.set i v).length = _
      simp only [List.length_set]
      omega
    · show a.size + 1 ≤ N
      omega
    · apply List.ext_getElem?
      intro j
      simp only [List.getElem?_append, List.length_append, List.length_take, List.length_cons,
        List.length_nil, List.getElem?_take, List.getElem?_drop, elements_get, hel,
        List.getElem?_set, List.getElem?_cons, List.getElem?_nil, g1]
      split_ifs <;> first | rfl | omega | exact slot_congr _ (by omega)

theorem emplace_full (safe : Bool) (N : Nat) (a : plain_array α) (i : Nat) (v : α)
    (hs : ¬ a.size < N) : emplace safe N a i (.outside v) = some (a, a.size) := by
  simp [emplace, hs]

theorem append_spec (safe : Bool) (N : Nat) (a : plain_array α) (c : Nat) (v : α)
    (hwf : WF safe N a) :
    ∃ a1, append safe N a c v = some (a1, a.size) ∧ WF safe N a1 ∧
      a1.size = a.size + min c (N - a.size) ∧
      elements a1 = elements a ++ List.replicate (min c (N - a.size)) v := by
  have hel := elements_length safe N a hwf
  by_cases hs : a.size < N
  · obtain ⟨a1, e1, w1, s1, g1⟩ := append_loop_spec safe N v c a hwf
    refine ⟨a1, by simp [append, hs, e1], w1, s1, ?_⟩
    apply List.ext_getElem?
    intro j
    simp only [List.getElem?_append, List.getElem?_replicate, elements_get, hel, s1, g1]
    split_ifs <;> first | rfl | omega
  · have hz : min c (N - a.size) = 0 := by omega
    refine ⟨a, by simp [append, hs], hwf, by omega, ?_⟩
    rw [hz]
    simp

theorem append_range_spec (safe : Bool) (N : Nat) (a : plain_array α) (src : List α)
    (hwf : WF safe N a) :
    ∃ a1, append_range safe N a src = some (a1, a.size) ∧ WF safe N a1 ∧
      a1.size = a.size + min src.length (N - a.size) ∧
      elements a1 = elements a ++ src.take (N - a.size) := by
  have hel := elements_length safe N a hwf
  by_cases hs : a.size < N
  · obtain ⟨a1, e1, w1, s1, g1⟩ := emplace_range_loop_spec safe N src a hwf
    refine ⟨a1, by simp [append_range, hs, e1], w1, s1, ?_⟩
    apply List.ext_getElem?
    intro j
    simp only [List.getElem?_append, List.getElem?_take, elements_get, hel, s1, g1]
    split_ifs <;> first
        | rfl
        | omega
        | exact slot_congr _ (by omega)
        | (symm; apply List.getElem?_eq_none; omega)
  · have hz : N - a.size = 0 := by omega
    refine ⟨a, by simp [append_range, hs], hwf, by omega, ?_⟩
    rw [hz]
    simp

theorem insert_range_spec (safe : Bool) (N : Nat) (a : plain_array α) (i : Nat) (src : List α)
    (hwf : WF safe N a) (hi : i ≤ a.size) (hs : a.size < N) :
    ∃ a1, insert_range safe N a i src = some (a1, i) ∧ WF safe N a1 ∧
      a1.size = a.size + min src.length (N - a.size) ∧
      elements a1 = (elements a).take i ++ src.take (N - a.size) ++ (elements a).drop i := by
  have hel := elements_length safe N a hwf
  have hpos : (if i ≤ N then i else N) = i := by
    rw [if_pos (by omega)]
  obtain ⟨a1, e1, w1, s1, g1⟩ := emplace_range_loop_spec safe N src a hwf
  by_cases hie : i = a.size
  · refine ⟨a1, ?_, w1, s1, ?_⟩
    · rw [hie] at hpos
      simp only [insert_range, if_pos hs, hie, hpos, if_true, e1]
    · apply List.ext_getElem?
      intro j
      simp only [List.getElem?_append, List.length_append, List.length_take,
        List.getElem?_take, List.getElem?_drop, elements_get, hel, s1, g1]
      split_ifs <;> first
        | rfl
        | omega
        | exact slot_congr _ (by omega)
  · obtain ⟨hlen1, hsz1⟩ := w1
    have hN := le_slots safe N
    obtain ⟨d2, e2, l2, g2⟩ := rotate_spec (loop_fuel a1.data) a1.data i a.size a1.size
      hi (by omega) (by omega) (by unfold loop_fuel; omega)
    refine ⟨{ a1 with data := d2 }, ?_, ⟨?_, hsz1⟩, s1, ?_⟩
    · simp only [insert_range, if_pos hs, hpos, hie, if_false, e1, e2]
    · show d2.length = _
      omega
    · apply List.ext_getElem?
      intro j
      simp only [List.getElem?_append, List.length_append, List.length_take,
        List.getElem?_take, List.getElem?_drop, elements_get, hel, s1, g1, g2]
      split_ifs <;> first
        | rfl
        | omega
        | exact slot_congr _ (by omega)

theorem insert_range_full (safe : Bool) (N : Nat) (a : plain_array α) (i : Nat) (src : List α)
    (hs : ¬ a.size < N) : insert_range safe N a i src = some (a, a.size) := by
  simp [insert_range, hs]

theorem erase_no_element (a : plain_array α) (i : Nat) (h : ¬ i < a.size) :
    erase a i = some (a, a.size) := by
  simp [erase, h]

theorem erase_range_noop (a : plain_array α) (f l : Nat) (h : ¬ (f < l ∧ l ≤ a.size)) :
    ∃ r, erase_range a f l = some (a, r) := by
  by_cases h1 : f = l
  · exact ⟨l, by simp [erase_range, h1]⟩
  · refine ⟨a.size, ?_⟩
    have h2 : ¬ (f < l ∧ f < a.size ∧ l ≤ a.size) := by omega
    simp [erase_range, h1, h2]

theorem step_checked [Inhabited α] (safe : Bool) (N : Nat) (a : plain_array α) (op : Op α)
    (hwf : WF safe N a) (hc : checked_call a op = true) :
    ∃ a1, step safe N a op = some a1 ∧ WF safe N a1 := by
  cases op with
  | emplace_back v =>
    by_cases hs : a.size < N
    · obtain ⟨a1, e, w, _⟩ := emplace_back_spec safe N a v hwf hs
      exact ⟨a1, by simp [step, e], w⟩
    · exact ⟨a, by simp [step, emplace_back_full N a v hs], hwf⟩
  | push_back v =>
    by_cases hs : a.size < N
    · obtain ⟨a1, e, w, _⟩ := emplace_back_spec safe N a v hwf hs
      exact ⟨a1, by simp [step, push_back, e], w⟩
    · exact ⟨a, by simp [step, push_back, emplace_back_full N a v hs], hwf⟩
  | unchecked_emplace_back v => simp [checked_call] at hc
  | pop_back => exact ⟨pop_back a, rfl, (pop_back_spec safe N a hwf).1⟩
  | pop_front =>
    obtain ⟨a1, e, w, _⟩ := pop_front_spec safe N a hwf
    exact ⟨a1, by simp [step, e], w⟩
  | clear => exact ⟨clear a, rfl, (clear_spec safe N a hwf).1⟩
  | erase pos =>
    by_cases hp : pos < a.size
    · obtain ⟨a1, e, w, _⟩ := erase_spec safe N a pos hwf hp
      exact ⟨a1, by simp [step, e], w⟩
    · exact ⟨a, by simp [step, erase_no_element a pos hp], hwf⟩
  | erase_range f l =>
    by_cases hp : f < l ∧ l ≤ a.size
    · obtain ⟨a1, e, w, _⟩ := erase_range_spec safe N a f l hwf hp.1 hp.2
      exact ⟨a1, by simp [step, e], w⟩
    · obtain ⟨r, e⟩ := erase_range_noop a f l hp
      exact ⟨a, by simp [step, e], hwf⟩
  | emplace pos v =>
    have hp : pos ≤ a.size := by simpa [checked_call] using hc
    by_cases hs : a.size < N
    · obtain ⟨a1, e, w, _⟩ := emplace_spec safe N a pos v hwf hp hs
      exact ⟨a1, by simp [step, e], w⟩
    · exact ⟨a, by simp [step, emplace_full safe N a pos v hs], hwf⟩
  | insert pos v =>
    have hp : pos ≤ a.size := by simpa [checked_call] using hc
    by_cases hs : a.size < N
    · obtain ⟨a1, e, w, _⟩ := emplace_spec safe N a pos v hwf hp hs
      exact ⟨a1, by simp [step, insert, e], w⟩
    · exact ⟨a, by simp [step, insert, emplace_full safe N a pos v hs], hwf⟩
  | insert_count pos c v =>
    have hp : pos ≤ a.size := by simpa [checked_call] using hc
    by_cases hs : a.size < N
    · obtain ⟨a1, e, w, _⟩ := insert_backwards_spec safe N a pos c v hwf hp hs
      exact ⟨a1, by simp [step, insert_count, e], w⟩
    · exact ⟨a, by simp [step, insert_count, (insert_full N a pos c v hs).1], hwf⟩
  | insert_backwards pos c v =>
    have hp : pos ≤ a.size := by simpa [checked_call] using hc
    by_cases hs : a.size < N
    · obtain ⟨a1, e, w, _⟩ := insert_backwards_spec safe N a pos c v hwf hp hs
      exact ⟨a1, by simp [step, e], w⟩
    · exact ⟨a, by simp [step, (insert_full N a pos c v hs).1], hwf⟩
  | insert_rotate pos c v =>
    have hp : pos ≤ a.size := by simpa [checked_call] using hc
    by_cases hs : a.size < N
    · obtain ⟨a1, e, w, _⟩ := insert_rotate_spec safe N a pos c v hwf hp hs
      exact ⟨a1, by simp [step, e], w⟩
    · exact ⟨a, by simp [step, (insert_full N a pos c v hs).2], hwf⟩
  | insert_range pos src =>
    have hp : pos ≤ a.size := by simpa [checked_call] using hc
    by_cases hs : a.size < N
    · obtain ⟨a1, e, w, _⟩ := insert_range_spec safe N a pos src hwf hp hs
      exact ⟨a1, by simp [step, e], w⟩
    · exact ⟨a, by simp [step, insert_range_full safe N a pos src hs], hwf⟩
  | append c v =>
    obtain ⟨a1, e, w, _⟩ := append_spec safe N a c v hwf
    exact ⟨a1, by simp [step, e], w⟩
  | append_default c =>
    obtain ⟨a1, e, w, _⟩ := append_spec safe N a c default hwf
    exact ⟨a1, by simp [step, append_default, e], w⟩
  | append_range src =>
    obtain ⟨a1, e, w, _⟩ := append_range_spec safe N a src hwf
    exact ⟨a1, by simp [step, e], w⟩

theorem size_bounded_of_checked [Inhabited α] (safe : Bool) (N : Nat) :
    ∀ (ops : List (Op α)) (a : plain_array α), WF safe N a →
      checked_calls safe N a ops = true → size_bounded safe N a ops := by
  intro ops
  induction ops with
  | nil =>
    intro a hwf _
    exact ⟨hwf.2, rfl⟩
  | cons op ops ih =>
    intro a hwf hc
    simp only [checked_calls, Bool.and_eq_true] at hc
    obtain ⟨a1, e, w⟩ := step_checked safe N a op hwf hc.1
    have h2 := hc.2
    rw [e] at h2
    exact ⟨hwf.2, rfl, a1, e, ih a1 w h2⟩

theorem empty_WF [Inhabited α] (safe : Bool) (N : Nat) : WF safe N (empty safe N : plain_array α) := by
  constructor
  · simp [empty]
  · exact Nat.zero_le _

theorem elements_push (safe : Bool) (N : Nat) (a a1 : plain_array α) (v : α)
    (hwf : WF safe N a) (hs : a.size < N) (h1 : a1.size = a.size + 1)
    (h2 : a1.data = a.data.set a.size v) : elements a1 = elements a ++ [v] := by
  have hel := elements_length safe N a hwf
  obtain ⟨hlen, _⟩ := hwf
  have hN := le_slots safe N
  apply List.ext_getElem?
  intro j
  simp only [List.getElem?_append, List.getElem?_cons, List.getElem?_nil, elements_get, hel, h1,
    h2, List.getElem?_set]
  split_ifs <;> first
    | rfl
    | omega

theorem step_refines [Inhabited α] (safe : Bool) (N : Nat) (a : plain_array α) (op : Op α)
    (hwf : WF safe N a) (hp : positions_valid (elements a) op = true)
    (hfit : (ref_step (elements a) op).length ≤ N) :
    ∃ a1, step safe N a op = some a1 ∧ WF safe N a1 ∧
      elements a1 = ref_step (elements a) op := by
  have hel := elements_length safe N a hwf
  cases op with
  | emplace_back v =>
    have hs : a.size < N := by simp [ref_step, hel] at hfit; omega
    obtain ⟨a1, e, w, s, d⟩ := emplace_back_spec safe N a v hwf hs
    exact ⟨a1, by simp [step, e], w, elements_push safe N a a1 v hwf hs s d⟩
  | push_back v =>
    have hs : a.size < N := by simp [ref_step, hel] at hfit; omega
    obtain ⟨a1, e, w, s, d⟩ := emplace_back_spec safe N a v hwf hs
    exact ⟨a1, by simp [step, push_back, e], w, elements_push safe N a a1 v hwf hs s d⟩
  | unchecked_emplace_back v =>
    have hs : a.size < N := by simp [ref_step, hel] at hfit; omega
    obtain ⟨a1, e, w, s, d⟩ := unchecked_emplace_back_spec safe N a v hwf hs
    exact ⟨a1, by simp [step, e], w, elements_push safe N a a1 v hwf hs s d⟩
  | pop_back =>
    obtain ⟨w, _, h⟩ := pop_back_spec safe N a hwf
    exact ⟨pop_back a, rfl, w, h⟩
  | pop_front =>
    obtain ⟨a1, e, w, _, h⟩ := pop_front_spec safe N a hwf
    exact ⟨a1, by simp [step, e], w, h⟩
  | clear =>
    obtain ⟨w, _, h⟩ := clear_spec safe N a hwf
    exact ⟨clear a, rfl, w, h⟩
  | erase pos =>
    have hq : pos < a.size := by simpa [positions_valid, hel] using hp
    obtain ⟨a1, e, w, _, h⟩ := erase_spec safe N a pos hwf hq
    exact ⟨a1, by simp [step, e], w, h⟩
  | erase_range f l =>
    have hq : f ≤ l ∧ l ≤ a.size := by simpa [positions_valid, hel] using hp
    by_cases hfl : f < l
    · obtain ⟨a1, e, w, _, h⟩ := erase_range_spec safe N a f l hwf hfl hq.2
      exact ⟨a1, by simp [step, e], w, h⟩
    · have hfe : f = l := by omega
      refine ⟨a, by simp [step, erase_range, hfe], hwf, ?_⟩
      simp [ref_step, hfe]
  | emplace pos v =>
    have hq : pos ≤ a.size := by simpa [positions_valid, hel] using hp
    have hs : a.size < N := by simp [ref_step, hel] at hfit; omega
    obtain ⟨a1, e, w, _, h⟩ := emplace_spec safe N a pos v hwf hq hs
    exact ⟨a1, by simp [step, e], w, h⟩
  | insert pos v =>
    have hq : pos ≤ a.size := by simpa [positions_valid, hel] using hp
    have hs : a.size < N := by simp [ref_step, hel] at hfit; omega
    obtain ⟨a1, e, w, _, h⟩ := emplace_spec safe N a pos v hwf hq hs
    exact ⟨a1, by simp [step, insert, e], w, h⟩
  | insert_count pos c v =>
    have hq : pos ≤ a.size := by simpa [positions_valid, hel] using hp
    have hc : a.size + c ≤ N := by simp [ref_step, hel] at hfit; omega
    by_cases hs : a.size < N
    · obtain ⟨a1, e, w, _, _, h⟩ := insert_backwards_elements safe N a pos c v hwf hq hs
      have hm : min c (N - a.size) = c := by omega
      rw [hm] at h
      exact ⟨a1, by simp [step, insert_count, e], w, h⟩
    · have hc0 : c = 0 := by have := hwf.2; omega
      refine ⟨a, by simp [step, insert_count, (insert_full N a pos c v hs).1], hwf, ?_⟩
      simp [ref_step, hc0]
  | insert_backwards pos c v =>
    have hq : pos ≤ a.size := by simpa [positions_valid, hel] using hp
    have hc : a.size + c ≤ N := by simp [ref_step, hel] at hfit; omega
    by_cases hs : a.size < N
    · obtain ⟨a1, e, w, _, _, h⟩ := insert_backwards_elements safe N a pos c v hwf hq hs
      have hm : min c (N - a.size) = c := by omega
      rw [hm] at h
      exact ⟨a1, by simp [step, e], w, h⟩
    · have hc0 : c = 0 := by have := hwf.2; omega
      refine ⟨a, by simp [step, (insert_full N a pos c v hs).1], hwf, ?_⟩
      simp [ref_step, hc0]
  | insert_rotate pos c v =>
    have hq : pos ≤ a.size := by simpa [positions_valid, hel] using hp
    have hc : a.size + c ≤ N := by simp [ref_step, hel] at hfit; omega
    by_cases hs : a.size < N
    · obtain ⟨a1, e, w, _, _, h⟩ := insert_backwards_elements safe N a pos c v hwf hq hs
      obtain ⟨r, er, eb⟩ := insert_rotate_eq_insert_backwards safe N a pos c v hwf hq
      have hm : min c (N - a.size) = c := by omega
      rw [hm] at h
      rw [e] at eb
      cases eb
      exact ⟨a1, by simp [step, er], w, h⟩
    · have hc0 : c = 0 := by have := hwf.2; omega
      refine ⟨a, by simp [step, (insert_full N a pos c v hs).2], hwf, ?_⟩
      simp [ref_step, hc0]
  | insert_range pos src =>
    have hq : pos ≤ a.size := by simpa [positions_valid, hel] using hp
    have hc : a.size + src.length ≤ N := by simp [ref_step, hel] at hfit; omega
    by_cases hs : a.size < N
    · obtain ⟨a1, e, w, _, h⟩ := insert_range_spec safe N a pos src hwf hq hs
      have ht : src.take (N - a.size) = src := List.take_of_length_le (by omega)
      rw [ht] at h
      exact ⟨a1, by simp [step, e], w, h⟩
    · have hc0 : src = [] := by
        have := hwf.2
        apply List.eq_nil_of_length_eq_zero
        omega
      refine ⟨a, by simp [step, insert_range_full safe N a pos src hs], hwf, ?_⟩
      simp [ref_step, hc0]
  | append c v =>
    have hc : a.size + c ≤ N := by simp [ref_step, hel] at hfit; omega
    obtain ⟨a1, e, w, _, h⟩ := append_spec safe N a c v hwf
    have hm : min c (N - a.size) = c := by omega
    rw [hm] at h
    exact ⟨a1, by simp [step, e], w, h⟩
  | append_default c =>
    have hc : a.size + c ≤ N := by simp [ref_step, hel] at hfit; omega
    obtain ⟨a1, e, w, _, h⟩ := append_spec safe N a c default hwf
    have hm : min c (N - a.size) = c := by omega
    rw [hm] at h
    exact ⟨a1, by simp [step, append_default, e], w, h⟩
  | append_range src =>
    have hc : a.size + src.length ≤ N := by simp [ref_step, hel] at hfit; omega
    obtain ⟨a1, e, w, _, h⟩ := append_range_spec safe N a src hwf
    have ht : src.take (N - a.size) = src := List.take_of_length_le (by omega)
    rw [ht] at h
    exact ⟨a1, by simp [step, e], w, h⟩

theorem run_refines [Inhabited α] (safe : Bool) (N : Nat) :
    ∀ (ops : List (Op α)) (a : plain_array α), WF safe N a →
      fits N (elements a) ops = true →
      ∃ a1, run safe N a ops = some a1 ∧ WF safe N a1 ∧
        elements a1 = ref_run (elements a) ops := by
  intro ops
  induction ops with
  | nil =>
    intro a hwf _
    exact ⟨a, rfl, hwf, rfl⟩
  | cons op ops ih =>
    intro a hwf hf
    simp only [fits, Bool.and_eq_true, decide_eq_true_eq] at hf
    obtain ⟨a1, e, w, h⟩ := step_refines safe N a op hwf hf.1.1 hf.1.2
    have h2 := hf.2
    rw [← h] at h2
    obtain ⟨a2, e2, w2, h3⟩ := ih a1 w h2
    refine ⟨a2, by simp [run, e, e2], w2, ?_⟩
    rw [h3, h]
    rfl

theorem clamped_beyond (N pos size : Nat) (hs : size < N) (hp : size < pos) :
    size < (if pos ≤ N then pos else N) := by
  split_ifs <;> omega

theorem emplace_beyond_end (safe : Bool) (N : Nat) (a : plain_array α) (pos : Nat) (v : α)
    (hs : a.size < N) (hp : a.size < pos) : emplace safe N a pos (.outside v) = none := by
  have hc := clamped_beyond N pos a.size hs hp
  have hne : ¬ (if pos ≤ N then pos else N) = a.size := by omega
  simp only [emplace, if_pos hs, if_neg hne, copy_backward_diverges _ _ _ _ _ hc]

theorem insert_backwards_beyond_end (N : Nat) (a : plain_array α) (pos c : Nat) (v : α)
    (hs : a.size < N) (hp : a.size < pos) : insert_backwards N a pos c (.outside v) = none := by
  have hc := clamped_beyond N pos a.size hs hp
  have hne : ¬ (if pos ≤ N then pos else N) = a.size := by omega
  simp only [insert_backwards, if_pos hs, if_neg hne, copy_backward_diverges _ _ _ _ _ hc]

theorem insert_rotate_beyond_end (N : Nat) (a : plain_array α) (pos c : Nat) (v : α)
    (hs : a.size < N) (hp : a.size < pos) : insert_rotate N a pos c (.outside v) = none := by
  have hc := clamped_beyond N pos a.size hs hp
  have hne : ¬ (if pos ≤ N then pos else N) = a.size := by omega
  simp only [insert_rotate, load, if_pos hs, if_neg hne]
  cases hf : fill a.data a.size (a.size + if c ≤ N - a.size then c else N - a.size) v
      (loop_fuel a.data) with
  | none => simp only [hf]
  | some d => simp only [hf, rotate_diverges _ _ _ _ _ hc]

theorem insert_range_beyond_end (safe : Bool) (N : Nat) (a : plain_array α) (pos : Nat)
    (src : List α) (hs : a.size < N) (hp : a.size < pos) :
    insert_range safe N a pos src = none := by
  have hc := clamped_beyond N pos a.size hs hp
  have hne : ¬ (if pos ≤ N then pos else N) = a.size := by omega
  simp only [insert_range, if_pos hs, if_neg hne]
  cases hf : emplace_range_loop safe N a src with
  | none => simp only [hf]
  | some a1 => simp only [hf, rotate_diverges _ _ _ _ _ hc]

theorem swap_array_spec (N : Nat) :
    ∀ (fuel : Nat) (l r : List α) (i : Nat), i ≤ N → l.length = N → r.length = N →
      N - i < fuel →
      ∃ l1 r1, swap_array l r i N i fuel = some (l1, r1) ∧ l1.length = N ∧ r1.length = N ∧
        (∀ j : Nat, l1[j]? = if i ≤ j then r[j]? else l[j]?) ∧
        ∀ j : Nat, r1[j]? = if i ≤ j then l[j]? else r[j]? := by
  intro fuel
  induction fuel with
  | zero => intro l r i _ _ _ h; omega
  | succ fuel ih =>
    intro l r i hi hl hr hf
    by_cases hiN : i = N
    · refine ⟨l, r, by simp [swap_array, hiN], hl, hr, ?_, ?_⟩
      · intro j
        by_cases hj : i ≤ j
        · rw [if_pos hj, List.getElem?_eq_none (by omega), List.getElem?_eq_none (by omega)]
        · rw [if_neg hj]
      · intro j
        by_cases hj : i ≤ j
        · rw [if_pos hj, List.getElem?_eq_none (by omega), List.getElem?_eq_none (by omega)]
        · rw [if_neg hj]
    · have hil : i < l.length := by omega
      have hir : i < r.length := by omega
      obtain ⟨l1, r1, e, hl1, hr1, g1, g2⟩ := ih (l.set i r[i]) (r.set i l[i]) (i + 1) (by omega)
        (by simp [hl]) (by simp [hr]) (by omega)
      refine ⟨l1, r1, ?_, hl1, hr1, ?_, ?_⟩
      · simp only [swap_array, if_neg hiN, List.getElem?_eq_getElem hil,
          List.getElem?_eq_getElem hir, store_eq_some _ _ _ hil, store_eq_some _ _ _ hir, e]
      · intro j
        rw [g1]
        by_cases h2 : i = j
        · subst h2
          simp [hil, hir]
        · simp only [List.getElem?_set, if_neg h2]
          split_ifs <;> first
            | rfl
            | omega
      · intro j
        rw [g2]
        by_cases h2 : i = j
        · subst h2
          simp [hil, hir]
        · simp only [List.getElem?_set, if_neg h2]
          split_ifs <;> first
            | rfl
            | omega

theorem swap_spec (N : Nat) (a b : plain_array α) (ha : a.data.length = N)
    (hb : b.data.length = N) (hsa : a.size ≤ N) (hsb : b.size ≤ N) :
    swap N a b = some ({ a with data := b.data, size := b.size },
                       { b with data := a.data, size := a.size }) := by
  by_cases hN : N > 0
  · obtain ⟨l1, r1, e, hl1, hr1, g1, g2⟩ := swap_array_spec N (loop_fuel a.data) a.data b.data 0
      (Nat.zero_le _) ha hb (by unfold loop_fuel; omega)
    have e1 : l1 = b.data := by
      apply List.ext_getElem?
      intro j
      rw [g1, if_pos (Nat.zero_le _)]
    have e2 : r1 = a.data := by
      apply List.ext_getElem?
      intro j
      rw [g2, if_pos (Nat.zero_le _)]
    simp only [swap, if_pos hN, e, e1, e2]
  · have h0 : N = 0 := by omega
    subst h0
    have ea : a.data = [] := List.length_eq_zero.mp ha
    have eb : b.data = [] := List.length_eq_zero.mp hb
    have sa : a.size = 0 := by omega
    have sb : b.size = 0 := by omega
    simp only [swap, if_neg hN, ea, eb]
    cases a
    cases b
    simp_all

theorem step_lockstep [Inhabited α] (N : Nat) (a b : plain_array α) (op : Op α)
    (h : lockstep N a b) (hu : ∀ v, op = .unchecked_emplace_back v → a.size < N) :
    (step false N a op = none ∧ step true N b op = none) ∨
      ∃ a1 b1, step false N a op = some a1 ∧ step true N b op = some b1 ∧ lockstep N a1 b1 := by
  obtain ⟨wa, wb, hs, he⟩ := h
  have same : step false N a op = some a ∧ step true N b op = some b →
      (step false N a op = none ∧ step true N b op = none) ∨
        ∃ a1 b1, step false N a op = some a1 ∧ step true N b op = some b1 ∧ lockstep N a1 b1 :=
    fun hh => Or.inr ⟨a, b, hh.1, hh.2, wa, wb, hs, he⟩
  cases op with
  | emplace_back v =>
    by_cases hlt : a.size < N
    · obtain ⟨a1, ea, wa1, sa, da⟩ := emplace_back_spec false N a v wa hlt
      obtain ⟨b1, eb, wb1, sb, db⟩ := emplace_back_spec true N b v wb (by omega)
      refine Or.inr ⟨a1, b1, by simp [step, ea], by simp [step, eb], wa1, wb1, by omega, ?_⟩
      rw [elements_push false N a a1 v wa hlt sa da,
        elements_push true N b b1 v wb (by omega) sb db, he]
    · apply same
      simp [step, emplace_back_full N a v hlt, emplace_back_full N b v (by omega)]
  | push_back v =>
    by_cases hlt : a.size < N
    · obtain ⟨a1, ea, wa1, sa, da⟩ := emplace_back_spec false N a v wa hlt
      obtain ⟨b1, eb, wb1, sb, db⟩ := emplace_back_spec true N b v wb (by omega)
      refine Or.inr ⟨a1, b1, by simp [step, push_back, ea], by simp [step, push_back, eb], wa1,
        wb1, by omega, ?_⟩
      rw [elements_push false N a a1 v wa hlt sa da,
        elements_push true N b b1 v wb (by omega) sb db, he]
    · apply same
      simp [step, push_back, emplace_back_full N a v hlt, emplace_back_full N b v (by omega)]
  | unchecked_emplace_back v =>
    have hlt := hu v rfl
    obtain ⟨a1, ea, wa1, sa, da⟩ := unchecked_emplace_back_spec false N a v wa hlt
    obtain ⟨b1, eb, wb1, sb, db⟩ := unchecked_emplace_back_spec true N b v wb (by omega)
    refine Or.inr ⟨a1, b1, by simp [step, ea], by simp [step, eb], wa1, wb1, by omega, ?_⟩
    rw [elements_push false N a a1 v wa hlt sa da,
      elements_push true N b b1 v wb (by omega) sb db, he]
  | pop_back =>
    obtain ⟨wa1, sa, la⟩ := pop_back_spec false N a wa
    obtain ⟨wb1, sb, lb⟩ := pop_back_spec true N b wb
    exact Or.inr ⟨pop_back a, pop_back b, rfl, rfl, wa1, wb1, by omega, by rw [la, lb, he]⟩
  | pop_front =>
    obtain ⟨a1, ea, wa1, sa, la⟩ := pop_front_spec false N a wa
    obtain ⟨b1, eb, wb1, sb, lb⟩ := pop_front_spec true N b wb
    exact Or.inr ⟨a1, b1, by simp [step, ea], by simp [step, eb], wa1, wb1, by omega,
      by rw [la, lb, he]⟩
  | clear =>
    obtain ⟨wa1, sa, la⟩ := clear_spec false N a wa
    obtain ⟨wb1, sb, lb⟩ := clear_spec true N b wb
    exact Or.inr ⟨clear a, clear b, rfl, rfl, wa1, wb1, by omega, by rw [la, lb]⟩
  | erase pos =>
    by_cases hp : pos < a.size
    · obtain ⟨a1, ea, wa1, sa, la⟩ := erase_spec false N a pos wa hp
      obtain ⟨b1, eb, wb1, sb, lb⟩ := erase_spec true N b pos wb (by omega)
      exact Or.inr ⟨a1, b1, by simp [step, ea], by simp [step, eb], wa1, wb1, by omega,
        by rw [la, lb, he]⟩
    · apply same
      simp [step, erase_no_element a pos hp, erase_no_element b pos (by omega)]
  | erase_range f l =>
    by_cases hp : f < l ∧ l ≤ a.size
    · obtain ⟨a1, ea, wa1, sa, la⟩ := erase_range_spec false N a f l wa hp.1 hp.2
      obtain ⟨b1, eb, wb1, sb, lb⟩ := erase_range_spec true N b f l wb hp.1 (by omega)
      exact Or.inr ⟨a1, b1, by simp [step, ea], by simp [step, eb], wa1, wb1, by omega,
        by rw [la, lb, he]⟩
    · obtain ⟨r1, e1⟩ := erase_range_noop a f l hp
      obtain ⟨r2, e2⟩ := erase_range_noop b f l (by omega)
      apply same
      simp [step, e1, e2]
  | emplace pos v =>
    by_cases hlt : a.size < N
    · by_cases hp : pos ≤ a.size
      · obtain ⟨a1, ea, wa1, sa, la⟩ := emplace_spec false N a pos v wa hp hlt
        obtain ⟨b1, eb, wb1, sb, lb⟩ := emplace_spec true N b pos v wb (by omega) (by omega)
        exact Or.inr ⟨a1, b1, by simp [step, ea], by simp [step, eb], wa1, wb1, by omega,
          by rw [la, lb, he]⟩
      · left
        simp [step, emplace_beyond_end false N a pos v hlt (by omega),
          emplace_beyond_end true N b pos v (by omega) (by omega)]
    · apply same
      simp [step, emplace_full false N a pos v hlt, emplace_full true N b pos v (by omega)]
  | insert pos v =>
    by_cases hlt : a.size < N
    · by_cases hp : pos ≤ a.size
      · obtain ⟨a1, ea, wa1, sa, la⟩ := emplace_spec false N a pos v wa hp hlt
        obtain ⟨b1, eb, wb1, sb, lb⟩ := emplace_spec true N b pos v wb (by omega) (by omega)
        exact Or.inr ⟨a1, b1, by simp [step, insert, ea], by simp [step, insert, eb], wa1, wb1,
          by omega, by rw [la, lb, he]⟩
      · left
        simp [step, insert, emplace_beyond_end false N a pos v hlt (by omega),
          emplace_beyond_end true N b pos v (by omega) (by omega)]
    · apply same
      simp [step, insert, emplace_full false N a pos v hlt,
        emplace_full true N b pos v (by omega)]
  | insert_count pos c v =>
    by_cases hlt : a.size < N
    · by_cases hp : pos ≤ a.size
      · obtain ⟨a1, ea, wa1, sa, _, la⟩ := insert_backwards_elements false N a pos c v wa hp hlt
        obtain ⟨b1, eb, wb1, sb, _, lb⟩ := insert_backwards_elements true N b pos c v wb
          (by omega) (by omega)
        exact Or.inr ⟨a1, b1, by simp [step, insert_count, ea], by simp [step, insert_count, eb],
          wa1, wb1, by omega, by rw [la, lb, he, hs]⟩
      · left
        simp [step, insert_count, insert_backwards_beyond_end N a pos c v hlt (by omega),
          insert_backwards_beyond_end N b pos c v (by omega) (by omega)]
    · apply same
      simp [step, insert_count, (insert_full N a pos c v hlt).1,
        (insert_full N b pos c v (by omega)).1]
  | insert_backwards pos c v =>
    by_cases hlt : a.size < N
    · by_cases hp : pos ≤ a.size
      · obtain ⟨a1, ea, wa1, sa, _, la⟩ := insert_backwards_elements false N a pos c v wa hp hlt
        obtain ⟨b1, eb, wb1, sb, _, lb⟩ := insert_backwards_elements true N b pos c v wb
          (by omega) (by omega)
        exact Or.inr ⟨a1, b1, by simp [step, ea], by simp [step, eb],
          wa1, wb1, by omega, by rw [la, lb, he, hs]⟩
      · left
        simp [step, insert_backwards_beyond_end N a pos c v hlt (by omega),
          insert_backwards_beyond_end N b pos c v (by omega) (by omega)]
    · apply same
      simp [step, (insert_full N a pos c v hlt).1, (insert_full N b pos c v (by omega)).1]
  | insert_rotate pos c v =>
    by_cases hlt : a.size < N
    · by_cases hp : pos ≤ a.size
      · obtain ⟨a1, ea, wa1, sa, _, la⟩ := insert_backwards_elements false N a pos c v wa hp hlt
        obtain ⟨b1, eb, wb1, sb, _, lb⟩ := insert_backwards_elements true N b pos c v wb
          (by omega) (by omega)
        obtain ⟨ra, ra1, ra2⟩ := insert_rotate_eq_insert_backwards false N a pos c v wa hp
        obtain ⟨rb, rb1, rb2⟩ := insert_rotate_eq_insert_backwards true N b pos c v wb (by omega)
        rw [ea] at ra2
        rw [eb] at rb2
        cases ra2
        cases rb2
        exact Or.inr ⟨a1, b1, by simp [step, ra1], by simp [step, rb1],
          wa1, wb1, by omega, by rw [la, lb, he, hs]⟩
      · left
        simp [step, insert_rotate_beyond_end N a pos c v hlt (by omega),
          insert_rotate_beyond_end N b pos c v (by omega) (by omega)]
    · apply same
      simp [step, (insert_full N a pos c v hlt).2, (insert_full N b pos c v (by omega)).2]
  | insert_range pos src =>
    by_cases hlt : a.size < N
    · by_cases hp : pos ≤ a.size
      · obtain ⟨a1, ea, wa1, sa, la⟩ := insert_range_spec false N a pos src wa hp hlt
        obtain ⟨b1, eb, wb1, sb, lb⟩ := insert_range_spec true N b pos src wb (by omega)
          (by omega)
        exact Or.inr ⟨a1, b1, by simp [step, ea], by simp [step, eb], wa1, wb1, by omega,
          by rw [la, lb, he, hs]⟩
      · left
        simp [step, insert_range_beyond_end false N a pos src hlt (by omega),
          insert_range_beyond_end true N b pos src (by omega) (by omega)]
    · apply same
      simp [step, insert_range_full false N a pos src hlt,
        insert_range_full true N b pos src (by omega)]
  | append c v =>
    obtain ⟨a1, ea, wa1, sa, la⟩ := append_spec false N a c v wa
    obtain ⟨b1, eb, wb1, sb, lb⟩ := append_spec true N b c v wb
    exact Or.inr ⟨a1, b1, by simp [step, ea], by simp [step, eb], wa1, wb1, by omega,
      by rw [la, lb, he, hs]⟩
  | append_default c =>
    obtain ⟨a1, ea, wa1, sa, la⟩ := append_spec false N a c default wa
    obtain ⟨b1, eb, wb1, sb, lb⟩ := append_spec true N b c default wb
    exact Or.inr ⟨a1, b1, by simp [step, append_default, ea], by simp [step, append_default, eb],
      wa1, wb1, by omega, by rw [la, lb, he, hs]⟩
  | append_range src =>
    obtain ⟨a1, ea, wa1, sa, la⟩ := append_range_spec false N a src wa
    obtain ⟨b1, eb, wb1, sb, lb⟩ := append_range_spec true N b src wb
    exact Or.inr ⟨a1, b1, by simp [step, ea], by simp [step, eb], wa1, wb1, by omega,
      by rw [la, lb, he, hs]⟩

theorem run_lockstep [Inhabited α] (N : Nat) :
    ∀ (ops : List (Op α)) (a b : plain_array α), lockstep N a b →
      unchecked_within false N a ops = true →
      (run false N a ops = none ∧ run true N b ops = none) ∨
        ∃ a1 b1, run false N a ops = some a1 ∧ run true N b ops = some b1 ∧
          lockstep N a1 b1 := by
  intro ops
  induction ops with
  | nil =>
    intro a b h _
    exact Or.inr ⟨a, b, rfl, rfl, h⟩
  | cons op ops ih =>
    intro a b h hu
    simp only [unchecked_within, Bool.and_eq_true] at hu
    have hop : ∀ v, op = .unchecked_emplace_back v → a.size < N := by
      intro v hv
      subst hv
      simpa using hu.1
    rcases step_lockstep N a b op h hop with ⟨e1, e2⟩ | ⟨a1, b1, e1, e2, h1⟩
    · left
      simp [run, e1, e2]
    · have hu2 : unchecked_within false N a1 ops = true := by
        have := hu.2
        simpa [e1] using this
      rcases ih a1 b1 h1 hu2 with ⟨r1, r2⟩ | ⟨a2, b2, r1, r2, h2⟩
      · left
        simp [run, e1, e2, r1, r2]
      · right
        exact ⟨a2, b2, by simp [run, e1, r1], by simp [run, e2, r2], h2⟩

theorem unchecked_within_take [Inhabited α] (safe : Bool) (N : Nat) :
    ∀ (ops : List (Op α)) (a : plain_array α) (k : Nat),
      unchecked_within safe N a ops = true → unchecked_within safe N a (ops.take k) = true := by
  intro ops
  induction ops with
  | nil =>
    intro a k _
    simp [unchecked_within]
  | cons op ops ih =>
    intro a k h
    cases k with
    | zero => simp [unchecked_within]
    | succ k =>
      simp only [unchecked_within, Bool.and_eq_true, List.take_succ_cons] at h ⊢
      refine ⟨h.1, ?_⟩
      cases hs : step safe N a op with
      | none => simp
      | some a1 =>
        have := h.2
        simp only [hs] at this ⊢
        exact ih a1 k this

theorem empty_lockstep [Inhabited α] (N : Nat) :
    lockstep N (empty false N : plain_array α) (empty true N) :=
  ⟨empty_WF false N, empty_WF true N, rfl, by simp [elements, empty]⟩

theorem unchecked_emplace_back_at_capacity (N : Nat) (a : plain_array α) (x : α)
    (hwf : WF true N a) (hs : a.size = N) :
    unchecked_emplace_back true N a x =
      some ({ data := a.data.set N x, size := N, overrun := true }, N) := by
  obtain ⟨hlen, _⟩ := hwf
  have hl : a.size < a.data.length := by
    rw [hlen]; simp [slots]; omega
  simp only [unchecked_emplace_back, store_eq_some _ _ _ hl]
  simp [hs]

theorem step_emplace_or_push [Inhabited α] (N : Nat) (a : plain_array α) (op : Op α)
    (hwf : WF true N a)
    (hc : (match op with
      | .unchecked_emplace_back _ => true
      | _ => checked_call a op) = true) :
    ∃ a1, step true N a op = some a1 ∧ WF true N a1 := by
  cases op with
  | unchecked_emplace_back v =>
    by_cases hs : a.size < N
    · obtain ⟨a1, e, w, _⟩ := unchecked_emplace_back_spec true N a v hwf hs
      exact ⟨a1, by simp [step, e], w⟩
    · have hsN : a.size = N := by have := hwf.2; omega
      refine ⟨{ data := a.data.set N v, size := N, overrun := true },
        by simp [step, unchecked_emplace_back_at_capacity N a v hwf hsN], ?_, ?_⟩
      · simp [hwf.1]
      · exact Nat.le_refl N
  | _ => exact step_checked true N a _ hwf hc

theorem run_emplace_or_push [Inhabited α] (N : Nat) :
    ∀ (ops : List (Op α)) (a : plain_array α), WF true N a →
      emplace_or_push_calls true N a ops = true →
      ∃ a1, run true N a ops = some a1 ∧ WF true N a1 := by
  intro ops
  induction ops with
  | nil => intro a hwf _; exact ⟨a, rfl, hwf⟩
  | cons op ops ih =>
    intro a hwf hc
    simp only [emplace_or_push_calls, Bool.and_eq_true] at hc
    obtain ⟨a1, h1, w1⟩ := step_emplace_or_push N a op hwf hc.1
    have hc2 := hc.2
    simp only [h1] at hc2
    obtain ⟨a2, h2, w2⟩ := ih a1 w1 hc2
    exact ⟨a2, by simp [run, h1, h2], w2⟩

theorem assign_fill_loop_spec (value : α) (bound : Nat) :
    ∀ (fuel : Nat) (d : List α) (i : Nat), i ≤ bound → bound ≤ d.length → bound - i < fuel →
      ∃ d1, assign_fill_loop value bound d i fuel = some (d1, bound) ∧ d1.length = d.length ∧
        ∀ j, d1[j]? = if i ≤ j ∧ j < bound then some value else d[j]? := by
  intro fuel
  induction fuel with
  | zero => intro d i _ _ h; omega
  | succ fuel ih =>
    intro d i h1 h2 h3
    by_cases hi : i < bound
    · have hl : i < d.length := by omega
      obtain ⟨d1, e1, l1, g1⟩ := ih (d.set i value) (i + 1) (by omega)
        (by simp; omega) (by omega)
      refine ⟨d1, by simp [assign_fill_loop, hi, store_eq_some _ _ _ hl, e1],
        by simpa using l1, ?_⟩
      intro j
      rw [g1 j]
      simp only [List.getElem?_set]
      split_ifs <;> first | rfl | omega
    · have : i = bound := by omega
      subst this
      refine ⟨d, by simp [assign_fill_loop], rfl, ?_⟩
      intro j
      have : ¬ (i ≤ j ∧ j < i) := by omega
      simp [this]

theorem assign_fill_loop_overflow (value : α) (bound : Nat) :
    ∀ (fuel : Nat) (d : List α) (i : Nat), i ≤ d.length → d.length < bound →
      assign_fill_loop value bound d i fuel = none := by
  intro fuel
  induction fuel with
  | zero => intro d i _ _; rfl
  | succ fuel ih =>
    intro d i h1 h2
    have hi : i < bound := by omega
    by_cases hl : i < d.length
    · simp only [assign_fill_loop, if_pos hi, store_eq_some _ _ _ hl]
      exact ih (d.set i value) (i + 1) (by simp; omega) (by simpa using h2)
    · have hs : store d i value = none := by
        simp [store, hl]
      simp [assign_fill_loop, hi, hs]

theorem assign_fill_within [Inhabited α] (safe : Bool) (N : Nat) (a : plain_array α)
    (count : Nat) (value : α) (hwf : WF safe N a) (hc : count ≤ N) :
    ∃ a1, assign_fill N a count value = some a1 ∧ WF safe N a1 ∧ a1.size = count ∧
      elements a1 = List.replicate count value ∧
      ∀ j, count ≤ j → a1.data[j]? = a.data[j]? := by
  have hN := le_slots safe N
  obtain ⟨hlen, hsz⟩ := hwf
  have hmx : (if count ≥ N then N else count) = count := by
    split_ifs <;> omega
  obtain ⟨d1, e1, l1, g1⟩ := assign_fill_loop_spec value count (loop_fuel a.data) a.data 0
    (Nat.zero_le _) (by omega) (by simp [loop_fuel]; omega)
  have e2 : assign_fill_loop (default : α) count d1 count (loop_fuel a.data) = some (d1, count) := by
    simp [loop_fuel, assign_fill_loop]
  refine ⟨{ a with data := d1, size := count }, ?_, ⟨by simpa [hlen] using l1, hc⟩, rfl, ?_, ?_⟩
  · simp only [assign_fill, hmx, e1, e2]
  · apply List.ext_getElem?
    intro j
    simp only [elements, List.getElem?_take, List.getElem?_replicate, g1 j]
    split_ifs <;> first | rfl | omega
  · intro j hj
    show d1[j]? = a.data[j]?
    rw [g1 j]
    rw [if_neg (by omega)]

theorem assign_fill_overflow [Inhabited α] (N : Nat) (a : plain_array α)
    (count : Nat) (value : α) (hwf : WF false N a) (hc : N < count) :
    assign_fill N a count value = none := by
  obtain ⟨hlen, hsz⟩ := hwf
  have hlen2 : a.data.length = N := by simpa [slots] using hlen
  have hmx : (if count ≥ N then N else count) = N := by
    split_ifs <;> omega
  obtain ⟨d1, e1, l1, g1⟩ := assign_fill_loop_spec value N (loop_fuel a.data) a.data 0
    (Nat.zero_le _) (by omega) (by simp [loop_fuel]; omega)
  have e2 := assign_fill_loop_overflow (default : α) count (loop_fuel a.data) d1 N
    (by omega) (by omega)
  simp only [assign_fill, hmx, e1, e2]

theorem move_assign_keeps_target [Inhabited α] (safe : Bool) (N : Nat) (a other a1 o1 : plain_array α)
    (h : move_assign safe N a other = some (a1, o1)) : a1 = a ∧ o1 = other := by
  simp only [move_assign, move_construct] at h
  split at h
  · cases h
  · rename_i t o2 heq
    split at heq
    · split at heq
      · cases heq
      · simp only [Option.some.injEq, Prod.mk.injEq] at heq h
        exact ⟨h.1.symm, by rw [← h.2, ← heq.2]⟩
    · cases heq

theorem emplace_or_push_calls_take [Inhabited α] (safe : Bool) (N : Nat) :
    ∀ (ops : List (Op α)) (a : plain_array α) (k : Nat),
      emplace_or_push_calls safe N a ops = true →
      emplace_or_push_calls safe N a (ops.take k) = true := by
  intro ops
  induction ops with
  | nil =>
    intro a k _
    simp [emplace_or_push_calls]
  | cons op ops ih =>
    intro a k h
    cases k with
    | zero => simp [emplace_or_push_calls]
    | succ k =>
      simp only [emplace_or_push_calls, Bool.and_eq_true, List.take_succ_cons] at h ⊢
      refine ⟨h.1, ?_⟩
      cases hs : step safe N a op with
      | none => simp
      | some a1 =>
        have := h.2
        simp only [hs] at this ⊢
        exact ih a1 k this

theorem step_within [Inhabited α] (safe : Bool) (N : Nat) (a : plain_array α) (op : Op α)
    (hwf : WF safe N a)
    (hc : (match op with
      | .unchecked_emplace_back _ => true
      | _ => checked_call a op) = true)
    (hu : ∀ v, op = .unchecked_emplace_back v → a.size < N) :
    ∃ a1, step safe N a op = some a1 ∧ WF safe N a1 := by
  cases op with
  | unchecked_emplace_back v =>
    have hs : a.size < N := hu v rfl
    obtain ⟨a1, e, w, _⟩ := unchecked_emplace_back_spec safe N a v hwf hs
    exact ⟨a1, by simp [step, e], w⟩
  | _ => exact step_checked safe N a _ hwf hc

theorem run_within [Inhabited α] (safe : Bool) (N : Nat) :
    ∀ (ops : List (Op α)) (a : plain_array α), WF safe N a →
      unchecked_within safe N a ops = true → emplace_or_push_calls safe N a ops = true →
      ∃ a1, run safe N a ops = some a1 ∧ WF safe N a1 := by
  intro ops
  induction ops with
  | nil => intro a hwf _ _; exact ⟨a, rfl, hwf⟩
  | cons op ops ih =>
    intro a hwf hu hc
    simp only [unchecked_within, Bool.and_eq_true] at hu
    simp only [emplace_or_push_calls, Bool.and_eq_true] at hc
    have hop : ∀ v, op = .unchecked_emplace_back v → a.size < N := by
      intro v hv
      subst hv
      simpa using hu.1
    obtain ⟨a1, h1, w1⟩ := step_within safe N a op hwf hc.1 hop
    have hu2 := hu.2
    have hc2 := hc.2
    simp only [h1] at hu2 hc2
    obtain ⟨a2, h2, w2⟩ := ih a1 w1 hu2 hc2
    exact ⟨a2, by simp [run, h1, h2], w2⟩

end plain_array
end containers

namespace stable_stack

variable {α : Type}

theorem div_lt_blocks (N i len : Nat) (h : i < N * len) : i / N < len := by
  have hN : 0 < N := by
    rcases Nat.eq_zero_or_pos N with h0 | h0
    · subst h0; simp at h
    · exact h0
  exact (Nat.div_lt_iff_lt_mul hN).mpr (by rw [Nat.mul_comm] at h; exact h)

theorem mem_of_slot {β : Type} (l : List β) (i : Nat) (b : β) (h : l[i]? = some b) : b ∈ l := by
  obtain ⟨hi, hb⟩ := List.getElem?_eq_some.mp h
  rw [← hb]
  exact List.getElem_mem hi

theorem address_eq (N : Nat) (s : stable_stack α) (i : Nat) (hN : N ≠ 0) :
    address N s i = ((block_addresses s)[i / N]?).map fun a => (a, i % N) := by
  unfold address block_addresses
  rw [if_neg hN, List.getElem?_map]
  cases hb : s.data[i / N]? with
  | none => simp [hb]
  | some b =>
    obtain ⟨addr, block⟩ := b
    simp [hb]

theorem emplace_back_stable [Inhabited α] (N : Nat) (hN : 0 < N) (s : stable_stack α) (v : α)
    (hv : Valid N s) :
    ∃ s1, emplace_back N s v = some (s1, (s.size / N, s.size % N)) ∧ Valid N s1 ∧
      s1.size = s.size + 1 ∧ s.capacity ≤ s1.capacity ∧
      (∃ extra, block_addresses s1 = block_addresses s ++ extra) ∧
      ∀ j, j < s.capacity → j ≠ s.size → get N s1 j = get N s j := by
  obtain ⟨hcap, hsz, hblk⟩ := hv
  have hN0 : N ≠ 0 := by omega
  have hr : s.size % N < N := Nat.mod_lt _ hN
  by_cases hfull : s.size = s.capacity
  · -- a new block is appended and written
    have hd : s.size / N = s.data.length := by
      rw [hfull, hcap, Nat.mul_comm, Nat.mul_div_cancel _ hN]
    have hlen : s.size % N < (List.replicate N (default : α)).length := by simpa using hr
    have h1 : (s.data ++ [(s.allocated + 1, List.replicate N (default : α))])[s.data.length]? =
        some (s.allocated + 1, List.replicate N default) := by simp
    refine ⟨{ data := s.data ++ [(s.allocated + 1, (List.replicate N default).set (s.size % N) v)],
              size := s.size + 1, capacity := s.capacity + N,
              allocated := s.allocated + 1 }, ?_, ⟨?_, ?_, ?_⟩, rfl, ?_, ⟨[s.allocated + 1], ?_⟩, ?_⟩
    · simp only [emplace_back, if_neg hN0, if_pos hfull, hd, h1]
      rw [containers.store_eq_some _ _ _ hlen]
      simp [hfull]
    · show s.capacity + N = N * (s.data ++ [_]).length
      rw [List.length_append, hcap]
      simp [Nat.mul_add]
    · show s.size + 1 ≤ s.capacity + N
      omega
    · intro b hb
      rcases List.mem_append.mp hb with h | h
      · exact hblk b h
      · simp at h
        subst h
        simp
    · show s.capacity ≤ s.capacity + N
      omega
    · simp [block_addresses]
    · intro j hj _
      have hjd : j / N < s.data.length := div_lt_blocks N j _ (by rw [← hcap]; exact hj)
      simp only [get, if_neg hN0]
      rw [List.getElem?_append_left hjd]
  · -- the slot lies in an existing block
    have hlt : s.size < N * s.data.length := by omega
    have hd : s.size / N < s.data.length := div_lt_blocks N s.size _ hlt
    cases hb : s.data[s.size / N]? with
    | none =>
      have := List.getElem?_eq_none_iff.mp hb
      omega
    | some b =>
      obtain ⟨addr, block⟩ := b
      have hbl : block.length = N := hblk _ (mem_of_slot _ _ _ hb)
      have hlen : s.size % N < block.length := by omega
      refine ⟨{ s with data := s.data.set (s.size / N) (addr, block.set (s.size % N) v),
                       size := s.size + 1 },
        ?_, ⟨?_, ?_, ?_⟩, rfl, Nat.le_refl _, ⟨[], ?_⟩, ?_⟩
      · simp only [emplace_back, if_neg hN0, if_neg hfull, hb]
        rw [containers.store_eq_some _ _ _ hlen]
      · show s.capacity = N * (s.data.set _ _).length
        rw [List.length_set]
        exact hcap
      · show s.size + 1 ≤ s.capacity
        omega
      · intro b hb2
        rcases List.mem_or_eq_of_mem_set hb2 with h | h
        · exact hblk b h
        · subst h
          simp [hbl]
      · simp only [block_addresses, List.append_nil]
        apply List.ext_getElem?
        intro k
        simp only [List.getElem?_map, List.getElem?_set]
        by_cases hk : s.size / N = k
        · subst hk
          simp [hd, hb]
        · simp [hk]
      · intro j _ hjne
        simp only [get, if_neg hN0, List.getElem?_set]
        by_cases hk : s.size / N = j / N
        · have hmod : s.size % N ≠ j % N := by
            intro hm
            apply hjne
            rw [← Nat.div_add_mod j N, ← Nat.div_add_mod s.size N, hk, hm]
          rw [if_pos hk, if_pos hd, ← hk, hb]
          simp only [List.getElem?_set, if_neg hmod]
        · rw [if_neg hk]

theorem step_spec [Inhabited α] (N : Nat) (hN : 0 < N) (s : stable_stack α) (op : Op α)
    (hv : Valid N s) :
    ∃ s1, step N s op = some s1 ∧ Valid N s1 ∧ s.capacity ≤ s1.capacity ∧
      (∃ extra, block_addresses s1 = block_addresses s ++ extra) ∧
      ∀ j, j < s.capacity → ¬ (op.is_push = true ∧ s.size = j) → get N s1 j = get N s j := by
  have hpop : Valid N (pop_back s) := by
    obtain ⟨h1, h2, h3⟩ := hv
    refine ⟨h1, ?_, h3⟩
    show s.size - _ ≤ s.capacity
    omega
  cases op with
  | push v =>
    obtain ⟨s1, e, w, _, c, a, g⟩ := emplace_back_stable N hN s v hv
    refine ⟨s1, by simp [step, push, e], w, c, a, ?_⟩
    intro j hj hne
    exact g j hj (fun h => hne ⟨rfl, h.symm⟩)
  | push_back v =>
    obtain ⟨s1, e, w, _, c, a, g⟩ := emplace_back_stable N hN s v hv
    refine ⟨s1, by simp [step, push_back, e], w, c, a, ?_⟩
    intro j hj hne
    exact g j hj (fun h => hne ⟨rfl, h.symm⟩)
  | emplace_back v =>
    obtain ⟨s1, e, w, _, c, a, g⟩ := emplace_back_stable N hN s v hv
    refine ⟨s1, by simp [step, e], w, c, a, ?_⟩
    intro j hj hne
    exact g j hj (fun h => hne ⟨rfl, h.symm⟩)
  | pop =>
    exact ⟨pop_back s, rfl, hpop, Nat.le_refl _, ⟨[], by simp [block_addresses, pop_back]⟩,
      fun j _ _ => rfl⟩
  | pop_back =>
    exact ⟨pop_back s, rfl, hpop, Nat.le_refl _, ⟨[], by simp [block_addresses, pop_back]⟩,
      fun j _ _ => rfl⟩

theorem address_of_extended (N : Nat) (hN : 0 < N) (s s1 : stable_stack α) (extra : List Nat)
    (hv : Valid N s) (h : block_addresses s1 = block_addresses s ++ extra) (j : Nat)
    (hj : j < s.capacity) : address N s1 j = address N s j := by
  have hN0 : N ≠ 0 := by omega
  have hd : j / N < (block_addresses s).length := by
    simp only [block_addresses, List.length_map]
    exact div_lt_blocks N j _ (by rw [← hv.1]; exact hj)
  rw [address_eq N s1 j hN0, address_eq N s j hN0, h, List.getElem?_append_left hd]

theorem run_spec [Inhabited α] (N : Nat) (hN : 0 < N) :
    ∀ (ops : List (Op α)) (s : stable_stack α), Valid N s →
      ∃ s1, run N s ops = some s1 ∧ Valid N s1 ∧ s.capacity ≤ s1.capacity ∧
        (∃ extra, block_addresses s1 = block_addresses s ++ extra) ∧
        ∀ j, j < s.capacity →
          address N s1 j = address N s j ∧
          (writes_index N j s ops = false → get N s1 j = get N s j) := by
  intro ops
  induction ops with
  | nil =>
    intro s hv
    exact ⟨s, rfl, hv, Nat.le_refl _, ⟨[], by simp⟩, fun j _ => ⟨rfl, fun _ => rfl⟩⟩
  | cons op ops ih =>
    intro s hv
    obtain ⟨s1, e1, w1, c1, ⟨x1, a1⟩, g1⟩ := step_spec N hN s op hv
    obtain ⟨s2, e2, w2, c2, ⟨x2, a2⟩, g2⟩ := ih s1 w1
    refine ⟨s2, by simp [run, e1, e2], w2, by omega, ⟨x1 ++ x2, by rw [a2, a1, List.append_assoc]⟩,
      ?_⟩
    intro j hj
    have hj1 : j < s1.capacity := by omega
    obtain ⟨ad, gt⟩ := g2 j hj1
    refine ⟨by rw [ad]; exact address_of_extended N hN s s1 x1 hv a1 j hj, ?_⟩
    intro hw
    simp only [writes_index, e1, Bool.or_eq_false_iff, Bool.and_eq_false_iff] at hw
    rw [gt hw.2]
    apply g1 j hj
    intro hc
    rcases hw.1 with h | h
    · rw [hc.1] at h
      exact Bool.noConfusion h
    · simp [hc.2] at h

theorem slot_exists (N : Nat) (hN : 0 < N) (s : stable_stack α) (hv : Valid N s) (j : Nat)
    (hj : j < s.capacity) :
    (∃ a, address N s j = some (a, j % N)) ∧ ∃ x, get N s j = some x := by
  have hN0 : N ≠ 0 := by omega
  have hd : j / N < s.data.length := div_lt_blocks N j _ (by rw [← hv.1]; exact hj)
  cases hb : s.data[j / N]? with
  | none =>
    have := List.getElem?_eq_none_iff.mp hb
    omega
  | some b =>
    obtain ⟨addr, block⟩ := b
    have hbl : block.length = N := hv.2.2 _ (mem_of_slot _ _ _ hb)
    have hr : j % N < block.length := by rw [hbl]; exact Nat.mod_lt _ hN
    refine ⟨⟨addr, by simp [address, hN0, hb]⟩, ⟨block[j % N], ?_⟩⟩
    simp [get, hN0, hb, List.getElem?_eq_getElem hr]

theorem emplace_back_writes [Inhabited α] (N : Nat) (hN : 0 < N) (s : stable_stack α) (v : α)
    (hv : Valid N s) (s1 : stable_stack α) (p : Nat × Nat)
    (h : emplace_back N s v = some (s1, p)) : get N s1 s.size = some v := by
  obtain ⟨hcap, hsz, hblk⟩ := hv
  have hN0 : N ≠ 0 := by omega
  have hr : s.size % N < N := Nat.mod_lt _ hN
  by_cases hfull : s.size = s.capacity
  · have hd : s.size / N = s.data.length := by
      rw [hfull, hcap, Nat.mul_comm, Nat.mul_div_cancel _ hN]
    have hlen : s.size % N < (List.replicate N (default : α)).length := by simpa using hr
    have h1 : (s.data ++ [(s.allocated + 1, List.replicate N (default : α))])[s.data.length]? =
        some (s.allocated + 1, List.replicate N default) := by simp
    simp only [emplace_back, if_neg hN0, if_pos hfull, hd, h1] at h
    rw [containers.store_eq_some _ _ _ hlen] at h
    simp only [Option.some.injEq, Prod.mk.injEq] at h
    rw [← h.1]
    simp only [get, if_neg hN0, hd]
    simp [hr]
  · have hlt : s.size < N * s.data.length := by omega
    have hd : s.size / N < s.data.length := div_lt_blocks N s.size _ hlt
    cases hb : s.data[s.size / N]? with
    | none =>
      have := List.getElem?_eq_none_iff.mp hb
      omega
    | some b =>
      obtain ⟨addr, block⟩ := b
      have hbl : block.length = N := hblk _ (mem_of_slot _ _ _ hb)
      have hlen : s.size % N < block.length := by omega
      simp only [emplace_back, if_neg hN0, if_neg hfull, hb] at h
      rw [containers.store_eq_some _ _ _ hlen] at h
      simp only [Option.some.injEq, Prod.mk.injEq] at h
      rw [← h.1]
      simp only [get, if_neg hN0]
      simp [hd, hlen]

theorem emplace_back_grows [Inhabited α] (N : Nat) (hN : 0 < N) (s : stable_stack α) (v : α)
    (hv : Valid N s) (s1 : stable_stack α) (p : Nat × Nat)
    (h : emplace_back N s v = some (s1, p)) :
    p = (s.size / N, s.size % N) ∧
    s1.capacity = s.capacity + (if s.size = s.capacity then N else 0) ∧
    s1.data.length = s.data.length + (if s.size = s.capacity then 1 else 0) ∧
    block_addresses s1 =
      block_addresses s ++ (if s.size = s.capacity then [s.allocated + 1] else []) := by
  obtain ⟨hcap, hsz, hblk⟩ := hv
  have hN0 : N ≠ 0 := by omega
  have hr : s.size % N < N := Nat.mod_lt _ hN
  by_cases hfull : s.size = s.capacity
  · have hd : s.size / N = s.data.length := by
      rw [hfull, hcap, Nat.mul_comm, Nat.mul_div_cancel _ hN]
    have hlen : s.size % N < (List.replicate N (default : α)).length := by simpa using hr
    have h1 : (s.data ++ [(s.allocated + 1, List.replicate N (default : α))])[s.data.length]? =
        some (s.allocated + 1, List.replicate N default) := by simp
    simp only [emplace_back, if_neg hN0, if_pos hfull, hd, h1] at h
    rw [containers.store_eq_some _ _ _ hlen] at h
    simp only [Option.some.injEq, Prod.mk.injEq] at h
    rw [← h.1, ← h.2]
    have hd2 : s.data.length = s.capacity / N := by rw [← hfull]; exact hd.symm
    simp [block_addresses, hfull, hd2]
  · have hlt : s.size < N * s.data.length := by omega
    have hd : s.size / N < s.data.length := div_lt_blocks N s.size _ hlt
    cases hb : s.data[s.size / N]? with
    | none =>
      have := List.getElem?_eq_none_iff.mp hb
      omega
    | some b =>
      obtain ⟨addr, block⟩ := b
      have hbl : block.length = N := hblk _ (mem_of_slot _ _ _ hb)
      have hlen : s.size % N < block.length := by omega
      simp only [emplace_back, if_neg hN0, if_neg hfull, hb] at h
      rw [containers.store_eq_some _ _ _ hlen] at h
      simp only [Option.some.injEq, Prod.mk.injEq] at h
      rw [← h.1, ← h.2]
      simp only [block_addresses, if_neg hfull, List.length_set, List.append_nil, Nat.add_zero,
        true_and]
      apply List.ext_getElem?
      intro i
      simp only [List.getElem?_map, List.getElem?_set]
      split_ifs with h2
      · subst h2; simp [hb]
      · rfl

theorem reserve_keeps_state (N : Nat) (hN : 0 < N) (s : stable_stack α) (n : Nat) :
    reserve N s n = some s := by
  simp [reserve]; omega

theorem call_step_spec [Inhabited α] (N : Nat) (hN : 0 < N) (s : stable_stack α) (c : Call α)
    (hv : Valid N s) : ∃ s1, call_step N s c = some s1 ∧ Valid N s1 := by
  cases c with
  | op o =>
    obtain ⟨s1, h1, hv1, _⟩ := step_spec N hN s o hv
    exact ⟨s1, h1, hv1⟩
  | reserve n => exact ⟨s, reserve_keeps_state N hN s n, hv⟩

theorem call_run_spec [Inhabited α] (N : Nat) (hN : 0 < N) :
    ∀ (cs : List (Call α)) (s : stable_stack α), Valid N s →
      ∃ s1, call_run N s cs = some s1 ∧ Valid N s1 := by
  intro cs
  induction cs with
  | nil => intro s hv; exact ⟨s, rfl, hv⟩
  | cons c cs ih =>
    intro s hv
    obtain ⟨s1, h1, hv1⟩ := call_step_spec N hN s c hv
    obtain ⟨s2, h2, hv2⟩ := ih s1 hv1
    exact ⟨s2, by simp [call_run, h1, h2], hv2⟩

theorem empty_Valid (N : Nat) : Valid N (empty : stable_stack α) := by
  simp [Valid, empty]

end stable_stack

namespace real
namespace vector

open containers (SIZE_T_MOD loop_fuel store store_eq_some slot_congr const_reference)

variable {α : Type}

theorem uninitialized_copy_spec {β : Type} (src : List β) (last : Nat) :
    ∀ (fuel first : Nat) (dst : List β) (d_first : Nat), first ≤ last → last ≤ src.length →
      d_first + (last - first) ≤ dst.length → last - first < fuel →
      ∃ dst1, uninitialized_copy src first last dst d_first fuel = some dst1 ∧
        dst1.length = dst.length ∧
        ∀ j, dst1[j]? = if d_first ≤ j ∧ j < d_first + (last - first)
                        then src[first + (j - d_first)]? else dst[j]? := by
  intro fuel
  induction fuel with
  | zero => intro first dst d_first _ _ _ h; omega
  | succ fuel ih =>
    intro first dst d_first h1 h2 h3 h4
    by_cases hfl : first = last
    · refine ⟨dst, by simp [uninitialized_copy, hfl], rfl, ?_⟩
      intro j
      have : ¬ (d_first ≤ j ∧ j < d_first + (last - first)) := by omega
      rw [if_neg this]
    · have hlt : first < src.length := by omega
      have hdl : d_first < dst.length := by omega
      have hx : src[first]? = some src[first] := List.getElem?_eq_getElem hlt
      have p3 : d_first + 1 + (last - (first + 1)) ≤ (dst.set d_first src[first]).length := by
        simp only [List.length_set]
        omega
      obtain ⟨d1, hd1, hlen, hget⟩ := ih (first + 1) (dst.set d_first src[first]) (d_first + 1)
        (by omega) h2 p3 (by omega)
      refine ⟨d1, ?_, by simpa using hlen, ?_⟩
      · simp [uninitialized_copy, hfl, hx, store_eq_some _ _ _ hdl, hd1]
      · intro j
        rw [hget j]
        by_cases hj : d_first = j
        · subst hj
          have c1 : ¬ (d_first + 1 ≤ d_first ∧ d_first < d_first + 1 + (last - (first + 1))) := by
            omega
          have c2 : d_first ≤ d_first ∧ d_first < d_first + (last - first) := by omega
          rw [if_neg c1, if_pos c2, List.getElem?_set, if_pos rfl, if_pos hdl, ← hx]
          exact slot_congr src (by omega)
        · by_cases hr : d_first + 1 ≤ j ∧ j < d_first + 1 + (last - (first + 1))
          · have c2 : d_first ≤ j ∧ j < d_first + (last - first) := by omega
            rw [if_pos hr, if_pos c2]
            exact slot_congr src (by omega)
          · have c2 : ¬ (d_first ≤ j ∧ j < d_first + (last - first)) := by omega
            rw [if_neg hr, if_neg c2, List.getElem?_set, if_neg hj]

theorem move_down_eq_copy {β : Type} :
    ∀ (fuel : Nat) (m : List β) (first last dest : Nat),
      move_down m first last dest fuel = (containers.copy m first last dest fuel).map Prod.fst := by
  intro fuel
  induction fuel with
  | zero => intro m first last dest; rfl
  | succ fuel ih =>
    intro m first last dest
    unfold move_down containers.copy
    by_cases hfl : first = last
    · simp [hfl]
    · simp only [if_neg hfl]
      cases m[first]? with
      | none => rfl
      | some x =>
        simp only []
        cases store m dest x with
        | none => rfl
        | some m1 => exact ih m1 (first + 1) last (dest + 1)

theorem move_down_spec {β : Type} (m : List β) (first last dest : Nat)
    (h0 : dest ≤ first) (h1 : first ≤ last) (h2 : last ≤ m.length) :
    ∃ m1, move_down m first last dest (loop_fuel m) = some m1 ∧ m1.length = m.length ∧
      ∀ j, m1[j]? = if dest ≤ j ∧ j < dest + (last - first) then m[j + (first - dest)]?
                    else m[j]? := by
  obtain ⟨m1, e, l, g⟩ := containers.copy_spec last (loop_fuel m) m first dest h0 h1 h2
    (by unfold loop_fuel; omega)
  exact ⟨m1, by rw [move_down_eq_copy, e]; rfl, l, g⟩

theorem live_get (v : vector α) (j : Nat) :
    (live v)[j]? = if j < v.size then v.mem[j]? else none := by
  simp [live, List.getElem?_take]

theorem live_length (v : vector α) (h : Valid v) : (live v).length = v.size := by
  obtain ⟨h1, h2, _⟩ := h
  simp only [live, List.length_take]
  omega

theorem grow_twice (size capacity : Nat) (h : capacity ≤ PTRDIFF_MAX) :
    geometric_int_expansion_policy.grow_capacity 2 size capacity ((capacity + 1) % SIZE_T_MOD) =
      2 * max capacity 1 := by
  unfold geometric_int_expansion_policy.grow_capacity
  unfold PTRDIFF_MAX at h
  unfold SIZE_T_MOD
  have h63 : (2 : Nat) ^ 64 = 2 * 2 ^ 63 := by norm_num
  have hp : (0 : Nat) < 2 ^ 63 := by positivity
  by_cases hc : capacity = 0
  · subst hc
    norm_num
  · have hm : max capacity 1 = capacity := by omega
    have e1 : (capacity + 1) % 2 ^ 64 = capacity + 1 := Nat.mod_eq_of_lt (by omega)
    have e2 : (capacity * 2) % 2 ^ 64 = capacity * 2 := Nat.mod_eq_of_lt (by omega)
    simp only [ne_eq, hc, not_false_eq_true, if_true, e1, e2, hm]
    rw [if_neg (by omega)]
    omega

theorem reserve_spec (t : Traits) (v : vector α) (n : Nat) (hv : Valid v)
    (h1 : v.capacity < n) (h2 : n ≤ max_size t) :
    ∃ v1, reserve t v n = .ok v1 ∧ v1.capacity = n ∧ v1.size = v.size ∧ live v1 = live v ∧
      v1.mem.length = n ∧ allocations v1 = allocations v + 1 ∧ v1.begin_ ≠ none := by
  obtain ⟨hcap, hsz, hpd, hnull, hlive⟩ := hv
  have p3 : 0 + (v.size - 0) ≤ (List.replicate n (none : Option α)).length := by
    simp only [List.length_replicate]
    omega
  obtain ⟨m1, e, l, g⟩ := uninitialized_copy_spec v.mem v.size (loop_fuel v.mem) 0
    (List.replicate n none) 0 (Nat.zero_le _) (by omega) p3 (by unfold loop_fuel; omega)
  have hmax : ¬ n > max_size t := by omega
  refine ⟨{ begin_ := some (fresh_ptr v), mem := m1, size := v.size, capacity := n,
            heap := match v.begin_ with
              | some old_begin =>
                v.heap ++ [.allocate (fresh_ptr v) n] ++ [.deallocate old_begin v.capacity]
              | none => v.heap ++ [.allocate (fresh_ptr v) n] }, ?_, ?_, ?_, ?_, ?_, ?_, ?_⟩
  · simp only [reserve, if_pos h1, if_neg hmax, e]
  · rfl
  · rfl
  · apply List.ext_getElem?
    intro j
    simp only [live_get, g]
    split_ifs <;> first
      | rfl
      | omega
      | exact slot_congr _ (by omega)
  · show m1.length = n
    rw [l]
    simp
  · simp only [allocations]
    cases v.begin_ with
    | none => simp [List.filter_append]
    | some p => simp [List.filter_append]
  · simp

theorem reserve_noop (t : Traits) (v : vector α) (n : Nat) (h : n ≤ v.capacity) :
    reserve t v n = .ok v := by
  have : ¬ v.capacity < n := by omega
  simp [reserve, this]

theorem reserve_too_long (t : Traits) (v : vector α) (n : Nat) (h1 : v.capacity < n)
    (h2 : max_size t < n) : reserve t v n = .error .length_error := by
  simp [reserve, h1, h2]

theorem live_push (v v1 : vector α) (x : α) (hs : v.size < v.mem.length)
    (h1 : v1.size = v.size + 1) (h2 : v1.mem = v.mem.set v.size (some x)) :
    live v1 = live v ++ [some x] := by
  have hl : (live v).length = v.size := by
    simp only [live, List.length_take]
    omega
  apply List.ext_getElem?
  intro j
  simp only [List.getElem?_append, List.getElem?_cons, List.getElem?_nil, live_get, hl, h1, h2,
    List.getElem?_set]
  split_ifs <;> first
    | rfl
    | omega

theorem emplace_back_spare (t : Traits) (v : vector α) (x : α) (hv : Valid v)
    (hs : v.size < v.capacity) :
    ∃ v1, emplace_back t v (.outside x) = .ok (v1, v.size) ∧ v1.size = v.size + 1 ∧
      v1.capacity = v.capacity ∧ live v1 = live v ++ [some x] ∧
      allocations v1 = allocations v := by
  obtain ⟨hcap, hsz, _⟩ := hv
  have hlt : v.size < v.mem.length := by omega
  have hnf : full v = false := by simp [full, hs]
  refine ⟨{ v with mem := v.mem.set v.size (some x), size := v.size + 1 }, ?_, rfl, rfl, ?_, rfl⟩
  · simp [emplace_back, load_after, hnf, store_eq_some _ _ _ hlt]
  · exact live_push v _ x hlt rfl rfl

theorem emplace_back_grow (t : Traits) (v : vector α) (x : α) (hv : Valid v)
    (hs : v.size = v.capacity) (hmax : 2 * max v.capacity 1 ≤ max_size t) :
    ∃ v1, emplace_back t v (.outside x) = .ok (v1, v.size) ∧ v1.size = v.size + 1 ∧
      v1.capacity = 2 * max v.capacity 1 ∧ live v1 = live v ++ [some x] ∧
      allocations v1 = allocations v + 1 := by
  have hpd := hv.2.2.1
  have hf : full v = true := by simp [full, hs]
  obtain ⟨v1, e, c1, s1, l1, m1, a1, _⟩ := reserve_spec t v (2 * max v.capacity 1) hv
    (by omega) hmax
  have hlt : v1.size < v1.mem.length := by omega
  refine ⟨{ v1 with mem := v1.mem.set v1.size (some x), size := v1.size + 1 }, ?_, ?_, c1, ?_, a1⟩
  · simp only [emplace_back, load_after, hf, if_true, grow_twice v.size v.capacity hpd, e,
      store_eq_some _ _ _ hlt]
    rw [s1]
  · show v1.size + 1 = _
    omega
  · rw [live_push v1 _ x hlt rfl rfl, l1]

theorem emplace_back_throws (t : Traits) (v : vector α) (x : α) (hv : Valid v)
    (hs : v.size = v.capacity) (hmax : max_size t < 2 * max v.capacity 1) :
    emplace_back t v (.outside x) = .error .length_error := by
  have hpd := hv.2.2.1
  have hf : full v = true := by simp [full, hs]
  simp only [emplace_back, load_after, hf, if_true, grow_twice v.size v.capacity hpd,
    reserve_too_long t v (2 * max v.capacity 1) (by omega) hmax]

theorem emplace_realloc (t : Traits) (v : vector α) (i : Nat) (r : const_reference α)
    (x : α) (hr : load v.mem r = some x) (hv : Valid v)
    (hs : v.size = v.capacity) (hc : 1 ≤ v.capacity) (hi : i < v.size) :
    ∃ v1, emplace t v i r = .ok (v1, i) ∧ v1.size = v.size + 1 ∧
      v1.capacity = 2 * v.capacity ∧
      live v1 = (live v).take i ++ [some x] ++ (live v).drop i ∧
      allocations v1 = allocations v + 1 ∧ v1.begin_ = some (fresh_ptr v) := by
  have hl := live_length v hv
  obtain ⟨hcap, hsz, hpd, hnull, hlive⟩ := hv
  have hg := grow_twice v.size v.capacity hpd
  have hm : max v.capacity 1 = v.capacity := by omega
  rw [hm] at hg
  have h0 : i < (List.replicate (2 * v.capacity) (none : Option α)).length := by
    simp only [List.length_replicate]
    omega
  have p3 : 0 + (i - 0) ≤ ((List.replicate (2 * v.capacity) (none : Option α)).set i
      (some x)).length := by
    simp only [List.length_set, List.length_replicate]
    omega
  obtain ⟨m2, e2, l2, g2⟩ := uninitialized_copy_spec v.mem i (loop_fuel v.mem) 0
    ((List.replicate (2 * v.capacity) none).set i (some x)) 0 (Nat.zero_le _) (by omega) p3
    (by unfold loop_fuel; omega)
  have p4 : i + 1 + (v.size - i) ≤ m2.length := by
    rw [l2]
    simp only [List.length_set, List.length_replicate]
    omega
  obtain ⟨m3, e3, l3, g3⟩ := uninitialized_copy_spec v.mem v.size (loop_fuel v.mem) i
    m2 (i + 1) (by omega) (by omega) p4 (by unfold loop_fuel; omega)
  have hns : ¬ v.size < v.capacity := by omega
  have hne : ¬ i = v.size := by omega
  refine ⟨{ begin_ := some (fresh_ptr v), mem := m3, size := v.size + 1,
            capacity := 2 * v.capacity,
            heap := match v.begin_ with
              | some old_begin =>
                v.heap ++ [.allocate (fresh_ptr v) (2 * v.capacity)] ++
                  [.deallocate old_begin v.capacity]
              | none => v.heap ++ [.allocate (fresh_ptr v) (2 * v.capacity)] },
    ?_, rfl, rfl, ?_, ?_, ?_⟩
  · simp only [emplace, hr, if_neg hns, if_neg hne, hg, store_eq_some _ _ _ h0, e2, e3]
  · apply List.ext_getElem?
    intro j
    simp only [List.getElem?_append, List.length_append, List.length_take, List.length_cons,
      List.length_nil, List.getElem?_take, List.getElem?_drop, List.getElem?_cons,
      List.getElem?_nil, live_get, hl, g3, g2, List.getElem?_set, List.getElem?_replicate,
      List.length_replicate]
    split_ifs <;> first
      | rfl
      | omega
      | exact slot_congr _ (by omega)
  · simp only [allocations]
    cases v.begin_ with
    | none => simp [List.filter_append]
    | some p => simp [List.filter_append]
  · rfl

theorem erase_range_removes (v : vector α) (f l : Nat) (hcap : v.capacity = v.mem.length)
    (hsz : v.size ≤ v.capacity) (hfl : f < l) (hl : l ≤ v.size) :
    ∃ v1, erase_range v f l = .ok (v1, f) ∧ v1.size = v.size - (l - f) ∧
      v1.capacity = v.capacity ∧ v1.begin_ = v.begin_ ∧ v1.heap = v.heap ∧
      live v1 = (live v).take f ++ (live v).drop l := by
  have hne : f ≠ l := by omega
  have hg : ¬ (l < f ∨ v.size < l) := by omega
  have hfc : f + (l - f) = l := by omega
  obtain ⟨m, e, ml, g⟩ := move_down_spec v.mem l v.size f (by omega) hl (by omega)
  obtain ⟨m1, e1, ml1, g1⟩ := containers.fill_spec v.size (none : Option α) (loop_fuel v.mem) m
    (v.size - (l - f)) (by omega) (by omega) (by unfold loop_fuel; omega)
  refine ⟨{ v with mem := m1, size := v.size - (l - f) }, ?_, rfl, rfl, rfl, rfl, ?_⟩
  · simp only [erase_range, ne_eq, hne, not_false_eq_true, if_true, if_neg hg, hfc, e, destroy, e1]
  · apply List.ext_getElem?
    intro j
    simp only [live_get, g1, g, List.getElem?_append, List.getElem?_take, List.getElem?_drop,
      List.length_take, live]
    have hlen : min f (min v.size v.mem.length) = f := by omega
    rw [hlen]
    split_ifs <;> first
      | rfl
      | omega
      | exact slot_congr _ (by omega)

theorem erase_eq_erase_range (v : vector α) (i : Nat) (hcap : v.capacity = v.mem.length)
    (hsz : v.size ≤ v.capacity) (hi : i < v.size) : erase v i = erase_range v i (i + 1) := by
  obtain ⟨m, e, ml, -⟩ := move_down_spec v.mem (i + 1) v.size i (by omega) (by omega) (by omega)
  have hne : i ≠ i + 1 := by omega
  have hg : ¬ (i + 1 < i ∨ v.size < i + 1) := by omega
  have hz : ¬ v.size = 0 := by omega
  have hc : i + (i + 1 - i) = i + 1 := by omega
  have hc1 : i + 1 - i = 1 := by omega
  have hst : store m (v.size - 1) (none : Option α) = some (m.set (v.size - 1) none) :=
    store_eq_some _ _ _ (by omega)
  obtain ⟨k, hk⟩ : ∃ k, loop_fuel v.mem = k + 1 + 1 := ⟨v.mem.length - 1, by unfold loop_fuel; omega⟩
  have hfill : destroy m (v.size - 1) v.size (loop_fuel v.mem) = some (m.set (v.size - 1) none) := by
    have h1 : v.size - 1 ≠ v.size := by omega
    have h2 : v.size - 1 + 1 = v.size := by omega
    rw [hk]
    simp only [destroy, containers.fill, if_neg h1, hst, h2, if_true]
  simp only [erase, erase_range, ne_eq, hne, not_false_eq_true, if_true, if_neg hg, hc, hc1, e,
    if_neg hz, hst, hfill]

theorem reserve_grows (t : Traits) (v : vector α) (n : Nat) (hcap : v.capacity = v.mem.length)
    (hsz : v.size ≤ v.capacity) (h1 : v.capacity < n) (h2 : n ≤ max_size t) :
    ∃ v1, reserve t v n = .ok v1 ∧ v1.capacity = n ∧ v1.size = v.size ∧ live v1 = live v ∧
      v1.mem.length = n ∧ allocations v1 = allocations v + 1 ∧
      v1.begin_ = some (fresh_ptr v) := by
  have p3 : 0 + (v.size - 0) ≤ (List.replicate n (none : Option α)).length := by
    simp only [List.length_replicate]
    omega
  obtain ⟨m1, e, l, g⟩ := uninitialized_copy_spec v.mem v.size (loop_fuel v.mem) 0
    (List.replicate n none) 0 (Nat.zero_le _) (by omega) p3 (by unfold loop_fuel; omega)
  have hmax : ¬ n > max_size t := by omega
  refine ⟨{ begin_ := some (fresh_ptr v), mem := m1, size := v.size, capacity := n,
            heap := match v.begin_ with
              | some old_begin =>
                v.heap ++ [.allocate (fresh_ptr v) n] ++ [.deallocate old_begin v.capacity]
              | none => v.heap ++ [.allocate (fresh_ptr v) n] }, ?_, ?_, ?_, ?_, ?_, ?_, ?_⟩
  · simp only [reserve, if_pos h1, if_neg hmax, e]
  · rfl
  · rfl
  · apply List.ext_getElem?
    intro j
    simp only [live_get, g]
    split_ifs <;> first
      | rfl
      | omega
      | exact slot_congr _ (by omega)
  · show m1.length = n
    rw [l]
    simp
  · simp only [allocations]
    cases v.begin_ with
    | none => simp [List.filter_append]
    | some p => simp [List.filter_append]
  · rfl

theorem emplace_back_cases (t : Traits) (v : vector α) (x : α)
    (hcap : v.capacity = v.mem.length) (hsz : v.size ≤ v.capacity)
    (hfull : v.size = v.capacity → v.capacity ≤ PTRDIFF_MAX) :
    (emplace_back t v (.outside x) = .error .length_error ∧ v.size = v.capacity ∧
        max_size t < 2 * max v.capacity 1) ∨
      ∃ v1, emplace_back t v (.outside x) = .ok (v1, v.size) ∧ v1.size = v.size + 1 ∧
        v1.capacity = v1.mem.length ∧ live v1 = live v ++ [some x] ∧
        ((v.size < v.capacity ∧ v1.capacity = v.capacity ∧ v1.heap = v.heap ∧
            v1.begin_ = v.begin_) ∨
          (v.size = v.capacity ∧ v1.capacity = 2 * max v.capacity 1 ∧
            v1.capacity ≤ max_size t ∧ allocations v1 = allocations v + 1)) := by
  by_cases hs : v.size < v.capacity
  · right
    have hlt : v.size < v.mem.length := by omega
    have hnf : full v = false := by simp [full, hs]
    refine ⟨{ v with mem := v.mem.set v.size (some x), size := v.size + 1 }, ?_, rfl, ?_, ?_,
      Or.inl ⟨hs, rfl, rfl, rfl⟩⟩
    · simp [emplace_back, load_after, hnf, store_eq_some _ _ _ hlt]
    · show v.capacity = (v.mem.set v.size (some x)).length
      simp [hcap]
    · exact live_push v _ x hlt rfl rfl
  · have he : v.size = v.capacity := by omega
    have hpd := hfull he
    have hf : full v = true := by simp [full, he]
    by_cases hmax : 2 * max v.capacity 1 ≤ max_size t
    · right
      obtain ⟨v1, e, c1, s1, l1, m1, a1, _⟩ := reserve_grows t v (2 * max v.capacity 1) hcap hsz
        (by omega) hmax
      have hlt : v1.size < v1.mem.length := by omega
      refine ⟨{ v1 with mem := v1.mem.set v1.size (some x), size := v1.size + 1 }, ?_, ?_, ?_, ?_,
        Or.inr ⟨he, c1, ?_, a1⟩⟩
      · simp only [emplace_back, load_after, hf, if_true, grow_twice v.size v.capacity hpd, e,
          store_eq_some _ _ _ hlt]
        rw [s1]
      · show v1.size + 1 = _
        omega
      · show v1.capacity = (v1.mem.set v1.size (some x)).length
        simp [c1, m1]
      · rw [live_push v1 _ x hlt rfl rfl, l1]
      · show v1.capacity ≤ _
        omega
    · left
      refine ⟨?_, he, by omega⟩
      simp only [emplace_back, load_after, hf, if_true, grow_twice v.size v.capacity hpd,
        reserve_too_long t v (2 * max v.capacity 1) (by omega) (by omega)]

theorem capacity_changes_cons (a b : Nat) (rest : List Nat) :
    capacity_changes (a :: b :: rest) = (if a ≠ b then 1 else 0) + capacity_changes (b :: rest) :=
  rfl

theorem capacities_doubling (t : Traits) :
    ∀ (xs : List α) (v : vector α) (k : Nat),
      v.capacity = v.mem.length → v.size ≤ v.capacity →
      ((k = 0 ∧ v.capacity = 0) ∨ (1 ≤ k ∧ v.capacity = 2 ^ k ∧ 2 ^ (k - 1) ≤ v.size)) →
      (v.size + xs.length ≤ PTRDIFF_MAX ∨
        (max_size t ≤ PTRDIFF_MAX ∧ v.capacity ≤ PTRDIFF_MAX)) →
      ∃ rest, capacities t v xs = some (v.capacity :: rest) ∧ rest.length = xs.length ∧
        non_decreasing (v.capacity :: rest) ∧
        (k + capacity_changes (v.capacity :: rest) = 0 ∨
          2 ^ (k + capacity_changes (v.capacity :: rest) - 1) ≤ v.size + xs.length) := by
  intro xs
  induction xs with
  | nil =>
    intro v k _ _ hk _
    refine ⟨[], rfl, rfl, trivial, ?_⟩
    simp only [capacity_changes, List.length_nil, Nat.add_zero]
    omega
  | cons x xs ih =>
    intro v k hcap hsz hk hb
    have hfull : v.size = v.capacity → v.capacity ≤ PTRDIFF_MAX := by
      intro he
      simp only [List.length_cons] at hb
      omega
    rcases emplace_back_cases t v x hcap hsz hfull with ⟨e, he, _⟩ | ⟨v1, e, s1, c1, _, hc⟩
    · have hb1 : v.size + xs.length ≤ PTRDIFF_MAX ∨
          (max_size t ≤ PTRDIFF_MAX ∧ v.capacity ≤ PTRDIFF_MAX) := by
        simp only [List.length_cons] at hb
        omega
      obtain ⟨rest, e1, l1, n1, b1⟩ := ih v k hcap hsz hk hb1
      refine ⟨v.capacity :: rest, ?_, by simp [l1], ⟨Nat.le_refl _, n1⟩, ?_⟩
      · simp only [capacities, push_back_caught, push_back, e, e1]
      · rw [capacity_changes_cons, if_neg (by simp), Nat.zero_add]
        simp only [List.length_cons]
        rcases b1 with b1 | b1
        · exact Or.inl b1
        · exact Or.inr (Nat.le_trans b1 (by omega))
    · have hsz1 : v1.size ≤ v1.capacity := by
        rcases hc with ⟨h, c, _⟩ | ⟨h, c, _⟩ <;> omega
      rcases hc with ⟨hlt, c, _, _⟩ | ⟨he, c, cm, _⟩
      · have hk1 : (k = 0 ∧ v1.capacity = 0) ∨
            (1 ≤ k ∧ v1.capacity = 2 ^ k ∧ 2 ^ (k - 1) ≤ v1.size) := by
          rcases hk with ⟨_, h0⟩ | ⟨h1, h2, h3⟩
          · omega
          · exact Or.inr ⟨h1, by rw [c, h2], by omega⟩
        have hb1 : v1.size + xs.length ≤ PTRDIFF_MAX ∨
            (max_size t ≤ PTRDIFF_MAX ∧ v1.capacity ≤ PTRDIFF_MAX) := by
          simp only [List.length_cons] at hb
          omega
        obtain ⟨rest, e1, l1, n1, b1⟩ := ih v1 k c1 hsz1 hk1 hb1
        rw [c] at e1 n1 b1
        refine ⟨v.capacity :: rest, ?_, by simp [l1], ⟨Nat.le_refl _, n1⟩, ?_⟩
        · simp only [capacities, push_back_caught, push_back, e, e1]
        · rw [capacity_changes_cons, if_neg (by simp), Nat.zero_add]
          simp only [List.length_cons]
          rcases b1 with b1 | b1
          · exact Or.inl b1
          · exact Or.inr (Nat.le_trans b1 (by omega))
      · have hk1 : 1 ≤ k + 1 ∧ v1.capacity = 2 ^ (k + 1) ∧ 2 ^ (k + 1 - 1) ≤ v1.size := by
          rcases hk with ⟨h0, h1⟩ | ⟨h1, h2, h3⟩
          · subst h0
            rw [c, h1, s1, he, h1]
            norm_num
          · refine ⟨by omega, ?_, ?_⟩
            · have hp : 1 ≤ 2 ^ k := Nat.one_le_two_pow
              rw [c, h2, pow_succ]
              omega
            · rw [Nat.add_sub_cancel, s1, he, h2]
              omega
        have hb1 : v1.size + xs.length ≤ PTRDIFF_MAX ∨
            (max_size t ≤ PTRDIFF_MAX ∧ v1.capacity ≤ PTRDIFF_MAX) := by
          simp only [List.length_cons] at hb
          omega
        obtain ⟨rest, e1, l1, n1, b1⟩ := ih v1 (k + 1) c1 hsz1 (Or.inr hk1) hb1
        have hne : v.capacity ≠ v1.capacity := by omega
        refine ⟨v1.capacity :: rest, ?_, by simp [l1], ⟨by omega, n1⟩, ?_⟩
        · simp only [capacities, push_back_caught, push_back, e, e1]
        · rw [capacity_changes_cons, if_pos hne]
          simp only [List.length_cons]
          have ek : k + (1 + capacity_changes (v1.capacity :: rest)) =
              k + 1 + capacity_changes (v1.capacity :: rest) := by omega
          rw [ek]
          rcases b1 with b1 | b1
          · exact Or.inl b1
          · exact Or.inr (Nat.le_trans b1 (by omega))

theorem push_backs_within_capacity (t : Traits) :
    ∀ (ys : List α) (v : vector α), v.capacity = v.mem.length →
      v.size + ys.length ≤ v.capacity →
      ∃ v1, run t v (ys.map Op.push_back) = .ok v1 ∧ v1.capacity = v.capacity ∧
        v1.heap = v.heap ∧ v1.begin_ = v.begin_ ∧ v1.size = v.size + ys.length ∧
        live v1 = live v ++ ys.map some ∧ v1.capacity = v1.mem.length := by
  intro ys
  induction ys with
  | nil =>
    intro v hcap _
    exact ⟨v, rfl, rfl, rfl, rfl, rfl, by simp, hcap⟩
  | cons y ys ih =>
    intro v hcap hfit
    simp only [List.length_cons] at hfit
    rcases emplace_back_cases t v y hcap (by omega) (by omega) with
      ⟨_, he, _⟩ | ⟨v1, e, s1, c1, l1, hc⟩
    · omega
    · rcases hc with ⟨_, c, hh, hb⟩ | ⟨he, _⟩
      · obtain ⟨v2, e2, c2, h2, b2, s2, l2, m2⟩ := ih v1 c1 (by omega)
        refine ⟨v2, ?_, by omega, by rw [h2, hh], by rw [b2, hb], ?_, ?_, m2⟩
        · simp only [List.map_cons, run, step, push_back, e, e2]
        · simp only [List.length_cons]
          omega
        · rw [l2, l1]
          simp
      · omega

theorem destroy_live (v : vector α) (hcap : v.capacity = v.mem.length)
    (hsz : v.size ≤ v.capacity) :
    ∃ m, destroy v.mem 0 v.size (loop_fuel v.mem) = some m ∧ m.length = v.mem.length := by
  obtain ⟨m, e, l, _⟩ := containers.fill_spec v.size (none : Option α) (loop_fuel v.mem) v.mem 0
    (Nat.zero_le _) (by omega) (by unfold loop_fuel; omega)
  exact ⟨m, e, l⟩

theorem clear_keeps_block (v : vector α) (hcap : v.capacity = v.mem.length)
    (hsz : v.size ≤ v.capacity) :
    ∃ v1, clear v = .ok v1 ∧ v1.size = 0 ∧ v1.capacity = v.capacity ∧
      v1.mem.length = v.mem.length ∧ v1.begin_ = v.begin_ ∧ v1.heap = v.heap := by
  obtain ⟨m, e, l⟩ := destroy_live v hcap hsz
  exact ⟨{ v with mem := m, size := 0 }, by simp only [clear, e], rfl, rfl, l, rfl, rfl⟩

theorem cleared_reserve_spec (v : vector α) (n : Nat) (hcap : v.capacity = v.mem.length)
    (hsz : v.size ≤ v.capacity) :
    ∃ v1, cleared_reserve v n = .ok v1 ∧ v1.size = 0 ∧ v1.capacity = n ∧
      v1.mem.length = n ∧ v1.begin_ = some (fresh_ptr v) ∧
      allocations v1 = allocations v + 1 := by
  obtain ⟨m, e, _⟩ := destroy_live v hcap hsz
  cases hb : v.begin_ with
  | none =>
    refine ⟨{ begin_ := some (fresh_ptr v), mem := List.replicate n none, size := 0,
              capacity := n, heap := v.heap ++ [.allocate (fresh_ptr v) n] },
      by simp only [cleared_reserve, hb], rfl, rfl, by simp, rfl, ?_⟩
    simp [allocations, List.filter_append]
  | some p =>
    refine ⟨{ begin_ := some (fresh_ptr v), mem := List.replicate n none, size := 0,
              capacity := n,
              heap := v.heap ++ [.allocate (fresh_ptr v) n] ++ [.deallocate p v.capacity] },
      by simp only [cleared_reserve, hb, e], rfl, rfl, by simp, rfl, ?_⟩
    simp [allocations, List.filter_append]

theorem live_of_slots (v : vector α) (ys : List (Option α)) (hl : ys.length = v.size)
    (h : ∀ j, j < v.size → v.mem[j]? = ys[j]?) : live v = ys := by
  apply List.ext_getElem?
  intro j
  rw [live_get]
  by_cases hj : j < v.size
  · rw [if_pos hj, h j hj]
  · rw [if_neg hj, List.getElem?_eq_none (by omega)]

theorem assign_fill_spec (v : vector α) (count : Nat) (x : α)
    (hcap : v.capacity = v.mem.length) (hsz : v.size ≤ v.capacity) :
    ∃ v1, assign_fill v count x = .ok v1 ∧ v1.size = count ∧
      live v1 = List.replicate count (some x) ∧ v1.capacity = max v.capacity count ∧
      v1.capacity = v1.mem.length ∧
      (count ≤ v.capacity → v1.begin_ = v.begin_ ∧ v1.heap = v.heap) := by
  obtain ⟨v1, e1, s1, c1, l1, b1, h1⟩ := clear_keeps_block v hcap hsz
  have fin : ∀ v2 : vector α, v2.capacity = v2.mem.length → count ≤ v2.capacity →
      ∃ v3, (match uninitialized_fill v2.mem 0 count x (loop_fuel v2.mem) with
          | none => (.error .undefined : Except failure (vector α))
          | some m => .ok { v2 with mem := m, size := count }) = .ok v3 ∧
        v3.size = count ∧ live v3 = List.replicate count (some x) ∧
        v3.capacity = v2.capacity ∧ v3.capacity = v3.mem.length ∧ v3.begin_ = v2.begin_ ∧
        v3.heap = v2.heap := by
    intro v2 hc2 hle
    obtain ⟨m, e, l, g⟩ := containers.fill_spec count (some x) (loop_fuel v2.mem) v2.mem 0
      (Nat.zero_le _) (by omega) (by unfold loop_fuel; omega)
    refine ⟨{ v2 with mem := m, size := count }, by simp only [uninitialized_fill, e], rfl, ?_,
      rfl, ?_, rfl, rfl⟩
    · apply live_of_slots _ _ (by simp)
      intro j hj
      have hj1 : j < count := hj
      show m[j]? = _
      rw [g, if_pos ⟨Nat.zero_le _, hj1⟩, List.getElem?_replicate, if_pos hj1]
    · show v2.capacity = m.length
      omega
  by_cases hc : count > v1.capacity
  · obtain ⟨v2, e2, s2, c2, l2, _⟩ := cleared_reserve_spec v1 count (by omega) (by omega)
    obtain ⟨v3, e3, s3, lv3, c3, m3, _⟩ := fin v2 (by omega) (by omega)
    refine ⟨v3, ?_, s3, lv3, by omega, m3, fun h => by omega⟩
    simp only [assign_fill, e1, if_pos hc, e2]
    exact e3
  · obtain ⟨v3, e3, s3, lv3, c3, m3, b3, h3⟩ := fin v1 (by omega) (by omega)
    refine ⟨v3, ?_, s3, lv3, by omega, m3, fun _ => ⟨by rw [b3, b1], by rw [h3, h1]⟩⟩
    simp only [assign_fill, e1, if_neg hc]
    exact e3

theorem uninitialized_copy_range_spec :
    ∀ (rs : List α) (dst : List (Option α)) (d : Nat), d + rs.length ≤ dst.length →
      ∃ dst1, uninitialized_copy_range rs dst d = some dst1 ∧ dst1.length = dst.length ∧
        ∀ j : Nat, dst1[j]? = if d ≤ j ∧ j < d + rs.length then (rs[j - d]?).map some
                        else dst[j]? := by
  intro rs
  induction rs with
  | nil =>
    intro dst d _
    refine ⟨dst, rfl, rfl, ?_⟩
    intro j
    rw [if_neg]
    simp only [List.length_nil]
    omega
  | cons r rs ih =>
    intro dst d h
    simp only [List.length_cons] at h
    have hd : d < dst.length := by omega
    obtain ⟨dst1, e, l, g⟩ := ih (dst.set d (some r)) (d + 1) (by simp only [List.length_set]; omega)
    refine ⟨dst1, ?_, by simpa using l, ?_⟩
    · simp only [uninitialized_copy_range, store_eq_some _ _ _ hd, e]
    · intro j
      rw [g]
      simp only [List.length_cons, List.getElem?_set]
      by_cases h1 : d + 1 ≤ j ∧ j < d + 1 + rs.length
      · have h2 : d ≤ j ∧ j < d + (rs.length + 1) := by omega
        obtain ⟨i, hi⟩ : ∃ i, j - d = i + 1 := ⟨j - d - 1, by omega⟩
        have h3 : j - (d + 1) = i := by omega
        rw [if_pos h1, if_pos h2, hi, h3, List.getElem?_cons_succ]
      · rw [if_neg h1]
        by_cases h4 : d = j
        · subst h4
          rw [if_pos rfl, if_pos hd, if_pos ⟨Nat.le_refl _, by omega⟩, Nat.sub_self]
          simp
        · rw [if_neg h4, if_neg (by omega)]

theorem unchecked_emplace_back_all_spec :
    ∀ (rs : List α) (v : vector α), v.capacity = v.mem.length →
      v.size + rs.length ≤ v.capacity →
      ∃ v1, unchecked_emplace_back_all v rs = .ok v1 ∧ v1.size = v.size + rs.length ∧
        v1.capacity = v.capacity ∧ v1.capacity = v1.mem.length ∧
        live v1 = live v ++ rs.map some ∧ v1.begin_ = v.begin_ ∧ v1.heap = v.heap := by
  intro rs
  induction rs with
  | nil =>
    intro v hcap _
    exact ⟨v, rfl, rfl, rfl, hcap, by simp, rfl, rfl⟩
  | cons r rs ih =>
    intro v hcap h
    simp only [List.length_cons] at h
    have hlt : v.size < v.mem.length := by omega
    obtain ⟨v2, e, s, c, m, l, b, hp⟩ :=
      ih { v with mem := v.mem.set v.size (some r), size := v.size + 1 }
        (by show v.capacity = (v.mem.set v.size (some r)).length; simp [hcap])
        (by show v.size + 1 + rs.length ≤ v.capacity; omega)
    refine ⟨v2, ?_, ?_, c, m, ?_, b, hp⟩
    · simp only [unchecked_emplace_back_all, unchecked_emplace_back, store_eq_some _ _ _ hlt, e]
    · rw [s]
      simp only [List.length_cons]
      omega
    · rw [l, live_push v _ r hlt rfl rfl]
      simp

theorem assign_range_spec (random_access : Bool) (v : vector α) (rs : List α)
    (hcap : v.capacity = v.mem.length) (hsz : v.size ≤ v.capacity) :
    ∃ v1, assign_range random_access v rs = .ok v1 ∧ v1.size = rs.length ∧
      live v1 = rs.map some ∧ v1.capacity = max v.capacity rs.length ∧
      v1.capacity = v1.mem.length := by
  obtain ⟨v1, e1, s1, c1, l1, b1, h1⟩ := clear_keeps_block v hcap hsz
  have fin : ∀ v2 : vector α, v2.capacity = v2.mem.length → v2.size = 0 →
      rs.length ≤ v2.capacity →
      ∃ v3, (if random_access then
          match uninitialized_copy_range rs v2.mem v2.size with
          | none => (.error .undefined : Except failure (vector α))
          | some m => .ok { v2 with mem := m, size := rs.length }
        else unchecked_emplace_back_all v2 rs) = .ok v3 ∧
        v3.size = rs.length ∧ live v3 = rs.map some ∧
        v3.capacity = v2.capacity ∧ v3.capacity = v3.mem.length := by
    intro v2 hc2 hs2 hle
    cases random_access with
    | true =>
      obtain ⟨m, e, l, g⟩ := uninitialized_copy_range_spec rs v2.mem v2.size (by omega)
      refine ⟨{ v2 with mem := m, size := rs.length }, by simp only [if_true, e], rfl, ?_, rfl, ?_⟩
      · apply live_of_slots _ _ (by simp)
        intro j hj
        have hj1 : j < rs.length := hj
        show m[j]? = _
        rw [g, if_pos (by omega), hs2, List.getElem?_map]
        rfl
      · show v2.capacity = m.length
        omega
    | false =>
      obtain ⟨v3, e, s, c, m, l, _⟩ := unchecked_emplace_back_all_spec rs v2 hc2 (by omega)
      refine ⟨v3, by simpa using e, by omega, ?_, c, m⟩
      rw [l]
      simp [live, hs2]
  by_cases hc : rs.length > v1.capacity
  · obtain ⟨v2, e2, s2, c2, l2, _⟩ := cleared_reserve_spec v1 rs.length (by omega) (by omega)
    obtain ⟨v3, e3, s3, lv3, c3, m3⟩ := fin v2 (by omega) s2 (by omega)
    refine ⟨v3, ?_, s3, lv3, by omega, m3⟩
    simp only [assign_range, e1, if_pos hc, e2]
    exact e3
  · obtain ⟨v3, e3, s3, lv3, c3, m3⟩ := fin v1 (by omega) s1 (by omega)
    refine ⟨v3, ?_, s3, lv3, by omega, m3⟩
    simp only [assign_range, e1, if_neg hc]
    exact e3

theorem read_range_map (xs : List α) : read_range (xs.map some) = some xs := by
  induction xs with
  | nil => rfl
  | cons x xs ih => simp only [List.map_cons, read_range, ih]

theorem cleanup_spec (v : vector α) (p : Nat) (hcap : v.capacity = v.mem.length)
    (hsz : v.size ≤ v.capacity) (hb : v.begin_ = some p) :
    cleanup v = .ok { begin_ := none, mem := [], size := 0, capacity := 0,
                      heap := v.heap ++ [.deallocate p v.capacity] } := by
  obtain ⟨m, e, _⟩ := destroy_live v hcap hsz
  simp only [cleanup, hb, e]

theorem unchecked_reserve_spec (v : vector α) (n : Nat) (hcap : v.capacity = v.mem.length)
    (hsz : v.size ≤ v.capacity) :
    ∃ v1, unchecked_reserve v n = .ok v1 ∧ v1.capacity = max v.size n ∧ v1.size = v.size ∧
      live v1 = live v ∧ v1.mem.length = max v.size n ∧
      v1.begin_ = some (fresh_ptr v) := by
  have p3 : 0 + (v.size - 0) ≤ (List.replicate (max v.size n) (none : Option α)).length := by
    simp only [List.length_replicate]
    omega
  obtain ⟨m1, e, l, g⟩ := uninitialized_copy_spec v.mem v.size (loop_fuel v.mem) 0
    (List.replicate (max v.size n) none) 0 (Nat.zero_le _) (by omega) p3
    (by unfold loop_fuel; omega)
  refine ⟨{ begin_ := some (fresh_ptr v), mem := m1, size := v.size, capacity := max v.size n,
            heap := match v.begin_ with
              | some old_begin =>
                v.heap ++ [.allocate (fresh_ptr v) (max v.size n)] ++
                  [.deallocate old_begin v.capacity]
              | none => v.heap ++ [.allocate (fresh_ptr v) (max v.size n)] }, ?_, rfl, rfl, ?_, ?_,
          rfl⟩
  · simp only [unchecked_reserve, e]
  · apply List.ext_getElem?
    intro j
    simp only [live_get, g]
    split_ifs <;> first
      | rfl
      | omega
      | exact slot_congr _ (by omega)
  · show m1.length = _
    rw [l]
    simp

theorem size_t_sub_eq (a b : Nat) (h1 : b ≤ a) (h2 : a ≤ PTRDIFF_MAX) : size_t_sub a b = a - b := by
  unfold size_t_sub SIZE_T_MOD
  unfold PTRDIFF_MAX at h2
  have hp : (2 : Nat) ^ 64 = 2 * 2 ^ 63 := by norm_num
  have hq : (0 : Nat) < 2 ^ 63 := by positivity
  have e1 : b % 2 ^ 64 = b := Nat.mod_eq_of_lt (by omega)
  rw [e1]
  have e2 : a + 2 ^ 64 - b = (a - b) + 2 ^ 64 := by omega
  rw [e2, Nat.add_mod_right]
  exact Nat.mod_eq_of_lt (by omega)

theorem append_while_spare_spec :
    ∀ (rs : List α) (v : vector α), v.capacity = v.mem.length → v.size ≤ v.capacity →
      ∃ v1 rest, append_while_spare v rs = .ok (v1, rest) ∧ v1.capacity = v.capacity ∧
        v1.capacity = v1.mem.length ∧ v1.size ≤ v1.capacity ∧
        live v1 ++ rest.map some = live v ++ rs.map some ∧
        v1.size + rest.length = v.size + rs.length ∧ v1.begin_ = v.begin_ ∧
        v1.heap = v.heap ∧ (v.size + rs.length ≤ v.capacity → rest = []) := by
  intro rs
  induction rs with
  | nil =>
    intro v hcap hsz
    exact ⟨v, [], rfl, rfl, hcap, hsz, rfl, rfl, rfl, rfl, fun _ => rfl⟩
  | cons r rs ih =>
    intro v hcap hsz
    by_cases hs : v.size < v.capacity
    · have hlt : v.size < v.mem.length := by omega
      obtain ⟨v1, rest, e, c, m, s, l, n, b, hp, f⟩ :=
        ih { v with mem := v.mem.set v.size (some r), size := v.size + 1 }
          (by show v.capacity = (v.mem.set v.size (some r)).length; simp [hcap])
          (by show v.size + 1 ≤ v.capacity; omega)
      refine ⟨v1, rest, ?_, c, m, s, ?_, ?_, b, hp, ?_⟩
      · simp only [append_while_spare, if_pos hs, unchecked_emplace_back,
          store_eq_some _ _ _ hlt, e]
      · rw [l, live_push v _ r hlt rfl rfl]
        simp
      · rw [n]
        simp only [List.length_cons]
        omega
      · intro h
        simp only [List.length_cons] at h
        exact f (by show v.size + 1 + rs.length ≤ v.capacity; omega)
    · refine ⟨v, r :: rs, by simp only [append_while_spare, if_neg hs], rfl, hcap, hsz, rfl, rfl,
        rfl, rfl, ?_⟩
      intro h
      simp only [List.length_cons] at h
      omega

theorem emplace_back_all_spec (t : Traits) :
    ∀ (rs : List α) (v : vector α), v.capacity = v.mem.length → v.size ≤ v.capacity →
      v.size + rs.length ≤ PTRDIFF_MAX →
      (emplace_back_all t v rs = .error .length_error ∧
          max_size t < 2 * (v.size + rs.length)) ∨
        ∃ v1, emplace_back_all t v rs = .ok v1 ∧ v1.size = v.size + rs.length ∧
          v1.capacity = v1.mem.length ∧ live v1 = live v ++ rs.map some ∧
          v.capacity ≤ v1.capacity ∧ v1.size ≤ v1.capacity := by
  intro rs
  induction rs with
  | nil =>
    intro v hcap hsz _
    exact Or.inr ⟨v, rfl, rfl, hcap, by simp, Nat.le_refl _, hsz⟩
  | cons r rs ih =>
    intro v hcap hsz hb
    simp only [List.length_cons] at hb
    rcases emplace_back_cases t v r hcap hsz (by omega) with ⟨e, he, hm⟩ | ⟨v1, e, s1, c1, l1, hc⟩
    · left
      refine ⟨by simp only [emplace_back_all, e], ?_⟩
      simp only [List.length_cons]
      omega
    · have hsz1 : v1.size ≤ v1.capacity := by
        rcases hc with ⟨h, c, _⟩ | ⟨h, c, _⟩ <;> omega
      have hle : v.capacity ≤ v1.capacity := by
        rcases hc with ⟨h, c, _⟩ | ⟨h, c, _⟩ <;> omega
      rcases ih v1 c1 hsz1 (by omega) with ⟨e2, hm⟩ | ⟨v2, e2, s2, c2, l2, hle2, hsz2⟩
      · left
        refine ⟨by simp only [emplace_back_all, e, e2], ?_⟩
        simp only [List.length_cons]
        omega
      · right
        refine ⟨v2, by simp only [emplace_back_all, e, e2], ?_, c2, ?_, by omega, hsz2⟩
        · simp only [List.length_cons]
          omega
        · rw [l2, l1]
          simp

theorem insert_range_append_spec (t : Traits) (random_access : Bool)
    (policy : Nat → Nat → Nat → Nat) (v : vector α) (rs : List α) (hv : Valid v)
    (hp : ∀ s c r, r ≤ policy s c r) (hb : v.size + rs.length ≤ PTRDIFF_MAX) :
    (insert_range_append t random_access policy v rs = .error .length_error ∧
        v.capacity < v.size + rs.length ∧
        (random_access = true →
          max_size t < policy v.size v.capacity (v.capacity + rs.length)) ∧
        (random_access = false → max_size t < 2 * (v.size + rs.length))) ∨
      ∃ v2, insert_range_append t random_access policy v rs = .ok v2 ∧
        v2.size = v.size + rs.length ∧ v2.capacity = v2.mem.length ∧
        live v2 = live v ++ rs.map some ∧ v.capacity ≤ v2.capacity ∧
        v2.size ≤ v2.capacity ∧
        (v.size + rs.length ≤ v.capacity → v2.capacity = v.capacity ∧ v2.begin_ = v.begin_ ∧
          v2.heap = v.heap) := by
  obtain ⟨hcap, hsz, hpd, _, _⟩ := hv
  have fin : ∀ v1 : vector α, v1.capacity = v1.mem.length → v1.size = v.size →
      live v1 = live v → v.size + rs.length ≤ v1.capacity →
      ∃ v2, (match uninitialized_copy_range rs v1.mem v1.size with
          | none => (.error .undefined : Except failure (vector α))
          | some m => .ok { v1 with mem := m, size := v1.size + rs.length }) = .ok v2 ∧
        v2.size = v.size + rs.length ∧ v2.capacity = v2.mem.length ∧
        live v2 = live v ++ rs.map some ∧ v2.capacity = v1.capacity ∧ v2.begin_ = v1.begin_ ∧
        v2.heap = v1.heap := by
    intro v1 hc1 hs1 hl1 hfit
    obtain ⟨m, e, l, g⟩ := uninitialized_copy_range_spec rs v1.mem v1.size (by omega)
    refine ⟨{ v1 with mem := m, size := v1.size + rs.length }, by simp only [e], ?_, ?_, ?_, rfl,
      rfl, rfl⟩
    · show v1.size + rs.length = _
      omega
    · show v1.capacity = m.length
      omega
    · have hlv : (live v1).length = v1.size := by
        simp only [live, List.length_take]
        omega
      apply live_of_slots _ _ (by simp [← hl1, hlv])
      intro j hj
      show m[j]? = _
      rw [g, ← hl1]
      simp only [List.getElem?_append, hlv, live_get, List.getElem?_map]
      by_cases hjs : j < v1.size
      · rw [if_neg (by omega), if_pos hjs, if_pos hjs]
      · have hj1 : j < v1.size + rs.length := hj
        rw [if_pos (by omega), if_neg hjs]
  cases random_access with
  | true =>
    have hsub := size_t_sub_eq v.capacity v.size hsz hpd
    by_cases hfit : v.size + rs.length ≤ v.capacity
    · right
      have hcs : can_store v rs.length = true := by
        simp only [can_store, hsub, decide_eq_true_eq]
        omega
      obtain ⟨v2, e, s2, c2, l2, c3, b3, h3⟩ := fin v hcap rfl rfl hfit
      refine ⟨v2, ?_, s2, c2, l2, by omega, by omega, fun _ => ⟨c3, b3, h3⟩⟩
      simp only [insert_range_append, if_true, hcs]
      exact e
    · have hcs : can_store v rs.length = false := by
        simp only [can_store, hsub, decide_eq_false_iff_not]
        omega
      have hmod : (v.capacity + rs.length) % SIZE_T_MOD = v.capacity + rs.length := by
        apply Nat.mod_eq_of_lt
        unfold SIZE_T_MOD
        unfold PTRDIFF_MAX at hb hpd
        have h64 : (2 : Nat) ^ 64 = 2 * 2 ^ 63 := by norm_num
        omega
      have hreq := hp v.size v.capacity (v.capacity + rs.length)
      by_cases hmax : policy v.size v.capacity (v.capacity + rs.length) ≤ max_size t
      · right
        obtain ⟨v1, e1, c1, s1, l1, m1, _⟩ := reserve_grows t v
          (policy v.size v.capacity (v.capacity + rs.length)) hcap hsz (by omega) hmax
        obtain ⟨v2, e, s2, c2, l2, c3, _⟩ := fin v1 (by omega) s1 l1 (by omega)
        refine ⟨v2, ?_, s2, c2, l2, by omega, by omega, fun h => absurd h hfit⟩
        simp only [insert_range_append, if_true, hcs, Bool.false_eq_true, if_false, hmod, e1]
        exact e
      · left
        refine ⟨?_, by omega, (fun _ => by omega), (fun h => by cases h)⟩
        simp only [insert_range_append, if_true, hcs, Bool.false_eq_true, if_false, hmod,
          reserve_too_long t v _ (by omega : v.capacity < policy v.size v.capacity
            (v.capacity + rs.length)) (by omega)]
  | false =>
    obtain ⟨v1, rest, e1, c1, m1, s1, l1, n1, b1, h1, f1⟩ := append_while_spare_spec rs v hcap hsz
    rcases emplace_back_all_spec t rest v1 m1 s1 (by omega) with
      ⟨e2, hm⟩ | ⟨v2, e2, s2, c2, l2, hle, hsz2⟩
    · left
      refine ⟨?_, ?_, (fun h => by cases h), (fun _ => by omega)⟩
      · simp only [insert_range_append, Bool.false_eq_true, if_false, e1, e2]
      · by_contra hfit
        have := f1 (by omega)
        subst this
        simp [emplace_back_all] at e2
    · right
      refine ⟨v2, ?_, by omega, c2, ?_, by omega, hsz2, ?_⟩
      · simp only [insert_range_append, Bool.false_eq_true, if_false, e1, e2]
      · rw [l2, l1]
      · intro hfit
        have := f1 hfit
        subst this
        simp only [emplace_back_all, Except.ok.injEq] at e2
        subst e2
        exact ⟨c1, b1, h1⟩

theorem insert_range_rotate (v2 : vector α) (L R : List (Option α)) (i : Nat)
    (hc : v2.capacity = v2.mem.length) (hs : v2.size = L.length + R.length)
    (hsz : v2.size ≤ v2.capacity) (hl : live v2 = L ++ R) (hi : i ≤ L.length) :
    ∃ m, containers.rotate v2.mem i L.length v2.size (loop_fuel v2.mem) = some m ∧
      m.length = v2.mem.length ∧
      live { v2 with mem := m } = L.take i ++ R ++ L.drop i := by
  obtain ⟨m, e, l, g⟩ := containers.rotate_spec (loop_fuel v2.mem) v2.mem i L.length v2.size hi
    (by omega) (by omega) (by unfold loop_fuel; omega)
  refine ⟨m, e, l, ?_⟩
  have hm : ∀ k, k < v2.size → v2.mem[k]? = (L ++ R)[k]? := by
    intro k hk
    rw [← hl, live_get, if_pos hk]
  apply live_of_slots _ _ (by simp; omega)
  intro j hj
  have hj1 : j < v2.size := hj
  show m[j]? = _
  rw [g]
  by_cases h1 : i ≤ j ∧ j < v2.size
  · rw [if_pos h1]
    by_cases h2 : j < i + (v2.size - L.length)
    · rw [if_pos h2, hm _ (by omega)]
      simp only [List.getElem?_append, List.length_append, List.length_take, List.getElem?_take,
        List.getElem?_drop]
      split_ifs <;> first
        | rfl
        | omega
        | exact slot_congr _ (by omega)
    · rw [if_neg h2, hm _ (by omega)]
      simp only [List.getElem?_append, List.length_append, List.length_take, List.getElem?_take,
        List.getElem?_drop]
      split_ifs <;> first
        | rfl
        | omega
        | exact slot_congr _ (by omega)
  · rw [if_neg h1, hm _ hj1]
    simp only [List.getElem?_append, List.length_append, List.length_take, List.getElem?_take,
      List.getElem?_drop]
    split_ifs <;> first
      | rfl
      | omega

theorem move_construct_backward_stops {β : Type} (last : Nat) :
    ∀ (fuel : Nat) (m : List β) (target start : Nat) (m1 : List β) (t1 : Nat),
      move_construct_backward m target last start fuel = some (m1, t1) → t1 = last := by
  intro fuel
  induction fuel with
  | zero =>
    intro m target start m1 t1 h
    simp [move_construct_backward] at h
  | succ fuel ih =>
    intro m target start m1 t1 h
    unfold move_construct_backward at h
    by_cases ht : target = last
    · rw [if_pos ht] at h
      cases h
      exact ht
    · rw [if_neg ht] at h
      cases hs : m[start]? with
      | none => simp [hs] at h
      | some x =>
        cases hw : store m target x with
        | none => simp [hs, hw] at h
        | some m2 =>
          simp only [hs, hw] at h
          by_cases hz : target = 0 ∨ start = 0
          · rw [if_pos hz] at h
            cases h
          · rw [if_neg hz] at h
            exact ih m2 (target - 1) (start - 1) m1 t1 h

/-- Whenever `insert(pos, count, value)` returns, the size is what it was: `_end = target`
is the old `end()`. -/
theorem insert_count_keeps_size (v v1 : vector α) (pos count : Nat) (x : α)
    (h : insert_count v pos count x = .ok v1) : v1.size = v.size := by
  unfold insert_count at h
  by_cases hc : count ≠ 0
  · rw [if_pos hc] at h
    by_cases hr : count > size_t_sub v.capacity v.size
    · simp only [if_pos hr] at h
      cases h
    · simp only [if_neg hr] at h
      cases hm : move_construct_backward v.mem (v.size + count) v.size v.size (loop_fuel v.mem) with
      | none => simp [hm] at h
      | some r =>
        obtain ⟨m, t1⟩ := r
        have ht := move_construct_backward_stops v.size _ _ _ _ _ _ hm
        simp only [hm] at h
        cases hf : uninitialized_fill m pos (pos + count) x (loop_fuel v.mem) with
        | none => simp [hf] at h
        | some m1 =>
          simp only [hf, Except.ok.injEq] at h
          rw [← h]
          exact ht
  · rw [if_neg hc] at h
    cases h
    rfl

/-- After `a = std::move(b)` the two objects have the same buffer, size and capacity, and
`b` is what it was. -/
theorem move_assign_shares_buffer (a b : vector α) (ha : a.capacity = a.mem.length)
    (hs : a.size ≤ a.capacity) :
    ∃ a1, move_assign a b = .ok (a1, b) ∧ a1.begin_ = b.begin_ ∧ a1.mem = b.mem ∧
      a1.size = b.size ∧ a1.capacity = b.capacity := by
  cases hb : a.begin_ with
  | none =>
    exact ⟨{ a with begin_ := b.begin_, mem := b.mem, size := b.size, capacity := b.capacity },
      by simp only [move_assign, cleanup, hb], rfl, rfl, rfl, rfl⟩
  | some p =>
    exact ⟨{ begin_ := b.begin_, mem := b.mem, size := b.size, capacity := b.capacity,
             heap := a.heap ++ [.deallocate p a.capacity] },
      by simp only [move_assign, cleanup_spec a p ha hs hb], rfl, rfl, rfl, rfl⟩

theorem uninitialized_copy_throwing_enough (src : List (Option α)) (last : Nat) :
    ∀ (fuel first : Nat) (dst : List (Option α)) (d_start d_first budget : Nat), first ≤ last →
      last - first ≤ budget →
      uninitialized_copy_throwing src first last dst d_start d_first budget fuel =
        (uninitialized_copy src first last dst d_first fuel).map
          fun m => (m, some (budget - (last - first))) := by
  intro fuel
  induction fuel with
  | zero =>
    intro first dst d_start d_first budget _ _
    simp [uninitialized_copy_throwing, uninitialized_copy]
  | succ fuel ih =>
    intro first dst d_start d_first budget h1 h2
    unfold uninitialized_copy_throwing uninitialized_copy
    by_cases hfl : first = last
    · subst hfl
      simp
    · rw [if_neg hfl, if_neg hfl]
      cases hr : src[first]? with
      | none => simp only [hr, Option.map_none']
      | some x =>
        obtain ⟨b, rfl⟩ : ∃ b, budget = b + 1 := ⟨budget - 1, by omega⟩
        cases hs : store dst d_first x with
        | none => simp only [hr, hs, Option.map_none']
        | some dst1 =>
          simp only [hr, hs]
          rw [ih (first + 1) dst1 d_start (d_first + 1) b (by omega) (by omega)]
          have e : b - (last - (first + 1)) = b + 1 - (last - first) := by omega
          rw [e]

theorem reserve_throwing_no_throw (t : Traits) (v : vector α) (n budget : Nat)
    (hb : v.size ≤ budget) :
    reserve_throwing t v n budget =
      match reserve t v n with
      | .ok v1 => (v1, none)
      | .error e => (v, some e) := by
  unfold reserve_throwing reserve
  by_cases h1 : v.capacity < n
  · by_cases h2 : n > max_size t
    · simp only [if_pos h1, if_pos h2]
    · simp only [if_pos h1, if_neg h2]
      rw [uninitialized_copy_throwing_enough v.mem v.size (loop_fuel v.mem) 0 _ 0 0 budget
        (Nat.zero_le _) (by omega)]
      cases uninitialized_copy v.mem 0 v.size (List.replicate n none) 0 (loop_fuel v.mem) with
      | none => rfl
      | some m => rfl
  · simp only [if_neg h1]

theorem reserve_throwing_cases (t : Traits) (v : vector α) (n budget : Nat) :
    (v.capacity < n ∧ max_size t < n ∧ reserve_throwing t v n budget = (v, some .length_error)) ∨
    ((reserve_throwing t v n budget).2 ≠ some .length_error ∧
      ¬ (v.capacity < n ∧ max_size t < n) ∧
      ((reserve_throwing t v n budget).2 = some .element_exception →
        (reserve_throwing t v n budget).1 =
          { v with heap := v.heap ++ [.allocate (fresh_ptr v) n] ++
                     [.deallocate (fresh_ptr v) n] })) := by
  unfold reserve_throwing
  by_cases h1 : v.capacity < n
  · by_cases h2 : n > max_size t
    · left
      exact ⟨h1, h2, by simp only [if_pos h1, if_pos h2]⟩
    · right
      simp only [if_pos h1, if_neg h2]
      refine ⟨?_, by omega, ?_⟩
      · cases uninitialized_copy_throwing v.mem 0 v.size (List.replicate n none) 0 0 budget
            (loop_fuel v.mem) with
        | none => simp
        | some r =>
          obtain ⟨m, o⟩ := r
          cases o <;> simp
      · cases uninitialized_copy_throwing v.mem 0 v.size (List.replicate n none) 0 0 budget
            (loop_fuel v.mem) with
        | none => simp
        | some r =>
          obtain ⟨m, o⟩ := r
          cases o <;> simp
  · right
    simp only [if_neg h1]
    exact ⟨by simp, by omega, by simp⟩

/-- Whatever the constructors do, no exception leaves the reallocating branch of
`emplace`. -/
theorem emplace_reallocating_swallows (v : vector α) (pos : Nat) (x : α) (budget : Nat) :
    (emplace_reallocating v pos x budget).2 = none ∨
      (emplace_reallocating v pos x budget).2 = some .undefined := by
  simp only [emplace_reallocating]
  cases he : emplace_try v pos x (List.replicate (geometric_int_expansion_policy.grow_capacity 2
      v.size v.capacity ((v.capacity + 1) % SIZE_T_MOD)) none) budget with
  | none => simp only [or_true]
  | some r =>
    obtain ⟨m, threw⟩ := r
    cases threw with
    | false => simp
    | true =>
      cases hd : destroy m 0 (pos + 1) (loop_fuel m) with
      | none => simp [hd]
      | some _ => simp [hd]

theorem load_after_self (v : vector α) (r : const_reference α) :
    load_after v v r = load v.mem r := by
  cases r with
  | outside x => rfl
  | element i => simp [load_after]

theorem emplace_back_spare_argument (t : Traits) (v : vector α) (r : const_reference α) (x : α)
    (hv : Valid v) (hr : load v.mem r = some x) (hs : v.size < v.capacity) :
    ∃ v1, emplace_back t v r = .ok (v1, v.size) ∧ v1.size = v.size + 1 ∧
      v1.capacity = v.capacity ∧ live v1 = live v ++ [some x] ∧
      allocations v1 = allocations v := by
  obtain ⟨hcap, hsz, _⟩ := hv
  have hlt : v.size < v.mem.length := by omega
  have hnf : full v = false := by simp [full, hs]
  refine ⟨{ v with mem := v.mem.set v.size (some x), size := v.size + 1 }, ?_, rfl, rfl, ?_, rfl⟩
  · simp [emplace_back, load_after_self, hr, hnf, store_eq_some _ _ _ hlt]
  · exact live_push v _ x hlt rfl rfl

theorem emplace_back_throws_argument (t : Traits) (v : vector α) (r : const_reference α)
    (hv : Valid v) (hs : v.size = v.capacity) (hmax : max_size t < 2 * max v.capacity 1) :
    emplace_back t v r = .error .length_error := by
  have hpd := hv.2.2.1
  have hf : full v = true := by simp [full, hs]
  simp only [emplace_back, hf, if_true, grow_twice v.size v.capacity hpd,
    reserve_too_long t v (2 * max v.capacity 1) (by omega) hmax]

/-- What `emplace_back` (and so `push_back`) does with an argument that refers to an
element of a full vector, when the growth request is within `max_size()`: `reserve`
moves the elements and deallocates the block the reference points into, and the
construction then reads through the reference. -/
theorem emplace_back_element_of_full (t : Traits) (v : vector α) (i : Nat) (hv : Valid v)
    (hs : v.size = v.capacity) (hmax : 2 * max v.capacity 1 ≤ max_size t) :
    emplace_back t v (.element i) = .error .undefined ∧
      push_back t v (.element i) = .error .undefined := by
  have hpd := hv.2.2.1
  have hf : full v = true := by simp [full, hs]
  obtain ⟨v1, e, c1, s1, l1, m1, a1, _⟩ := reserve_spec t v (2 * max v.capacity 1) hv
    (by omega) hmax
  have hne : ¬ v1.heap = v.heap := by
    intro h
    have : allocations v1 = allocations v := by simp [allocations, h]
    omega
  have h1 : emplace_back t v (.element i) = .error .undefined := by
    simp only [emplace_back, load_after, hf, if_true, grow_twice v.size v.capacity hpd, e,
      if_neg hne]
  exact ⟨h1, by simp [push_back, h1]⟩

end vector
end real

namespace containers_cpp

theorem rotate_inner_stuck {β : Type} (first n m : Nat) (hm : m ≠ n) :
    ∀ (fuel : Nat) (d : List β) (i count : Nat),
      rotate_inner first n n m d i n count fuel = none := by
  intro fuel
  induction fuel with
  | zero => intro d i count; rfl
  | succ fuel ih =>
    intro d i count
    have hj : ¬ n = m := fun h => hm h.symm
    simp only [rotate_inner, if_neg hj]
    cases hx : d[first + n]? with
    | none => rfl
    | some x =>
      cases hs : containers.store d (first + i) x with
      | none => simp only [hs]
      | some d1 =>
        have hlt : ¬ n + n < n := by omega
        simp only [hs, if_neg hlt, Nat.add_sub_cancel]
        exact ih d1 n (count + 1)

theorem rotate_mid_eq_last_diverges {β : Type} (d : List β) (first last : Nat)
    (h : first < last) (fuel : Nat) : rotate d first last last fuel = none := by
  cases fuel with
  | zero => rfl
  | succ fuel =>
    have hn : ¬ 0 = last - first := by omega
    simp only [rotate, rotate_outer, if_neg hn]
    cases hx : d[first + 0]? with
    | none => rfl
    | some t =>
      simp only [Nat.zero_add, rotate_inner_stuck first (last - first) 0 (by omega)]

end containers_cpp

/-! The claims about `real::vector`, then `stable_stack`, then `plain_array`, then the
`rotate` of `containers.cpp`. -/

namespace real
namespace vector

variable {α : Type}

theorem move_construct_backward_once {β : Type} (m : List β) (e fuel : Nat)
    (h1 : e + 1 < m.length) (h2 : e ≠ 0) (h3 : 2 ≤ fuel) :
    move_construct_backward m (e + 1) e e fuel =
      some (m.set (e + 1) (m.get ⟨e, by omega⟩), e) := by
  obtain ⟨k, rfl⟩ : ∃ k, fuel = k + 1 + 1 := ⟨fuel - 2, by omega⟩
  have hx : m[e]? = some (m.get ⟨e, by omega⟩) := by
    rw [List.getElem?_eq_getElem (by omega)]
    rfl
  have h6 : ¬ (e + 1 = 0 ∨ e = 0) := by omega
  simp only [move_construct_backward, Nat.succ_ne_self, if_false, hx,
    containers.store_eq_some _ _ _ h1, h6, Nat.add_sub_cancel, if_true]

/-- What `emplace` (and so `insert(pos, value)`) does before `end()` when at least two
slots are spare: the loop runs once, copying the raw slot at `end()` one slot up;
the value is then constructed over the element at `pos`, and `_end` is left where
it was.  The element count does not grow and the old element at `pos` is lost. -/
theorem emplace_spare_capacity_overwrites (t : Traits) (v : vector α) (i : Nat) (x : α)
    (hv : Valid v) (hi : i < v.size) (hs : v.size + 1 < v.capacity) :
    ∃ v1, emplace t v i (.outside x) = .ok (v1, i) ∧ v1.size = v.size ∧ v1.capacity = v.capacity ∧
      live v1 = (live v).set i (some x) := by
  obtain ⟨hcap, hsz, _⟩ := hv
  have h1 : v.size < v.capacity := by omega
  have h2 : ¬ i = v.size := by omega
  have h3 : v.size < v.mem.length := by omega
  have h4 : v.size + 1 < v.mem.length := by omega
  have h5 : i < (v.mem.set (v.size + 1) (v.mem.get ⟨v.size, by omega⟩)).length := by
    simp only [List.length_set]
    omega
  have hloop := move_construct_backward_once v.mem v.size (containers.loop_fuel v.mem) h4
    (by omega) (by unfold containers.loop_fuel; omega)
  refine ⟨{ v with
      mem := (v.mem.set (v.size + 1) (v.mem.get ⟨v.size, by omega⟩)).set i (some x) },
    ?_, rfl, rfl, ?_⟩
  · simp only [emplace, load, if_pos h1, if_neg h2, hloop, containers.store_eq_some _ _ _ h5]
  · apply List.ext_getElem?
    intro j
    simp only [live_get, List.getElem?_set, List.length_set, List.getElem?_take, live,
      List.length_take]
    split_ifs <;> first
      | rfl
      | omega

/-- C1 (diverges): after `reserve(4); push_back(1); push_back(2);` the call
`insert(begin(), 9)` leaves the elements `[9, 2]` with size `2`, while inserting at
index `0` in the reference list `[1, 2]` gives `[9, 1, 2]`. -/
theorem insert_with_spare_capacity_departs_from_list :
    run int_traits (empty : vector Int) [.reserve 4, .push_back 1, .push_back 2] =
      .ok two_of_four ∧
    Valid two_of_four ∧ live two_of_four = [(1 : Int), 2].map some ∧
    (∃ v1, run int_traits two_of_four [.insert 0 9] = .ok v1 ∧
      live v1 = [(9 : Int), 2].map some ∧ v1.size = 2) ∧
    ref_run [(1 : Int), 2] [.insert 0 9] = [9, 1, 2] := by
  refine ⟨by decide, by decide, by decide, ?_, by decide⟩
  · exact ⟨{ two_of_four with mem := [some 9, some 2, none, none] }, by decide, by decide,
      by decide⟩

/-- C2: on a full vector (`size() == capacity() >= 1`) `insert(begin() + i, x)` with
`i < size()` returns the iterator at index `i`, makes exactly one `allocate` call
(the capacity changes, here to twice the old one), and leaves the elements equal to
the old sequence with `x` inserted at index `i`; the size grows by one.  The argument
is an object outside the vector's storage or one of its elements, `x` is its value. -/
theorem insert_full_reallocates_once (t : Traits) (v : vector α) (xs : List α) (i : Nat)
    (r : containers.const_reference α) (x : α) (hr : load v.mem r = some x)
    (hv : Valid v) (hxs : live v = xs.map some) (hfull : v.size = v.capacity)
    (hcap : 1 ≤ v.capacity) (hi : i < v.size) :
    ∃ v1, insert t v i r = .ok (v1, i) ∧
      live v1 = (xs.take i ++ [x] ++ xs.drop i).map some ∧
      v1.size = v.size + 1 ∧ allocations v1 = allocations v + 1 ∧
      v1.capacity ≠ v.capacity ∧ v1.capacity = 2 * v.capacity := by
  obtain ⟨v1, e, s, c, l, a, _⟩ := emplace_realloc t v i r x hr hv hfull hcap hi
  refine ⟨v1, e, ?_, s, a, by omega, c⟩
  rw [l, hxs]
  simp [List.map_take, List.map_drop]

/-- C2, the scenario of the specification: empty vector, `reserve(4)`, `push_back` of
1, 2, 3, 4, then `insert` of 9 at index 1 gives `[1, 9, 2, 3, 4]` with one more
allocation. -/
theorem insert_full_reallocates_once_witness :
    run int_traits (empty : vector Int)
        [.reserve 4, .push_back 1, .push_back 2, .push_back 3, .push_back 4] =
      .ok four_of_four ∧
    (load four_of_four.mem (.outside 9) = some 9 ∧
      Valid four_of_four ∧ live four_of_four = [(1 : Int), 2, 3, 4].map some ∧
      four_of_four.size = four_of_four.capacity ∧ 1 ≤ four_of_four.capacity ∧
      1 < four_of_four.size) ∧
    ∃ v1, insert int_traits four_of_four 1 (.outside 9) = .ok (v1, 1) ∧
      live v1 = ([(1 : Int), 2, 3, 4].take 1 ++ [9] ++ [(1 : Int), 2, 3, 4].drop 1).map some ∧
      v1.size = four_of_four.size + 1 ∧ allocations v1 = allocations four_of_four + 1 ∧
      v1.capacity ≠ four_of_four.capacity ∧ v1.capacity = 2 * four_of_four.capacity :=
  ⟨by decide, ⟨by decide, by decide, by decide, by decide, by decide, by decide⟩,
    insert_full_reallocates_once int_traits four_of_four [1, 2, 3, 4] 1 (.outside 9) 9
      (by decide) (by decide) (by decide) (by decide) (by decide) (by decide)⟩

/-- C3 (diverges): on the vector `[1, 2, 3]` with capacity `8`, `emplace(begin() + 1, 9)`
and `insert(begin() + 1, 9)` return the iterator at index `1` and leave the capacity
at `8`, but the elements are `[1, 9, 3]` and the size is still `3`: the element `2`
is overwritten and nothing is shifted. -/
theorem emplace_with_spare_capacity_overwrites_element :
    Valid three_of_eight ∧ live three_of_eight = [some 1, some 2, some 3] ∧
    (∃ v1, emplace int_traits three_of_eight 1 (.outside 9) = .ok (v1, 1) ∧
      insert int_traits three_of_eight 1 (.outside 9) = .ok (v1, 1) ∧
      live v1 = [(1 : Int), 9, 3].map some ∧ v1.size = 3 ∧ v1.capacity = 8) := by
  refine ⟨by decide, by decide, ?_⟩
  · exact ⟨{ three_of_eight with
        mem := [some 1, some 9, some 3, none, none, none, none, none] },
      by decide, by decide, by decide, by decide, by decide⟩

/-- C9: `reserve(n)` with `n <= capacity()` changes nothing; with
`capacity() < n <= max_size()` it succeeds, the capacity becomes exactly `n`, and
the size and the elements are unchanged. -/
theorem reserve_contract (t : Traits) (v : vector α) (n : Nat) (hv : Valid v) :
    (n ≤ v.capacity → reserve t v n = .ok v) ∧
    (v.capacity < n → n ≤ max_size t →
      ∃ v1, reserve t v n = .ok v1 ∧ v1.capacity = n ∧ v1.size = v.size ∧
        live v1 = live v) := by
  refine ⟨reserve_noop t v n, ?_⟩
  intro h1 h2
  obtain ⟨v1, e, c, s, l, _⟩ := reserve_spec t v n hv h1 h2
  exact ⟨v1, e, c, s, l⟩

/-- C9 at `[1, 2]` with capacity `4`: `reserve(3)` changes nothing, `reserve(10)` gives
capacity `10` with the same two elements. -/
theorem reserve_contract_witness :
    Valid two_of_four ∧
    (3 ≤ two_of_four.capacity → reserve int_traits two_of_four 3 = .ok two_of_four) ∧
    (two_of_four.capacity < 10 → 10 ≤ max_size int_traits →
      ∃ v1, reserve int_traits two_of_four 10 = .ok v1 ∧ v1.capacity = 10 ∧
        v1.size = two_of_four.size ∧ live v1 = live two_of_four) :=
  ⟨by decide,
    (reserve_contract int_traits two_of_four 3 (by decide)).1,
    (reserve_contract int_traits two_of_four 10 (by decide)).2⟩

/-- C10 (as stated, fails): with an allocator whose `max_size()` is `5`, the full vector
`[1, 2, 3, 4]` of capacity `4` does not become `[1, 2, 3, 4, 5]` on `push_back(5)`:
the growth request for capacity `8` makes `reserve` throw `length_error`. -/
theorem push_back_full_can_throw :
    Valid four_of_four ∧ live four_of_four = [(1 : Int), 2, 3, 4].map some ∧
    four_of_four.size = four_of_four.capacity ∧
    push_back small_allocator_traits four_of_four (.outside 5) = .error .length_error ∧
    ¬ ∃ v1, push_back small_allocator_traits four_of_four (.outside 5) = .ok v1 ∧
        live v1 = ([(1 : Int), 2, 3, 4] ++ [5]).map some := by
  refine ⟨by decide, by decide, by decide, by decide, ?_⟩
  intro ⟨v1, h, _⟩
  have h2 : push_back small_allocator_traits four_of_four (.outside 5) =
      .error .length_error := by decide
  rw [h2] at h
  cases h

/-- C10 (amended): `push_back(x)` / `emplace_back(x)` on a vector with elements `xs`, the
argument being an object outside the vector's storage or one of its elements, with
value `x`.  With spare capacity the elements become `xs ++ [x]` and the capacity is
unchanged.  On a full vector, if `2 * max(capacity, 1) > max_size()` the call throws
`length_error`; otherwise, for an argument outside the vector's storage, the elements
become `xs ++ [x]` and the capacity becomes `2 * max(capacity, 1)`. -/
theorem push_back_contract (t : Traits) (v : vector α) (xs : List α)
    (r : containers.const_reference α) (x : α) (hv : Valid v) (hxs : live v = xs.map some) (hr : load v.mem r = some x) :
    (v.size < v.capacity →
      ∃ v1, emplace_back t v r = .ok (v1, v.size) ∧ push_back t v r = .ok v1 ∧
        live v1 = (xs ++ [x]).map some ∧ v1.capacity = v.capacity) ∧
    (v.size = v.capacity → 2 * max v.capacity 1 ≤ max_size t →
      ∃ v1, emplace_back t v (.outside x) = .ok (v1, v.size) ∧
        push_back t v (.outside x) = .ok v1 ∧
        live v1 = (xs ++ [x]).map some ∧ v1.capacity = 2 * max v.capacity 1) ∧
    (v.size = v.capacity → max_size t < 2 * max v.capacity 1 →
      emplace_back t v r = .error .length_error ∧ push_back t v r = .error .length_error) := by
  refine ⟨?_, ?_, ?_⟩
  · intro hs
    obtain ⟨v1, e, _, c, l, _⟩ := emplace_back_spare_argument t v r x hv hr hs
    refine ⟨v1, e, by simp [push_back, e], ?_, c⟩
    rw [l, hxs]
    simp
  · intro hs hm
    obtain ⟨v1, e, _, c, l, _⟩ := emplace_back_grow t v x hv hs hm
    refine ⟨v1, e, by simp [push_back, e], ?_, c⟩
    rw [l, hxs]
    simp
  · intro hs hm
    have e := emplace_back_throws_argument t v r hv hs hm
    exact ⟨e, by simp [push_back, e]⟩

/-- C10 (amended) at `[1, 2]` with capacity `4`, pushing its own first element, and at
the full `[1, 2, 3, 4]`, pushing `7`. -/
theorem push_back_contract_witness :
    (Valid two_of_four ∧ live two_of_four = [(1 : Int), 2].map some ∧
      load two_of_four.mem (.element 0) = some 1 ∧
      two_of_four.size < two_of_four.capacity) ∧
    (∃ v1, emplace_back int_traits two_of_four (.element 0) = .ok (v1, two_of_four.size) ∧
      push_back int_traits two_of_four (.element 0) = .ok v1 ∧
      live v1 = ([(1 : Int), 2] ++ [1]).map some ∧ v1.capacity = two_of_four.capacity) ∧
    (Valid four_of_four ∧ live four_of_four = [(1 : Int), 2, 3, 4].map some ∧
      load four_of_four.mem (.outside 7) = some 7 ∧
      four_of_four.size = four_of_four.capacity ∧
      2 * max four_of_four.capacity 1 ≤ max_size int_traits) ∧
    (∃ v1, emplace_back int_traits four_of_four (.outside 7) = .ok (v1, four_of_four.size) ∧
      push_back int_traits four_of_four (.outside 7) = .ok v1 ∧
      live v1 = ([(1 : Int), 2, 3, 4] ++ [7]).map some ∧
      v1.capacity = 2 * max four_of_four.capacity 1) :=
  ⟨⟨by decide, by decide, by decide, by decide⟩,
    (push_back_contract int_traits two_of_four [1, 2] (.element 0) 1 (by decide)
      (by decide) (by decide)).1 (by decide),
    ⟨by decide, by decide, by decide, by decide, by decide⟩,
    (push_back_contract int_traits four_of_four [1, 2, 3, 4] (.outside 7) 7 (by decide)
      (by decide) (by decide)).2.1 (by decide) (by decide)⟩

/-- C11: for every `n ≥ 1`, along `n` successive `push_back` calls on an empty
default-constructed `real::vector` (a call that throws `length_error` is caught and
has left the vector as it was), every call has a defined outcome, the capacity never
decreases from one call to the next, and the number of steps at which the capacity
changes is at most `floor(log2 n) + 1`.  The element count is one that
`_end - _begin` can represent (`n ≤ PTRDIFF_MAX`), or the allocator grants no more
than `PTRDIFF_MAX` elements. -/
theorem push_back_reallocations_logarithmic (t : Traits) (n : Nat) (xs : List α) (_hn : 1 ≤ n)
    (hx : xs.length = n) (hr : n ≤ PTRDIFF_MAX ∨ max_size t ≤ PTRDIFF_MAX) :
    ∃ caps, capacities t empty xs = some caps ∧ caps.length = n + 1 ∧ non_decreasing caps ∧
      capacity_changes caps ≤ Nat.log 2 n + 1 := by
  have hb : (empty : vector α).size + xs.length ≤ PTRDIFF_MAX ∨
      (max_size t ≤ PTRDIFF_MAX ∧ (empty : vector α).capacity ≤ PTRDIFF_MAX) := by
    rcases hr with h | h
    · left
      show 0 + xs.length ≤ _
      omega
    · right
      exact ⟨h, Nat.zero_le _⟩
  obtain ⟨rest, e, l, m, b⟩ := capacities_doubling t xs (empty : vector α) 0 rfl (Nat.le_refl _)
    (Or.inl ⟨rfl, rfl⟩) hb
  refine ⟨_, e, by simp [l, hx], m, ?_⟩
  have hs : (empty : vector α).size + xs.length = n := by
    show 0 + xs.length = n
    omega
  rw [hs] at b
  rcases b with b | b
  · omega
  · have := Nat.le_log_of_pow_le (by norm_num : 1 < 2) b
    omega

/-- C11 at five calls on a `vector<int>`: the capacities are `0, 2, 2, 4, 4, 8`, three
changes, and `floor(log2 5) + 1 = 3`. -/
theorem push_back_reallocations_logarithmic_witness :
    (1 ≤ 5 ∧ [(1 : Int), 2, 3, 4, 5].length = 5 ∧
      (5 ≤ PTRDIFF_MAX ∨ max_size int_traits ≤ PTRDIFF_MAX)) ∧
    (∃ caps, capacities int_traits empty [(1 : Int), 2, 3, 4, 5] = some caps ∧
      caps.length = 5 + 1 ∧ non_decreasing caps ∧ capacity_changes caps ≤ Nat.log 2 5 + 1) ∧
    capacities int_traits empty [(1 : Int), 2, 3, 4, 5] = some [0, 2, 2, 4, 4, 8] :=
  ⟨⟨by decide, rfl, Or.inl (by decide)⟩,
    push_back_reallocations_logarithmic int_traits 5 [1, 2, 3, 4, 5] (by decide) rfl
      (Or.inl (by decide)),
    by decide⟩

/-- C12: for every `k` and every empty `real::vector` (`size() == 0`), `reserve(k)`
returns when `k <= capacity()` or `k <= max_size()`, and after `reserve(k)` has
returned each of the next `k` `push_back` calls returns and leaves `capacity()`, the
buffer and the allocator's call count unchanged; after `j` of them the size is `j`,
after all of them `k`. -/
theorem reserve_then_push_backs_keep_capacity (t : Traits) (v : vector α) (k : Nat)
    (xs : List α) (hv : Valid v) (he : v.size = 0) (hx : xs.length = k) :
    ((k ≤ v.capacity ∨ k ≤ max_size t) → ∃ v1, reserve t v k = .ok v1) ∧
    ∀ v1, reserve t v k = .ok v1 →
      ∀ j, j ≤ k →
        ∃ vj, run t v1 ((xs.take j).map Op.push_back) = .ok vj ∧
          vj.capacity = v1.capacity ∧ allocations vj = allocations v1 ∧
          vj.begin_ = v1.begin_ ∧ vj.size = j ∧ live vj = (xs.take j).map some := by
  obtain ⟨hcap, hsz, _⟩ := hv
  have key : ∀ v1, reserve t v k = .ok v1 →
      v1.capacity = v1.mem.length ∧ v1.size = 0 ∧ k ≤ v1.capacity := by
    intro v1 hr
    by_cases hk : k ≤ v.capacity
    · rw [reserve_noop t v k hk] at hr
      cases hr
      exact ⟨hcap, he, hk⟩
    · by_cases hm : k ≤ max_size t
      · obtain ⟨v2, e, c, s, _, m, _⟩ := reserve_grows t v k hcap hsz (by omega) hm
        rw [e] at hr
        cases hr
        exact ⟨by omega, by omega, by omega⟩
      · rw [reserve_too_long t v k (by omega) (by omega)] at hr
        cases hr
  constructor
  · intro h
    by_cases hk : k ≤ v.capacity
    · exact ⟨v, reserve_noop t v k hk⟩
    · obtain ⟨v2, e, _⟩ := reserve_grows t v k hcap hsz (by omega) (by omega)
      exact ⟨v2, e⟩
  · intro v1 hr j hj
    obtain ⟨c1, s1, k1⟩ := key v1 hr
    have hl : (xs.take j).length = j := by
      simp only [List.length_take]
      omega
    obtain ⟨vj, e, c, h, b, s, l, _⟩ := push_backs_within_capacity t (xs.take j) v1 c1
      (by omega)
    refine ⟨vj, e, c, by simp only [allocations, h], b, by omega, ?_⟩
    rw [l]
    simp [live, s1]

/-- C12 at `k = 3` on an empty `vector<int>`. -/
theorem reserve_then_push_backs_keep_capacity_witness :
    (Valid (empty : vector Int) ∧ (empty : vector Int).size = 0 ∧
      [(1 : Int), 2, 3].length = 3) ∧
    (((3 ≤ (empty : vector Int).capacity ∨ 3 ≤ max_size int_traits) →
        ∃ v1, reserve int_traits (empty : vector Int) 3 = .ok v1) ∧
      ∀ v1, reserve int_traits (empty : vector Int) 3 = .ok v1 →
        ∀ j, j ≤ 3 →
          ∃ vj, run int_traits v1 (([(1 : Int), 2, 3].take j).map Op.push_back) = .ok vj ∧
            vj.capacity = v1.capacity ∧ allocations vj = allocations v1 ∧
            vj.begin_ = v1.begin_ ∧ vj.size = j ∧
            live vj = ([(1 : Int), 2, 3].take j).map some) :=
  ⟨⟨by decide, rfl, rfl⟩,
    reserve_then_push_backs_keep_capacity int_traits empty 3 [1, 2, 3] (by decide) rfl rfl⟩

/-- C13: for every `size`, `capacity` and `required`,
`default_expansion_policy::grow_capacity` returns exactly `required`, and
`geometric_int_expansion_policy<k>::grow_capacity` returns
`max(required, (max(capacity, 1) * k) mod 2^64)`; both results are at least `required`,
also when the multiplication wraps around. -/
theorem grow_capacity_contract (k size capacity required : Nat) :
    default_expansion_policy.grow_capacity size capacity required = required ∧
    geometric_int_expansion_policy.grow_capacity k size capacity required =
      max required ((max capacity 1 * k) % containers.SIZE_T_MOD) ∧
    required ≤ default_expansion_policy.grow_capacity size capacity required ∧
    required ≤ geometric_int_expansion_policy.grow_capacity k size capacity required := by
  have hm : (if capacity ≠ 0 then capacity else 1) = max capacity 1 := by
    split_ifs <;> omega
  have e : geometric_int_expansion_policy.grow_capacity k size capacity required =
      max required ((max capacity 1 * k) % containers.SIZE_T_MOD) := by
    simp only [geometric_int_expansion_policy.grow_capacity, hm]
    split_ifs <;> omega
  refine ⟨rfl, e, Nat.le_refl _, ?_⟩
  rw [e]
  exact Nat.le_max_left _ _

/-- C14: for every `real::vector` with element sequence `xs` and indices
`f <= l <= size()`, `erase(begin() + f, begin() + l)` leaves the elements equal to
`take f xs ++ drop l xs`, reduces the size by `l - f`, leaves the capacity unchanged
and returns the iterator at index `f`, an empty range changing nothing; and for every
`i < size()`, `erase(begin() + i)` gives the same state and iterator as
`erase(begin() + i, begin() + i + 1)`. -/
theorem erase_range_contract (v : vector α) (xs : List α) (f l : Nat) (hv : Valid v)
    (hxs : live v = xs.map some) (hfl : f ≤ l) (hl : l ≤ v.size) :
    (∃ v1, erase_range v f l = .ok (v1, f) ∧ live v1 = (xs.take f ++ xs.drop l).map some ∧
      v1.size = v.size - (l - f) ∧ v1.capacity = v.capacity ∧ (f = l → v1 = v)) ∧
    ∀ i, i < v.size → erase v i = erase_range v i (i + 1) := by
  obtain ⟨hcap, hsz, _⟩ := hv
  constructor
  · by_cases h : f = l
    · subst h
      refine ⟨v, by simp [erase_range], ?_, by omega, rfl, fun _ => rfl⟩
      rw [List.take_append_drop, hxs]
    · obtain ⟨v1, e, s, c, _, _, lv⟩ := erase_range_removes v f l hcap hsz (by omega) hl
      refine ⟨v1, e, ?_, s, c, fun h1 => absurd h1 h⟩
      rw [lv, hxs, List.map_append, List.map_take, List.map_drop]
  · intro i hi
    exact erase_eq_erase_range v i hcap hsz hi

/-- C14 at `[1, 2, 3, 4]`, erasing the indices `1` and `2`. -/
theorem erase_range_contract_witness :
    (Valid four_of_four ∧ live four_of_four = [(1 : Int), 2, 3, 4].map some ∧ 1 ≤ 3 ∧
      3 ≤ four_of_four.size) ∧
    ((∃ v1, erase_range four_of_four 1 3 = .ok (v1, 1) ∧
        live v1 = ([(1 : Int), 2, 3, 4].take 1 ++ [(1 : Int), 2, 3, 4].drop 3).map some ∧
        v1.size = four_of_four.size - (3 - 1) ∧ v1.capacity = four_of_four.capacity ∧
        (1 = 3 → v1 = four_of_four)) ∧
      ∀ i, i < four_of_four.size → erase four_of_four i = erase_range four_of_four i (i + 1)) :=
  ⟨⟨by decide, by decide, by decide, by decide⟩,
    erase_range_contract four_of_four [1, 2, 3, 4] 1 3 (by decide) (by decide) (by decide)
      (by decide)⟩

/-- C15 (diverges): on `[1, 2, 3]` with capacity `8` the count overload
`insert(begin() + 1, 2, 9)` leaves the elements `[1, 9, 9]` with size `3`, where
`take 1 xs ++ replicate 2 9 ++ drop 1 xs` is `[1, 9, 9, 2, 3]`; `insert(end(), 2, 9)`
leaves `[1, 2, 3]` with size `3` instead of appending; and on the full `[1, 2, 3, 4]`
the call reaches the statement that adds two pointers. -/
theorem insert_count_departs_from_list :
    (∃ v1, insert_count three_of_eight 1 2 9 = .ok v1 ∧ live v1 = [(1 : Int), 9, 9].map some ∧
      v1.size = 3 ∧ v1.capacity = 8) ∧
    [(1 : Int), 2, 3].take 1 ++ List.replicate 2 9 ++ [(1 : Int), 2, 3].drop 1 =
      [1, 9, 9, 2, 3] ∧
    (∃ v1, insert_count three_of_eight 3 2 9 = .ok v1 ∧ live v1 = [(1 : Int), 2, 3].map some ∧
      v1.size = 3) ∧
    insert_count four_of_four 1 2 9 = .error .ill_formed := by
  refine ⟨⟨{ three_of_eight with
              mem := [some 1, some 9, some 9, none, some 3, none, none, none] },
            by decide, by decide, by decide, by decide⟩, by decide,
          ⟨{ three_of_eight with
              mem := [some 1, some 2, some 3, some 9, some 9, none, none, none] },
            by decide, by decide, by decide⟩, by decide⟩

/-- On the full `[1, 2, 3, 4]` of a vector whose allocator reports `max_size() == 5`,
`insert_range(begin() + 1, first, last, policy)` with the range `7, 8` and the doubling
policy asks `reserve` for capacity `8` and throws `length_error`, on either branch of
the iterator-category test; the elements are not `[1, 7, 8, 2, 3, 4]`. -/
theorem insert_range_can_throw :
    Valid four_of_four ∧ live four_of_four = [(1 : Int), 2, 3, 4].map some ∧
    insert_range small_allocator_traits true (geometric_int_expansion_policy.grow_capacity 2)
      four_of_four 1 [7, 8] = .error .length_error ∧
    insert_range small_allocator_traits false (geometric_int_expansion_policy.grow_capacity 2)
      four_of_four 1 [7, 8] = .error .length_error := by
  refine ⟨by decide, by decide, by decide, by decide⟩

/-- What the private `insert_range` does when it is passed a policy: for every
`real::vector` with element sequence `xs`, every index `i <= size()`, every growth
policy that returns at least the required capacity and every range `rs` outside the
vector with `size() + |rs| <= PTRDIFF_MAX`,
`insert_range(begin() + i, first, last, policy)`, on either branch of its
iterator-category test, is a no-op returning the iterator at index `i` when the range is
empty; it either throws `length_error` or returns with the elements equal to
`take i xs ++ rs ++ drop i xs` and size `|xs| + |rs|`; it throws only when `rs`
exceeds the spare capacity and the growth request exceeds `max_size()`; and when `rs`
fits the spare capacity it returns the iterator at index `i` of the unchanged
buffer. -/
theorem insert_range_contract (t : Traits) (random_access : Bool)
    (policy : Nat → Nat → Nat → Nat) (v : vector α) (xs : List α) (i : Nat) (rs : List α)
    (hv : Valid v) (hxs : live v = xs.map some) (hi : i ≤ v.size)
    (hp : ∀ s c r, r ≤ policy s c r) (hb : v.size + rs.length ≤ PTRDIFF_MAX) :
    (rs = [] → insert_range t random_access policy v i rs = .ok (v, (v.begin_, i))) ∧
    (insert_range t random_access policy v i rs = .error .length_error ∨
      ∃ v1 it, insert_range t random_access policy v i rs = .ok (v1, it) ∧
        live v1 = (xs.take i ++ rs ++ xs.drop i).map some ∧ v1.size = v.size + rs.length) ∧
    (insert_range t random_access policy v i rs = .error .length_error →
      v.capacity < v.size + rs.length ∧
      (random_access = true →
        max_size t < policy v.size v.capacity (v.capacity + rs.length)) ∧
      (random_access = false → max_size t < 2 * (v.size + rs.length))) ∧
    (v.size + rs.length ≤ v.capacity →
      ∃ v1, insert_range t random_access policy v i rs = .ok (v1, (v1.begin_, i)) ∧
        v1.capacity = v.capacity) := by
  have hlen : (xs.map some).length = v.size := by
    rw [← hxs]
    exact live_length v hv
  cases rs with
  | nil =>
    refine ⟨fun _ => rfl, Or.inr ⟨v, (v.begin_, i), rfl, ?_, rfl⟩, ?_, fun _ => ⟨v, rfl, rfl⟩⟩
    · rw [List.append_nil, List.take_append_drop, hxs]
    · intro h
      simp [insert_range] at h
  | cons r rs =>
    have hsz := hv.2.1
    rcases insert_range_append_spec t random_access policy v (r :: rs) hv hp hb with
      ⟨e, h1, h2, h3⟩ | ⟨v2, e, s2, c2, l2, _, hsz2, hfit⟩
    · have he : insert_range t random_access policy v i (r :: rs) = .error .length_error := by
        simp only [insert_range, e]
      refine ⟨(fun h => by cases h), Or.inl he, fun _ => ⟨h1, h2, h3⟩, ?_⟩
      intro h
      omega
    · rw [hxs] at l2
      obtain ⟨m, em, _, lm⟩ := insert_range_rotate v2 (xs.map some) ((r :: rs).map some) i c2
        (by rw [s2, hlen, List.length_map]) hsz2 l2 (by omega)
      rw [hlen] at em
      have he : insert_range t random_access policy v i (r :: rs) =
          .ok ({ v2 with mem := m }, (v.begin_, i)) := by
        simp only [insert_range, e, em]
      refine ⟨(fun h => by cases h), Or.inr ⟨_, _, he, ?_, s2⟩, ?_, ?_⟩
      · rw [lm, List.map_append, List.map_append, List.map_take, List.map_drop]
      · intro h
        rw [he] at h
        cases h
      · intro h
        obtain ⟨c3, b3, _⟩ := hfit h
        refine ⟨{ v2 with mem := m }, ?_, c3⟩
        rw [he, ← b3]

/-- At the full `[1, 2, 3, 4]` of a `vector<int>`, `insert_range` of the range `7, 8` at
index `1` with the doubling policy returns with `[1, 7, 8, 2, 3, 4]`. -/
theorem insert_range_contract_witness :
    (Valid four_of_four ∧ live four_of_four = [(1 : Int), 2, 3, 4].map some ∧
      1 ≤ four_of_four.size ∧
      (∀ s c r, r ≤ geometric_int_expansion_policy.grow_capacity 2 s c r) ∧
      four_of_four.size + [(7 : Int), 8].length ≤ PTRDIFF_MAX) ∧
    ∃ v1 it, insert_range int_traits true (geometric_int_expansion_policy.grow_capacity 2)
        four_of_four 1 [7, 8] = .ok (v1, it) ∧
      live v1 = ([(1 : Int), 2, 3, 4].take 1 ++ [7, 8] ++ [(1 : Int), 2, 3, 4].drop 1).map some ∧
      v1.size = four_of_four.size + [(7 : Int), 8].length := by
  have hp : ∀ s c r, r ≤ geometric_int_expansion_policy.grow_capacity 2 s c r := by
    intro s c r
    unfold geometric_int_expansion_policy.grow_capacity
    simp only
    split_ifs <;> omega
  refine ⟨⟨by decide, by decide, by decide, hp, by decide⟩, ?_⟩
  rcases (insert_range_contract int_traits true (geometric_int_expansion_policy.grow_capacity 2)
    four_of_four [1, 2, 3, 4] 1 [7, 8] (by decide) (by decide) (by decide) hp (by decide)).2.1
    with h | h
  · exact absurd h (by decide)
  · exact h

/-- On the full `[1, 2, 3, 4]`, `insert_range` of the range `7, 8` at index `1`
reallocates: the iterator it returns was computed on entry and points into the old
buffer `1`, while the vector now owns buffer `2`. -/
theorem insert_range_returns_entry_iterator :
    ∃ v1, insert_range int_traits true (geometric_int_expansion_policy.grow_capacity 2)
        four_of_four 1 [7, 8] = .ok (v1, (some 1, 1)) ∧
      v1.begin_ = some 2 ∧ four_of_four.begin_ = some 1 :=
  ⟨{ begin_ := some 2,
     mem := [some 1, some 7, some 8, some 2, some 3, some 4, none, none], size := 6,
     capacity := 8, heap := [.allocate 1 4, .allocate 2 8, .deallocate 1 4] },
    by decide, rfl, rfl⟩

/-- C16: the range insert `insert(begin() + 1, first, last)` is
`return insert_range(pos, first, last);`, a call with three arguments of a function
with four parameters, so no call of it compiles.  `insert_range` itself, given the
range `7, 8`, index `1` and the doubling policy on the full `[1, 2, 3, 4]`, leaves
`[1, 7, 8, 2, 3, 4]` in the new buffer `2` but returns the iterator it computed on
entry, which points into the deallocated buffer `1`, on either branch of its
iterator-category test. -/
theorem range_insert_does_not_compile :
    insert_first_last four_of_four 1 [7, 8] = .error .ill_formed ∧
    four_of_four.begin_ = some 1 ∧
    insert_range int_traits true (geometric_int_expansion_policy.grow_capacity 2)
        four_of_four 1 [7, 8] =
      .ok ({ begin_ := some 2,
             mem := [some 1, some 7, some 8, some 2, some 3, some 4, none, none], size := 6,
             capacity := 8, heap := [.allocate 1 4, .allocate 2 8, .deallocate 1 4] },
           (some 1, 1)) ∧
    insert_range int_traits false (geometric_int_expansion_policy.grow_capacity 2)
        four_of_four 1 [7, 8] =
      .ok ({ begin_ := some 2,
             mem := [some 1, some 7, some 8, some 2, some 3, some 4, none, none], size := 6,
             capacity := 8, heap := [.allocate 1 4, .allocate 2 8, .deallocate 1 4] },
           (some 1, 1)) := by
  decide

/-- C17: for every `real::vector`, whatever it held, `assign(count, value)` returns
and leaves size `count` with every element equal to `value`, and
`assign(first, last)` (on either branch of its iterator-category test) returns and
leaves the elements of the source range; the new capacity is the maximum of the old
capacity and the new size. -/
theorem assign_contract (random_access : Bool) (v : vector α) (count : Nat) (x : α)
    (rs : List α) (hv : Valid v) :
    (∃ v1, assign_fill v count x = .ok v1 ∧ v1.size = count ∧
      live v1 = List.replicate count (some x) ∧ v1.capacity = max v.capacity count) ∧
    (∃ v1, assign_range random_access v rs = .ok v1 ∧ v1.size = rs.length ∧
      live v1 = rs.map some ∧ v1.capacity = max v.capacity rs.length) := by
  obtain ⟨hcap, hsz, _⟩ := hv
  obtain ⟨v1, e1, s1, l1, c1, _⟩ := assign_fill_spec v count x hcap hsz
  obtain ⟨v2, e2, s2, l2, c2, _⟩ := assign_range_spec random_access v rs hcap hsz
  exact ⟨⟨v1, e1, s1, l1, c1⟩, ⟨v2, e2, s2, l2, c2⟩⟩

/-- C17 at the full `[1, 2, 3, 4]`: `assign(6, 9)` and `assign` of the range `7, 8`. -/
theorem assign_contract_witness :
    Valid four_of_four ∧
    (∃ v1, assign_fill four_of_four 6 9 = .ok v1 ∧ v1.size = 6 ∧
      live v1 = List.replicate 6 (some 9) ∧ v1.capacity = max four_of_four.capacity 6) ∧
    (∃ v1, assign_range false four_of_four [7, 8] = .ok v1 ∧ v1.size = [(7 : Int), 8].length ∧
      live v1 = [(7 : Int), 8].map some ∧
      v1.capacity = max four_of_four.capacity [(7 : Int), 8].length) :=
  ⟨by decide, assign_contract false four_of_four 6 9 [7, 8] (by decide)⟩

/-- C18: for every `real::vector`, `shrink_to_fit()` returns and leaves
`capacity() == size()` with the element sequence unchanged and the state valid; if
the vector was empty with storage for at least one element, that storage is
deallocated and the vector is left with null `begin` and `end` and capacity `0`. -/
theorem shrink_to_fit_contract (v : vector α) (hv : Valid v) :
    ∃ v1, shrink_to_fit v = .ok v1 ∧ v1.capacity = v1.size ∧ v1.size = v.size ∧
      live v1 = live v ∧ Valid v1 ∧
      (v.size = 0 → 0 < v.capacity →
        v1.begin_ = none ∧ v1.size = 0 ∧ v1.capacity = 0 ∧
          ∃ p, v.begin_ = some p ∧ v1.heap = v.heap ++ [.deallocate p v.capacity]) := by
  obtain ⟨hcap, hsz, hpd, hnull, hlive⟩ := hv
  by_cases h : v.size = v.capacity
  · refine ⟨v, by simp [shrink_to_fit, h], h.symm, rfl, rfl, ⟨hcap, hsz, hpd, hnull, hlive⟩, ?_⟩
    intro h0 h1
    omega
  · by_cases h0 : v.size = 0
    · cases hb : v.begin_ with
      | none =>
        have := hnull hb
        omega
      | some p =>
        refine ⟨{ begin_ := none, mem := [], size := 0, capacity := 0,
                  heap := v.heap ++ [.deallocate p v.capacity] }, ?_, rfl, h0.symm, ?_, ?_, ?_⟩
        · simp only [shrink_to_fit, ne_eq, h, not_false_eq_true, if_true, if_pos h0,
            cleanup_spec v p hcap hsz hb]
        · simp [live, h0]
        · exact ⟨rfl, Nat.le_refl _, Nat.zero_le _, fun _ => rfl, by simp [live]⟩
        · intro _ _
          exact ⟨rfl, rfl, rfl, p, rfl, rfl⟩
    · obtain ⟨v1, e, c, s, l, m, b⟩ := unchecked_reserve_spec v v.size hcap hsz
      rw [Nat.max_self] at c m
      refine ⟨v1, ?_, by omega, s, l, ⟨by omega, by omega, by omega, ?_, ?_⟩, ?_⟩
      · simp only [shrink_to_fit, ne_eq, h, not_false_eq_true, if_true, if_neg h0, e]
      · intro hn
        rw [b] at hn
        cases hn
      · rw [l]
        exact hlive
      · intro h1
        omega

/-- C18 at `[1, 2, 3]` with capacity `8`. -/
theorem shrink_to_fit_contract_witness :
    Valid three_of_eight ∧
    ∃ v1, shrink_to_fit three_of_eight = .ok v1 ∧ v1.capacity = v1.size ∧
      v1.size = three_of_eight.size ∧ live v1 = live three_of_eight ∧ Valid v1 ∧
      (three_of_eight.size = 0 → 0 < three_of_eight.capacity →
        v1.begin_ = none ∧ v1.size = 0 ∧ v1.capacity = 0 ∧
          ∃ p, three_of_eight.begin_ = some p ∧
            v1.heap = three_of_eight.heap ++ [.deallocate p three_of_eight.capacity]) :=
  ⟨by decide, shrink_to_fit_contract three_of_eight (by decide)⟩

/-- C20 (diverges): with `a` empty and `b` holding `[1, 2]` in the buffer `1` of capacity
`4`, `a = std::move(b)` leaves `a` with that buffer, the elements `[1, 2]`, size `2`
and capacity `4`, and leaves `b` exactly as it was: `b` still has size `2`, capacity
`4` and the same buffer as `a`, and the destructor of each of them deallocates
buffer `1`. -/
theorem move_assign_leaves_source_owning :
    ∃ a1 b1, move_assign (empty : vector Int) two_of_four = .ok (a1, b1) ∧
      live a1 = [(1 : Int), 2].map some ∧ a1.size = 2 ∧ a1.capacity = 4 ∧
      a1.begin_ = some 1 ∧ b1 = two_of_four ∧ b1.begin_ = a1.begin_ ∧ b1.size = 2 ∧
      b1.capacity = 4 ∧
      ∃ a2 b2, cleanup a1 = .ok a2 ∧ cleanup b1 = .ok b2 ∧
        a2.heap = [.deallocate 1 4] ∧ b2.heap = [.allocate 1 4, .deallocate 1 4] :=
  ⟨{ two_of_four with heap := [] }, two_of_four, by decide, by decide, by decide, by decide,
    by decide, rfl, by decide, by decide, by decide,
    { begin_ := none, mem := [], size := 0, capacity := 0, heap := [.deallocate 1 4] },
    { begin_ := none, mem := [], size := 0, capacity := 0,
      heap := [.allocate 1 4, .deallocate 1 4] },
    by decide, by decide, by decide, by decide⟩

/-- C21: for every `real::vector` and every `n`, `reserve(n)` throws `length_error`
exactly when `n > capacity()` and `n > max_size()`, whatever the element constructors
do (`budget`); at that throw every member, hence size, capacity and elements, is what
it was before the call; and in every other case the call, on an element type whose
constructors do not throw, returns. -/
theorem reserve_length_error (t : Traits) (v : vector α) (n budget : Nat) (hv : Valid v) :
    (reserve t v n = .error .length_error ↔ v.capacity < n ∧ max_size t < n) ∧
    ((reserve_throwing t v n budget).2 = some .length_error ↔
      v.capacity < n ∧ max_size t < n) ∧
    ((reserve_throwing t v n budget).2 = some .length_error →
      (reserve_throwing t v n budget).1 = v) ∧
    (¬ (v.capacity < n ∧ max_size t < n) → ∃ v1, reserve t v n = .ok v1) := by
  obtain ⟨hcap, hsz, _⟩ := hv
  have hok : ¬ (v.capacity < n ∧ max_size t < n) → ∃ v1, reserve t v n = .ok v1 := by
    intro h
    by_cases h1 : v.capacity < n
    · obtain ⟨v1, e, _⟩ := reserve_grows t v n hcap hsz h1 (by omega)
      exact ⟨v1, e⟩
    · exact ⟨v, reserve_noop t v n (by omega)⟩
  refine ⟨⟨?_, fun h => reserve_too_long t v n h.1 h.2⟩, ⟨?_, ?_⟩, ?_, hok⟩
  · intro h
    by_contra hc
    obtain ⟨v1, e⟩ := hok hc
    rw [e] at h
    cases h
  · intro h
    rcases reserve_throwing_cases t v n budget with ⟨h1, h2, _⟩ | ⟨h1, _, _⟩
    · exact ⟨h1, h2⟩
    · exact absurd h h1
  · intro h
    rcases reserve_throwing_cases t v n budget with ⟨_, _, e⟩ | ⟨_, h2, _⟩
    · rw [e]
    · exact absurd h h2
  · intro h
    rcases reserve_throwing_cases t v n budget with ⟨_, _, e⟩ | ⟨h1, _, _⟩
    · rw [e]
    · exact absurd h h1

/-- C21 at the full `[1, 2, 3, 4]`: with an allocator of `max_size() == 5`, `reserve(8)`
throws and changes nothing. -/
theorem reserve_length_error_witness :
    Valid four_of_four ∧
    ((reserve small_allocator_traits four_of_four 8 = .error .length_error ↔
        four_of_four.capacity < 8 ∧ max_size small_allocator_traits < 8) ∧
      ((reserve_throwing small_allocator_traits four_of_four 8 4).2 = some .length_error ↔
        four_of_four.capacity < 8 ∧ max_size small_allocator_traits < 8) ∧
      ((reserve_throwing small_allocator_traits four_of_four 8 4).2 = some .length_error →
        (reserve_throwing small_allocator_traits four_of_four 8 4).1 = four_of_four) ∧
      (¬ (four_of_four.capacity < 8 ∧ max_size small_allocator_traits < 8) →
        ∃ v1, reserve small_allocator_traits four_of_four 8 = .ok v1)) ∧
    reserve_throwing small_allocator_traits four_of_four 8 4 =
      (four_of_four, some .length_error) :=
  ⟨by decide, reserve_length_error small_allocator_traits four_of_four 8 4 (by decide),
    by decide⟩

/-- C22: for every `real::vector` with element sequence `xs` and every index `pos`,
`at(pos)` throws `out_of_range` if and only if `pos >= size()`; otherwise it returns
the element at index `pos`; and in both cases the vector is what it was. -/
theorem at_contract (v : vector α) (xs : List α) (pos : Nat) (hv : Valid v)
    (hxs : live v = xs.map some) :
    ((at_ v pos).2 = .error .out_of_range ↔ v.size ≤ pos) ∧
    (pos < v.size → ∃ x, xs[pos]? = some x ∧ (at_ v pos).2 = .ok x) ∧
    (at_ v pos).1 = v := by
  have hlen : xs.length = v.size := by
    rw [← live_length v hv, hxs, List.length_map]
  have hget : pos < v.size → ∃ x, xs[pos]? = some x ∧ v.mem[pos]? = some (some x) := by
    intro hp
    have h1 : (live v)[pos]? = v.mem[pos]? := by rw [live_get, if_pos hp]
    refine ⟨xs[pos], List.getElem?_eq_getElem (by omega), ?_⟩
    rw [← h1, hxs, List.getElem?_map, List.getElem?_eq_getElem (by omega)]
    rfl
  refine ⟨⟨?_, ?_⟩, ?_, ?_⟩
  · intro h
    by_contra hc
    obtain ⟨x, _, e⟩ := hget (by omega)
    have hp : pos < v.size := by omega
    simp [at_, hp, e] at h
  · intro h
    have hp : ¬ pos < v.size := by omega
    simp [at_, hp]
  · intro hp
    obtain ⟨x, e1, e2⟩ := hget hp
    exact ⟨x, e1, by simp [at_, hp, e2]⟩
  · by_cases hp : pos < v.size
    · obtain ⟨x, _, e2⟩ := hget hp
      simp [at_, hp, e2]
    · simp [at_, hp]

/-- C22 at `[1, 2, 3, 4]` and index `2`. -/
theorem at_contract_witness :
    (Valid four_of_four ∧ live four_of_four = [(1 : Int), 2, 3, 4].map some) ∧
    (((at_ four_of_four 2).2 = .error .out_of_range ↔ four_of_four.size ≤ 2) ∧
      (2 < four_of_four.size →
        ∃ x, [(1 : Int), 2, 3, 4][2]? = some x ∧ (at_ four_of_four 2).2 = .ok x) ∧
      (at_ four_of_four 2).1 = four_of_four) ∧
    (at_ four_of_four 2).2 = .ok 3 ∧ (at_ four_of_four 4).2 = .error .out_of_range :=
  ⟨⟨by decide, by decide⟩,
    at_contract four_of_four [1, 2, 3, 4] 2 (by decide) (by decide), by decide, by decide⟩

/-- C23 (diverges): on the full `[1, 2, 3, 4]` in buffer `1`, with an element type whose
constructor throws at the third construction of the call, `emplace(begin() + 1, 9)`
returns without an exception; the new buffer `2` is deallocated, then the old buffer
`1` is deallocated too, and the vector is left with `begin()` in the freed buffer
`2`, size `5` and capacity `8`.  `reserve(8)` on the same vector lets the exception
through, deallocates the new buffer and leaves every member as it was. -/
theorem emplace_reallocation_swallows_exception :
    emplace_reallocating four_of_four 1 9 2 =
      ({ begin_ := some 2, mem := [], size := 5, capacity := 8,
         heap := [.allocate 1 4, .allocate 2 8, .deallocate 2 8, .deallocate 1 4] }, none) ∧
    (four_of_four.begin_ = some 1 ∧ four_of_four.size = 4 ∧ four_of_four.capacity = 4) ∧
    reserve_throwing int_traits four_of_four 8 2 =
      ({ four_of_four with heap := [.allocate 1 4, .allocate 2 8, .deallocate 2 8] },
        some .element_exception) := by
  refine ⟨by decide, by decide, by decide⟩

/-- C36, counterexample: the full vector `[1, 2, 3, 4]` (size and capacity `4`) and
`insert(begin() + 1, 9)`: the call returns with capacity `8`, not `4 + 1`. -/
theorem insert_full_not_exact_fit :
    (four_of_four.size = four_of_four.capacity ∧ 1 ≤ four_of_four.capacity ∧
      1 < four_of_four.size) ∧
    (∃ v1, insert int_traits four_of_four 1 (.outside 9) = .ok (v1, 1) ∧ v1.capacity = 8) ∧
    ¬ ∃ v1 it, insert int_traits four_of_four 1 (.outside 9) = .ok (v1, it) ∧
      v1.capacity = four_of_four.size + 1 := by
  have h : insert int_traits four_of_four 1 (.outside 9) =
      .ok ({ begin_ := some 2, mem := [some 1, some 9, some 2, some 3, some 4, none, none, none],
             size := 5, capacity := 8,
             heap := [.allocate 1 4, .allocate 2 8, .deallocate 1 4] }, 1) := by decide
  refine ⟨by decide, ⟨_, h, rfl⟩, ?_⟩
  rintro ⟨v1, it, h1, hc⟩
  rw [h] at h1
  cases h1
  revert hc
  decide

/-- C36, amended: for every full vector (`size() == capacity() >= 1`) and every position
before `end()`, `insert(pos, value)` returns an iterator to `pos` in new storage of twice
the old capacity (the doubling policy asked for `capacity() + 1`), holding the old
elements with the value at `pos`; the new capacity is old size `+ 1` exactly when the
old size is `1`.  The argument is an object outside the vector's storage or one of its
elements, `x` is its value. -/
theorem insert_full_doubles_capacity (t : Traits) (v : vector α) (i : Nat)
    (r : containers.const_reference α) (x : α) (hr : load v.mem r = some x)
    (hv : Valid v) (hs : v.size = v.capacity) (hc : 1 ≤ v.capacity) (hi : i < v.size) :
    ∃ v1, insert t v i r = .ok (v1, i) ∧ v1.capacity = 2 * v.size ∧
      v1.size = v.size + 1 ∧
      live v1 = (live v).take i ++ [some x] ++ (live v).drop i ∧
      v1.begin_ = some (fresh_ptr v) ∧
      (v1.capacity = v.size + 1 ↔ v.size = 1) := by
  obtain ⟨v1, e, h1, h2, h3, _, h5⟩ := emplace_realloc t v i r x hr hv hs hc hi
  refine ⟨v1, e, by omega, h1, h3, h5, ?_⟩
  constructor <;> intro h <;> omega

/-- C36, amended, at the full vector `[1, 2, 3, 4]` and `insert(begin() + 1, v[2])`. -/
theorem insert_full_doubles_capacity_witness :
    (load four_of_four.mem (.element 2) = some 3 ∧ Valid four_of_four ∧
      four_of_four.size = four_of_four.capacity ∧
      1 ≤ four_of_four.capacity ∧ 1 < four_of_four.size) ∧
    ∃ v1, insert int_traits four_of_four 1 (.element 2) = .ok (v1, 1) ∧
      v1.capacity = 2 * four_of_four.size ∧ v1.size = four_of_four.size + 1 ∧
      live v1 = (live four_of_four).take 1 ++ [some 3] ++ (live four_of_four).drop 1 ∧
      v1.begin_ = some (fresh_ptr four_of_four) ∧
      (v1.capacity = four_of_four.size + 1 ↔ four_of_four.size = 1) :=
  ⟨by decide, insert_full_doubles_capacity int_traits four_of_four 1 (.element 2) 3 (by decide)
    (by decide) (by decide) (by decide) (by decide)⟩

open containers (SIZE_T_MOD loop_fuel store store_eq_some slot_congr const_reference)

theorem uncorrupted_of_block (v : vector α) (hb : v.begin_ ≠ none) (hs : v.size ≤ v.capacity) :
    uncorrupted v = true := by
  cases h : v.begin_ with
  | none => exact absurd h hb
  | some p => simp [uncorrupted, h, hs]

theorem uncorrupted_same_block (v v1 : vector α) (hu : uncorrupted v = true)
    (hb : v1.begin_ = v.begin_) (hc : v1.capacity = v.capacity) (hs : v1.size ≤ v1.capacity) :
    uncorrupted v1 = true := by
  cases h : v.begin_ with
  | none =>
    simp [uncorrupted, h] at hu
    have h1 : v1.size = 0 := by omega
    simp [uncorrupted, hb, h, h1, hc, hu.2]
  | some p =>
    exact uncorrupted_of_block v1 (by rw [hb, h]; simp) hs

theorem uncorrupted_of_Valid (v : vector α) (hv : Valid v) : uncorrupted v = true := by
  obtain ⟨_, hsz, _, hnull, _⟩ := hv
  cases h : v.begin_ with
  | none =>
    have := hnull h
    have h1 : v.size = 0 := by omega
    simp [uncorrupted, h, h1, this]
  | some p => simp [uncorrupted, h, hsz]

theorem uncorrupted_size_le (v : vector α) (hu : uncorrupted v = true) :
    v.size ≤ v.capacity ∧ (v.begin_ = none → v.capacity = 0) := by
  cases h : v.begin_ with
  | none =>
    simp [uncorrupted, h] at hu
    exact ⟨by omega, fun _ => hu.2⟩
  | some p =>
    simp [uncorrupted, h] at hu
    exact ⟨hu, fun h2 => by cases h2⟩

theorem emplace_back_outcome (t : Traits) (v : vector α) (x : α) (hv : Valid v) :
    (∃ v1, emplace_back t v (.outside x) = .ok (v1, v.size) ∧ uncorrupted v1 = true ∧
        v1.capacity = v1.mem.length) ∨
      emplace_back t v (.outside x) = .error .length_error := by
  have hu := uncorrupted_of_Valid v hv
  obtain ⟨hcap, hsz, hpd, hnull, _⟩ := hv
  by_cases hs : v.size < v.capacity
  · have hf : full v = false := by simp [full]; omega
    have hl : v.size < v.mem.length := by omega
    left
    refine ⟨{ v with mem := v.mem.set v.size (some x), size := v.size + 1 }, ?_, ?_, ?_⟩
    · simp [emplace_back, load_after, hf, store_eq_some _ _ _ hl]
    · exact uncorrupted_same_block v _ hu rfl rfl (by simpa using hs)
    · simpa using hcap
  · have hf : full v = true := by simp [full]; omega
    have hg := grow_twice v.size v.capacity hpd
    by_cases hm : 2 * max v.capacity 1 ≤ max_size t
    · obtain ⟨vr, er, c, s, _, ml, _, b⟩ := reserve_grows t v (2 * max v.capacity 1) hcap hsz
        (by omega) hm
      have hl : vr.size < vr.mem.length := by omega
      have hst := store_eq_some vr.mem vr.size (some x) hl
      rw [s] at hst
      left
      refine ⟨{ vr with mem := vr.mem.set vr.size (some x), size := vr.size + 1 }, ?_, ?_, ?_⟩
      · simp only [emplace_back, load_after, hf, if_true, hg, er, hst, s]
      · apply uncorrupted_of_block
        · simp [b]
        · show vr.size + 1 ≤ vr.capacity
          omega
      · simp [c, ml]
    · right
      have e := reserve_too_long t v (2 * max v.capacity 1) (by omega) (by omega)
      simp [emplace_back, load_after, hf, hg, e]

theorem pop_back_outcome (v : vector α) (hv : Valid v) :
    ∃ v1, pop_back v = .ok v1 ∧ uncorrupted v1 = true ∧ v1.capacity = v1.mem.length ∧
      v1.size = v.size - 1 ∧ v1.capacity = v.capacity := by
  have hu := uncorrupted_of_Valid v hv
  obtain ⟨hcap, hsz, _⟩ := hv
  by_cases h0 : v.size = 0
  · exact ⟨v, by simp [pop_back, h0], hu, hcap, by omega, rfl⟩
  · have hl : v.size - 1 < v.mem.length := by omega
    refine ⟨{ v with mem := v.mem.set (v.size - 1) none, size := v.size - 1 }, ?_, ?_, ?_, rfl, rfl⟩
    · simp [pop_back, h0, store_eq_some _ _ _ hl]
    · exact uncorrupted_same_block v _ hu rfl rfl (by show v.size - 1 ≤ v.capacity; omega)
    · simpa using hcap

theorem emplace_one_spare_undefined (t : Traits) (v : vector α) (i : Nat) (x : α)
    (hcap : v.capacity = v.mem.length) (hi : i < v.size) (hs : v.size + 1 = v.capacity) :
    emplace t v i (.outside x) = .error .undefined := by
  have h1 : v.size < v.capacity := by omega
  have h2 : ¬ i = v.size := by omega
  have h3 : v.size < v.mem.length := by omega
  have hx : v.mem[v.size]? = some (v.mem.get ⟨v.size, h3⟩) := by
    rw [List.getElem?_eq_getElem h3]
    rfl
  have hst : store v.mem (v.size + 1) (v.mem.get ⟨v.size, h3⟩) = none := by
    simp [store]; omega
  have hloop : move_construct_backward v.mem (v.size + 1) v.size v.size (loop_fuel v.mem) =
      none := by
    unfold loop_fuel
    simp only [move_construct_backward, Nat.succ_ne_self, if_false, hx, hst]
  simp only [emplace, load, if_pos h1, if_neg h2, hloop]

theorem emplace_spare_block (t : Traits) (v : vector α) (i : Nat) (x : α)
    (hcap : v.capacity = v.mem.length) (hi : i < v.size) (hs : v.size + 1 < v.capacity) :
    ∃ v1, emplace t v i (.outside x) = .ok (v1, i) ∧ v1.size = v.size ∧ v1.capacity = v.capacity ∧
      v1.begin_ = v.begin_ ∧ v1.mem.length = v.mem.length := by
  have h1 : v.size < v.capacity := by omega
  have h2 : ¬ i = v.size := by omega
  have h4 : v.size + 1 < v.mem.length := by omega
  have h5 : i < (v.mem.set (v.size + 1) (v.mem.get ⟨v.size, by omega⟩)).length := by
    simp only [List.length_set]
    omega
  have hloop := move_construct_backward_once v.mem v.size (containers.loop_fuel v.mem) h4
    (by omega) (by unfold containers.loop_fuel; omega)
  refine ⟨{ v with
      mem := (v.mem.set (v.size + 1) (v.mem.get ⟨v.size, by omega⟩)).set i (some x) },
    ?_, rfl, rfl, rfl, by simp⟩
  simp only [emplace, load, if_pos h1, if_neg h2, hloop, containers.store_eq_some _ _ _ h5]

theorem emplace_realloc_block (t : Traits) (v : vector α) (i : Nat) (x : α) (hv : Valid v)
    (hs : v.size = v.capacity) (hc : 1 ≤ v.capacity) (hi : i < v.size) :
    ∃ v1, emplace t v i (.outside x) = .ok (v1, i) ∧ v1.size = v.size + 1 ∧
      v1.capacity = 2 * v.capacity ∧ v1.begin_ = some (fresh_ptr v) ∧
      v1.mem.length = 2 * v.capacity := by
  obtain ⟨hcap, hsz, hpd, hnull, hlive⟩ := hv
  have hg := grow_twice v.size v.capacity hpd
  have hm : max v.capacity 1 = v.capacity := by omega
  rw [hm] at hg
  have h0 : i < (List.replicate (2 * v.capacity) (none : Option α)).length := by
    simp only [List.length_replicate]
    omega
  have p3 : 0 + (i - 0) ≤ ((List.replicate (2 * v.capacity) (none : Option α)).set i
      (some x)).length := by
    simp only [List.length_set, List.length_replicate]
    omega
  obtain ⟨m2, e2, l2, g2⟩ := uninitialized_copy_spec v.mem i (loop_fuel v.mem) 0
    ((List.replicate (2 * v.capacity) none).set i (some x)) 0 (Nat.zero_le _) (by omega) p3
    (by unfold loop_fuel; omega)
  have p4 : i + 1 + (v.size - i) ≤ m2.length := by
    rw [l2]
    simp only [List.length_set, List.length_replicate]
    omega
  obtain ⟨m3, e3, l3, g3⟩ := uninitialized_copy_spec v.mem v.size (loop_fuel v.mem) i
    m2 (i + 1) (by omega) (by omega) p4 (by unfold loop_fuel; omega)
  have hns : ¬ v.size < v.capacity := by omega
  have hne : ¬ i = v.size := by omega
  refine ⟨{ begin_ := some (fresh_ptr v), mem := m3, size := v.size + 1,
            capacity := 2 * v.capacity,
            heap := match v.begin_ with
              | some old_begin =>
                v.heap ++ [.allocate (fresh_ptr v) (2 * v.capacity)] ++
                  [.deallocate old_begin v.capacity]
              | none => v.heap ++ [.allocate (fresh_ptr v) (2 * v.capacity)] },
    ?_, rfl, rfl, rfl, ?_⟩
  · simp only [emplace, load, if_neg hns, if_neg hne, hg, store_eq_some _ _ _ h0, e2, e3]
  · show m3.length = 2 * v.capacity
    rw [l3, l2]
    simp

theorem emplace_outcome (t : Traits) (v : vector α) (i : Nat) (x : α) (hv : Valid v)
    (hi : i ≤ v.size) :
    (∃ v1, emplace t v i (.outside x) = .ok (v1, i) ∧ uncorrupted v1 = true ∧
        v1.capacity = v1.mem.length) ∨
      emplace t v i (.outside x) = .error .length_error ∨
      (emplace t v i (.outside x) = .error .undefined ∧ i < v.size ∧ v.size + 1 = v.capacity) := by
  have hu := uncorrupted_of_Valid v hv
  have hv0 := hv
  obtain ⟨hcap, hsz, hpd, hnull, _⟩ := hv
  by_cases hs : v.size < v.capacity
  · by_cases hie : i = v.size
    · have hl : v.size < v.mem.length := by omega
      left
      refine ⟨{ v with mem := v.mem.set v.size (some x), size := v.size + 1 }, ?_, ?_, ?_⟩
      · simp only [emplace, load, if_pos hs, if_pos hie, unchecked_emplace_back,
          store_eq_some _ _ _ hl]
      · exact uncorrupted_same_block v _ hu rfl rfl (by simpa using hs)
      · simpa using hcap
    · by_cases h2 : v.size + 1 < v.capacity
      · obtain ⟨v1, e, s, c, b, ml⟩ := emplace_spare_block t v i x hcap (by omega) h2
        left
        exact ⟨v1, e, uncorrupted_same_block v v1 hu b c (by omega), by omega⟩
      · right; right
        exact ⟨emplace_one_spare_undefined t v i x hcap (by omega) (by omega), by omega,
          by omega⟩
  · by_cases hie : i = v.size
    · rcases emplace_back_outcome t v x hv0 with ⟨v1, e, u, m⟩ | e
      · left
        refine ⟨v1, ?_, u, m⟩
        simp only [emplace, load, if_neg hs, if_pos hie, e]
      · right; left
        simp only [emplace, load, if_neg hs, if_pos hie, e]
    · obtain ⟨v1, e, s, c, b, ml⟩ := emplace_realloc_block t v i x hv0 (by omega) (by omega)
        (by omega)
      left
      refine ⟨v1, e, uncorrupted_of_block v1 (by simp [b]) (by omega), by omega⟩

theorem assign_tail_fill (v2 : vector α) (count : Nat) (x : α)
    (hc2 : v2.capacity = v2.mem.length) (hle : count ≤ v2.capacity) :
    ∃ v3, (match uninitialized_fill v2.mem 0 count x (loop_fuel v2.mem) with
        | none => (.error .undefined : Except failure (vector α))
        | some m => .ok { v2 with mem := m, size := count }) = .ok v3 ∧
      v3.size = count ∧ v3.capacity = v2.capacity ∧ v3.capacity = v3.mem.length ∧
      v3.begin_ = v2.begin_ := by
  obtain ⟨m, e, l, g⟩ := containers.fill_spec count (some x) (loop_fuel v2.mem) v2.mem 0
    (Nat.zero_le _) (by omega) (by unfold loop_fuel; omega)
  refine ⟨{ v2 with mem := m, size := count }, by simp only [uninitialized_fill, e], rfl,
    rfl, ?_, rfl⟩
  show v2.capacity = m.length
  omega

theorem assign_fill_block (v : vector α) (count : Nat) (x : α)
    (hcap : v.capacity = v.mem.length) (hsz : v.size ≤ v.capacity) :
    ∃ v1, assign_fill v count x = .ok v1 ∧ v1.size = count ∧ count ≤ v1.capacity ∧
      v1.capacity = v1.mem.length ∧
      ((v1.begin_ = v.begin_ ∧ v1.capacity = v.capacity) ∨ v1.begin_ ≠ none) := by
  obtain ⟨v1, e1, s1, c1, l1, b1, h1⟩ := clear_keeps_block v hcap hsz
  by_cases hc : count > v1.capacity
  · obtain ⟨v2, e2, s2, c2, l2, b2, _⟩ := cleared_reserve_spec v1 count (by omega) (by omega)
    obtain ⟨v3, e3, s3, c3, m3, b3⟩ := assign_tail_fill v2 count x (by omega) (by omega)
    refine ⟨v3, ?_, s3, by omega, m3, Or.inr (by rw [b3, b2]; simp)⟩
    simp only [assign_fill, e1, if_pos hc, e2]
    exact e3
  · obtain ⟨v3, e3, s3, c3, m3, b3⟩ := assign_tail_fill v1 count x (by omega) (by omega)
    refine ⟨v3, ?_, s3, by omega, m3, Or.inl ⟨by rw [b3, b1], by omega⟩⟩
    simp only [assign_fill, e1, if_neg hc]
    exact e3

theorem assign_tail_copy (random_access : Bool) (v2 : vector α) (rs : List α)
    (hc2 : v2.capacity = v2.mem.length) (hs2 : v2.size = 0) (hle : rs.length ≤ v2.capacity) :
    ∃ v3, (if random_access then
        match uninitialized_copy_range rs v2.mem v2.size with
        | none => (.error .undefined : Except failure (vector α))
        | some m => .ok { v2 with mem := m, size := rs.length }
      else unchecked_emplace_back_all v2 rs) = .ok v3 ∧
      v3.size = rs.length ∧ v3.capacity = v2.capacity ∧ v3.capacity = v3.mem.length ∧
      v3.begin_ = v2.begin_ := by
  cases random_access with
  | true =>
    obtain ⟨m, e, l, g⟩ := uninitialized_copy_range_spec rs v2.mem v2.size (by omega)
    refine ⟨{ v2 with mem := m, size := rs.length }, by simp only [if_true, e], rfl, rfl, ?_, rfl⟩
    show v2.capacity = m.length
    omega
  | false =>
    obtain ⟨v3, e, s, c, m, l, b, _⟩ := unchecked_emplace_back_all_spec rs v2 hc2 (by omega)
    exact ⟨v3, by simpa using e, by omega, c, m, b⟩

theorem assign_range_block (random_access : Bool) (v : vector α) (rs : List α)
    (hcap : v.capacity = v.mem.length) (hsz : v.size ≤ v.capacity) :
    ∃ v1, assign_range random_access v rs = .ok v1 ∧ v1.size = rs.length ∧
      rs.length ≤ v1.capacity ∧ v1.capacity = v1.mem.length ∧
      ((v1.begin_ = v.begin_ ∧ v1.capacity = v.capacity) ∨ v1.begin_ ≠ none) := by
  obtain ⟨v1, e1, s1, c1, l1, b1, h1⟩ := clear_keeps_block v hcap hsz
  by_cases hc : rs.length > v1.capacity
  · obtain ⟨v2, e2, s2, c2, l2, b2, _⟩ := cleared_reserve_spec v1 rs.length (by omega) (by omega)
    obtain ⟨v3, e3, s3, c3, m3, b3⟩ := assign_tail_copy random_access v2 rs (by omega) s2
      (by omega)
    refine ⟨v3, ?_, s3, by omega, m3, Or.inr (by rw [b3, b2]; simp)⟩
    simp only [assign_range, e1, if_pos hc, e2]
    exact e3
  · obtain ⟨v3, e3, s3, c3, m3, b3⟩ := assign_tail_copy random_access v1 rs (by omega) s1
      (by omega)
    refine ⟨v3, ?_, s3, by omega, m3, Or.inl ⟨by rw [b3, b1], by omega⟩⟩
    simp only [assign_range, e1, if_neg hc]
    exact e3

theorem uncorrupted_of_assigned (v v1 : vector α) (hu : uncorrupted v = true)
    (hs : v1.size ≤ v1.capacity)
    (hb : (v1.begin_ = v.begin_ ∧ v1.capacity = v.capacity) ∨ v1.begin_ ≠ none) :
    uncorrupted v1 = true := by
  rcases hb with ⟨b, c⟩ | b
  · exact uncorrupted_same_block v v1 hu b c hs
  · exact uncorrupted_of_block v1 b hs

theorem slots_of_objects : ∀ (l : List (Option α)), (∀ s ∈ l, s ≠ none) →
    ∃ xs : List α, l = xs.map some := by
  intro l
  induction l with
  | nil => intro _; exact ⟨[], rfl⟩
  | cons s rest ih =>
    intro h
    obtain ⟨xs, hxs⟩ := ih (fun s hs => h s (List.mem_cons_of_mem _ hs))
    cases s with
    | none => exact absurd rfl (h none (List.mem_cons_self _ _))
    | some y => exact ⟨y :: xs, by simp [hxs]⟩

theorem reserve_outcome (t : Traits) (v : vector α) (n : Nat) (hv : Valid v) :
    (∃ v1, reserve t v n = .ok v1 ∧ uncorrupted v1 = true ∧ v1.capacity = v1.mem.length) ∨
      reserve t v n = .error .length_error := by
  have hu := uncorrupted_of_Valid v hv
  obtain ⟨hcap, hsz, _⟩ := hv
  by_cases h1 : v.capacity < n
  · by_cases h2 : n ≤ max_size t
    · obtain ⟨v1, e, c, s, _, ml, _, b⟩ := reserve_grows t v n hcap hsz h1 h2
      exact Or.inl ⟨v1, e, uncorrupted_of_block v1 (by simp [b]) (by omega), by omega⟩
    · exact Or.inr (reserve_too_long t v n h1 (by omega))
  · exact Or.inl ⟨v, reserve_noop t v n (by omega), hu, hcap⟩

theorem erase_range_outcome (v : vector α) (f l : Nat) (hv : Valid v) (hfl : f ≤ l)
    (hl : l ≤ v.size) :
    ∃ v1, erase_range v f l = .ok (v1, f) ∧ uncorrupted v1 = true ∧
      v1.capacity = v1.mem.length := by
  have hu := uncorrupted_of_Valid v hv
  obtain ⟨hcap, hsz, _⟩ := hv
  by_cases h : f = l
  · exact ⟨v, by simp [erase_range, h], hu, hcap⟩
  · obtain ⟨v1, e, s, c, b, _, _⟩ := erase_range_removes v f l hcap hsz (by omega) hl
    have hml : v1.mem.length = v.mem.length := by
      have hne : f ≠ l := h
      have hbad : ¬ (l < f ∨ v.size < l) := by omega
      simp only [erase_range, ne_eq, hne, not_false_eq_true, if_true, if_neg hbad] at e
      obtain ⟨m, em, lm, _⟩ := move_down_spec v.mem (f + (l - f)) v.size f (by omega) (by omega)
        (by omega)
      obtain ⟨m1, em1, lm1, _⟩ := containers.fill_spec v.size (none : Option α) (loop_fuel v.mem) m
        (v.size - (l - f)) (by omega) (by omega) (by unfold loop_fuel; omega)
      simp only [em, destroy, em1] at e
      cases e
      show m1.length = v.mem.length
      omega
    exact ⟨v1, e, uncorrupted_same_block v v1 hu b c (by omega), by omega⟩

theorem clear_outcome (v : vector α) (hv : Valid v) :
    ∃ v1, clear v = .ok v1 ∧ uncorrupted v1 = true ∧ v1.capacity = v1.mem.length := by
  have hu := uncorrupted_of_Valid v hv
  obtain ⟨hcap, hsz, _⟩ := hv
  obtain ⟨v1, e, s, c, ml, b, _⟩ := clear_keeps_block v hcap hsz
  exact ⟨v1, e, uncorrupted_same_block v v1 hu b c (by omega), by omega⟩

theorem shrink_to_fit_outcome (v : vector α) (hv : Valid v) :
    ∃ v1, shrink_to_fit v = .ok v1 ∧ uncorrupted v1 = true ∧ v1.capacity = v1.mem.length := by
  have hu := uncorrupted_of_Valid v hv
  obtain ⟨hcap, hsz, hpd, hnull, hlive⟩ := hv
  by_cases h : v.size = v.capacity
  · exact ⟨v, by simp [shrink_to_fit, h], hu, hcap⟩
  · by_cases h0 : v.size = 0
    · cases hb : v.begin_ with
      | none =>
        have := hnull hb
        omega
      | some p =>
        refine ⟨{ begin_ := none, mem := [], size := 0, capacity := 0,
                  heap := v.heap ++ [.deallocate p v.capacity] }, ?_, by simp [uncorrupted], rfl⟩
        simp only [shrink_to_fit, ne_eq, h, not_false_eq_true, if_true, if_pos h0,
          cleanup_spec v p hcap hsz hb]
    · obtain ⟨v1, e, c, s, l, m, b⟩ := unchecked_reserve_spec v v.size hcap hsz
      rw [Nat.max_self] at c m
      refine ⟨v1, ?_, uncorrupted_of_block v1 (by simp [b]) (by omega), by omega⟩
      simp only [shrink_to_fit, ne_eq, h, not_false_eq_true, if_true, if_neg h0, e]

theorem copy_assign_outcome (pocca allocators_differ : Bool) (a b : vector α)
    (ha : Valid a) (hb : Valid b) :
    ∃ a1, copy_assign pocca allocators_differ a b = .ok (a1, b) ∧ uncorrupted a1 = true ∧
      a1.capacity = a1.mem.length := by
  have hu := uncorrupted_of_Valid a ha
  obtain ⟨hcap, hsz, _, hnull, _⟩ := ha
  obtain ⟨ys, hys⟩ := slots_of_objects (live b) hb.2.2.2.2
  have hclean : ∃ a0, (if (pocca && allocators_differ) = true then cleanup a else .ok a) = .ok a0 ∧
      uncorrupted a0 = true ∧ a0.capacity = a0.mem.length ∧ a0.size ≤ a0.capacity := by
    by_cases hc : (pocca && allocators_differ) = true
    · cases hbeg : a.begin_ with
      | none => exact ⟨a, by simp [hc, cleanup, hbeg], hu, hcap, hsz⟩
      | some p =>
        exact ⟨{ begin_ := none, mem := [], size := 0, capacity := 0,
                 heap := a.heap ++ [.deallocate p a.capacity] },
          by simp only [hc, if_true, cleanup_spec a p hcap hsz hbeg],
          by simp [uncorrupted], rfl, Nat.le_refl _⟩
    · exact ⟨a, by simp [hc], hu, hcap, hsz⟩
  obtain ⟨a0, e0, u0, c0, s0⟩ := hclean
  obtain ⟨a1, e1, s1, c1, m1, b1⟩ := assign_range_block true a0 ys c0 s0
  refine ⟨a1, ?_, uncorrupted_of_assigned a0 a1 u0 (by omega) b1, m1⟩
  simp only [copy_assign, e0, hys, read_range_map, e1]

theorem move_assign_outcome (a b : vector α) (ha : Valid a) (hb : Valid b) :
    ∃ a1, move_assign a b = .ok (a1, b) ∧ uncorrupted a1 = true ∧
      a1.capacity = a1.mem.length := by
  obtain ⟨a1, e, bb, bm, bs, bc⟩ := move_assign_shares_buffer a b ha.1 ha.2.1
  refine ⟨a1, e, uncorrupted_same_block b a1 (uncorrupted_of_Valid b hb) bb bc ?_, ?_⟩
  · rw [bs, bc]; exact hb.2.1
  · rw [bc, bm]; exact hb.1

/-- What a call within its preconditions does to a `Valid` vector: it returns with
`uncorrupted()` true, or `reserve` throws `length_error` before any member is changed,
or it is an `emplace` / `insert` before `end()` into a vector with exactly one spare
slot, which stores past the allocation. -/
theorem call_outcome (t : Traits) (v : vector α) (c : Call α) (hv : Valid v)
    (hp : within_preconditions v c) :
    (∃ v1, call t v c = .ok v1 ∧ uncorrupted v1 = true ∧ v1.capacity = v1.mem.length) ∨
      call t v c = .error .length_error ∨
      (call t v c = .error .undefined ∧ v.size + 1 = v.capacity ∧
        ∃ pos x, pos < v.size ∧ (c = .emplace pos x ∨ c = .insert pos x)) := by
  cases c with
  | reserve n =>
    rcases reserve_outcome t v n hv with h | h
    · exact Or.inl h
    · exact Or.inr (Or.inl h)
  | emplace_back x =>
    rcases emplace_back_outcome t v x hv with ⟨v1, e, u, m⟩ | e
    · exact Or.inl ⟨v1, by simp [call, state_of, e], u, m⟩
    · exact Or.inr (Or.inl (by simp [call, state_of, e]))
  | push_back x =>
    rcases emplace_back_outcome t v x hv with ⟨v1, e, u, m⟩ | e
    · exact Or.inl ⟨v1, by simp [call, push_back, e], u, m⟩
    · exact Or.inr (Or.inl (by simp [call, push_back, e]))
  | pop_back =>
    obtain ⟨v1, e, u, m, _⟩ := pop_back_outcome v hv
    exact Or.inl ⟨v1, e, u, m⟩
  | clear => exact Or.inl (clear_outcome v hv)
  | emplace pos x =>
    rcases emplace_outcome t v pos x hv hp with ⟨v1, e, u, m⟩ | e | ⟨e, h1, h2⟩
    · exact Or.inl ⟨v1, by simp [call, state_of, e], u, m⟩
    · exact Or.inr (Or.inl (by simp [call, state_of, e]))
    · exact Or.inr (Or.inr ⟨by simp [call, state_of, e], h2, pos, x, h1, Or.inl rfl⟩)
  | insert pos x =>
    rcases emplace_outcome t v pos x hv hp with ⟨v1, e, u, m⟩ | e | ⟨e, h1, h2⟩
    · exact Or.inl ⟨v1, by simp [call, state_of, insert, e], u, m⟩
    · exact Or.inr (Or.inl (by simp [call, state_of, insert, e]))
    · exact Or.inr (Or.inr ⟨by simp [call, state_of, insert, e], h2, pos, x, h1, Or.inr rfl⟩)
  | erase pos =>
    have hp1 : pos < v.size := hp
    obtain ⟨v1, e, u, m⟩ := erase_range_outcome v pos (pos + 1) hv (by omega) (by omega)
    rw [← erase_eq_erase_range v pos hv.1 hv.2.1 hp1] at e
    exact Or.inl ⟨v1, by simp [call, state_of, e], u, m⟩
  | erase_range f l =>
    have hp1 : f ≤ l ∧ l ≤ v.size := hp
    obtain ⟨v1, e, u, m⟩ := erase_range_outcome v f l hv hp1.1 hp1.2
    exact Or.inl ⟨v1, by simp [call, state_of, e], u, m⟩
  | assign_fill count x =>
    obtain ⟨v1, e, s, c, m, b⟩ := assign_fill_block v count x hv.1 hv.2.1
    exact Or.inl ⟨v1, e, uncorrupted_of_assigned v v1 (uncorrupted_of_Valid v hv) (by omega) b, m⟩
  | assign_range ra rs =>
    obtain ⟨v1, e, s, c, m, b⟩ := assign_range_block ra v rs hv.1 hv.2.1
    exact Or.inl ⟨v1, e, uncorrupted_of_assigned v v1 (uncorrupted_of_Valid v hv) (by omega) b, m⟩
  | copy_assign pocca d b =>
    obtain ⟨a1, e, u, m⟩ := copy_assign_outcome pocca d v b hv hp
    exact Or.inl ⟨a1, by simp [call, e], u, m⟩
  | move_assign b =>
    obtain ⟨a1, e, u, m⟩ := move_assign_outcome v b hv hp
    exact Or.inl ⟨a1, by simp [call, e], u, m⟩
  | shrink_to_fit => exact Or.inl (shrink_to_fit_outcome v hv)

/-- C34: the vector after `reserve(4); push_back(1); push_back(2); push_back(3);` is
`uncorrupted()` (size `3`, capacity `4`), and on it `emplace(begin() + 1, 9)` and
`insert(begin() + 1, 9)`, both within the asserted precondition
`begin() <= pos <= end()`, store at index `4 == capacity()`, one slot past the
allocation: the call is undefined and no state of the vector follows it. -/
theorem emplace_one_spare_slot_stores_past_allocation :
    Valid three_of_four ∧ uncorrupted three_of_four = true ∧
    (three_of_four.size = 3 ∧ three_of_four.capacity = 4 ∧ three_of_four.mem.length = 4) ∧
    within_preconditions three_of_four (.emplace 1 9) ∧
    within_preconditions three_of_four (.insert 1 9) ∧
    call int_traits three_of_four (.emplace 1 9) = .error .undefined ∧
    call int_traits three_of_four (.insert 1 9) = .error .undefined ∧
    move_construct_backward three_of_four.mem 4 3 3 (containers.loop_fuel three_of_four.mem) =
      none ∧
    containers.store three_of_four.mem 4 (none : Option Int) = none := by
  refine ⟨by decide, by decide, by decide, ?_, ?_, by decide, by decide, by decide, by decide⟩
  · show 1 ≤ three_of_four.size
    decide
  · show 1 ≤ three_of_four.size
    decide

end vector
end real

namespace stable_stack

variable {α : Type}

/-- C4: from a consistent `stable_stack<T, N>` state (`N > 0`), any sequence of
`push` / `push_back` / `emplace_back` / `pop` / `pop_back` calls returns; the list of
block addresses before the calls is an initial segment of the list after them; every
index `i < size()` is still served by the same block address at offset `i % N`
(block `i / N`); and the value read at `i` is unchanged unless some push of the
sequence was made while `size() == i`. -/
theorem element_address_stable [Inhabited α] (N : Nat) (hN : 0 < N) (s : stable_stack α)
    (hv : Valid N s) (ops : List (Op α)) :
    ∃ s1, run N s ops = some s1 ∧
      (∃ extra, block_addresses s1 = block_addresses s ++ extra) ∧
      ∀ i, i < s.size →
        (∃ a, address N s i = some (a, i % N) ∧ address N s1 i = some (a, i % N) ∧
          (block_addresses s)[i / N]? = some a ∧ (block_addresses s1)[i / N]? = some a) ∧
        (∃ x, get N s i = some x ∧ (writes_index N i s ops = false → get N s1 i = some x)) := by
  obtain ⟨s1, e, _, _, ⟨extra, hx⟩, g⟩ := run_spec N hN ops s hv
  refine ⟨s1, e, ⟨extra, hx⟩, ?_⟩
  intro i hi
  have hic : i < s.capacity := Nat.lt_of_lt_of_le hi hv.2.1
  obtain ⟨had, hget⟩ := g i hic
  obtain ⟨⟨a, ha⟩, ⟨x, hgx⟩⟩ := slot_exists N hN s hv i hic
  have hN0 : N ≠ 0 := by omega
  have hb : (block_addresses s)[i / N]? = some a := by
    have h := ha
    rw [address_eq N s i hN0] at h
    cases hc : (block_addresses s)[i / N]? with
    | none => rw [hc] at h; cases h
    | some b =>
      rw [hc] at h
      simp only [Option.map_some', Option.some.injEq, Prod.mk.injEq] at h
      rw [h.1]
  have hd : i / N < (block_addresses s).length := by
    simp only [block_addresses, List.length_map]
    exact div_lt_blocks N i _ (by rw [← hv.1]; exact hic)
  refine ⟨⟨a, ha, by rw [had, ha], hb, ?_⟩, ⟨x, hgx, fun hw => by rw [hget hw, hgx]⟩⟩
  rw [hx, List.getElem?_append_left hd, hb]

/-- C4, the scenario of the specification with `N = 4`: push 10 elements, then push 20
more; elements 0 and 4 keep their block address, offset and value. -/
theorem element_address_stable_witness :
    run 4 (empty : stable_stack Int) ((List.range 10).map fun i => Op.push (i : Int)) =
      some ten_pushed ∧
    (0 < 4 ∧ Valid 4 ten_pushed) ∧
    (∃ s1, run 4 ten_pushed twenty_more = some s1 ∧
      (∃ extra, block_addresses s1 = block_addresses ten_pushed ++ extra) ∧
      ∀ i, i < ten_pushed.size →
        (∃ a, address 4 ten_pushed i = some (a, i % 4) ∧ address 4 s1 i = some (a, i % 4) ∧
          (block_addresses ten_pushed)[i / 4]? = some a ∧
          (block_addresses s1)[i / 4]? = some a) ∧
        (∃ x, get 4 ten_pushed i = some x ∧
          (writes_index 4 i ten_pushed twenty_more = false → get 4 s1 i = some x))) ∧
    (address 4 ten_pushed 0 = some (1, 0) ∧ address 4 ten_pushed 4 = some (2, 0) ∧
      get 4 ten_pushed 0 = some 0 ∧ get 4 ten_pushed 4 = some 4 ∧
      writes_index 4 0 ten_pushed twenty_more = false ∧
      writes_index 4 4 ten_pushed twenty_more = false) ∧
    (run 4 ten_pushed twenty_more).map
        (fun s1 => (address 4 s1 0, address 4 s1 4, get 4 s1 0, get 4 s1 4, s1.size)) =
      some (some (1, 0), some (2, 0), some 0, some 4, 30) :=
  ⟨by decide, ⟨by decide, by decide⟩,
    element_address_stable 4 (by decide) ten_pushed (by decide) twenty_more,
    by decide, by decide⟩

/-- C30: for every consistent `stable_stack<T, N>` (`N > 0`) with `size() = s` and every
value `x`, `push(x)` / `push_back(x)` / `emplace_back(x)` returns, writes block `s / N`
at offset `s % N`, increases `size()` to `s + 1`, makes `operator[](s)`, `back()` and
`top()` equal to `x`, and leaves the values at all indices `< s` unchanged. -/
theorem push_contract [Inhabited α] (N : Nat) (hN : 0 < N) (s : stable_stack α) (x : α)
    (hv : Valid N s) (hs : s.size + 1 < containers.SIZE_T_MOD) :
    ∃ s1, emplace_back N s x = some (s1, (s.size / N, s.size % N)) ∧ push N s x = some s1 ∧
      push_back N s x = some s1 ∧ s1.size = s.size + 1 ∧ get N s1 s.size = some x ∧
      back N s1 = some x ∧ top N s1 = some x ∧
      ∀ j, j < s.size → get N s1 j = get N s j := by
  obtain ⟨s1, e, _, sz, _, _, keep⟩ := emplace_back_stable N hN s x hv
  have hw := emplace_back_writes N hN s x hv s1 _ e
  have hb : back N s1 = some x := by
    unfold back
    have e1 : s1.size + containers.SIZE_T_MOD - 1 = s.size + containers.SIZE_T_MOD := by omega
    rw [e1, Nat.add_mod_right, Nat.mod_eq_of_lt (by omega)]
    exact hw
  refine ⟨s1, e, by simp [push, e], by simp [push_back, e], sz, hw, hb, hb, ?_⟩
  intro j hj
  exact keep j (by have := hv.2.1; omega) (by omega)

/-- C30 at `N = 4` on the stack holding `0, ..., 9`: pushing `10`. -/
theorem push_contract_witness :
    (0 < 4 ∧ Valid 4 ten_pushed ∧ ten_pushed.size + 1 < containers.SIZE_T_MOD) ∧
    ∃ s1, emplace_back 4 ten_pushed 10 = some (s1, (ten_pushed.size / 4, ten_pushed.size % 4)) ∧
      push 4 ten_pushed 10 = some s1 ∧ push_back 4 ten_pushed 10 = some s1 ∧
      s1.size = ten_pushed.size + 1 ∧ get 4 s1 ten_pushed.size = some 10 ∧
      back 4 s1 = some 10 ∧ top 4 s1 = some 10 ∧
      ∀ j, j < ten_pushed.size → get 4 s1 j = get 4 ten_pushed j :=
  ⟨⟨by decide, by decide, by decide⟩,
    push_contract 4 (by decide) ten_pushed 10 (by decide) (by decide)⟩

/-- C31: `pop()` is `pop_back()`, and `pop_back()` on a non-empty stack lowers the size by
exactly one while the capacity, the list of blocks with their addresses and the
contents of every slot (the vacated one included) stay as they were; on an empty
stack the size stays `0` and nothing changes. -/
theorem pop_contract (N : Nat) (s : stable_stack α) :
    pop s = pop_back s ∧
    (0 < s.size → (pop_back s).size + 1 = s.size) ∧
    (s.size = 0 → pop_back s = s) ∧
    (pop_back s).capacity = s.capacity ∧
    (pop_back s).data = s.data ∧
    block_addresses (pop_back s) = block_addresses s ∧
    (∀ j, get N (pop_back s) j = get N s j) ∧
    ∀ j, address N (pop_back s) j = address N s j := by
  refine ⟨rfl, ?_, ?_, rfl, rfl, rfl, fun j => rfl, fun j => rfl⟩
  · intro h
    simp only [pop_back, if_pos h]
    omega
  · intro h
    have h0 : ¬ s.size > 0 := by omega
    simp [pop_back, h0]

/-- C31 at the stack of ten elements in blocks of four: the pop takes the size from
ten to nine. -/
theorem pop_contract_witness :
    0 < (ten_pushed).size ∧ (pop_back ten_pushed).size + 1 = (ten_pushed).size :=
  ⟨by decide, (pop_contract 4 ten_pushed).2.1 (by decide)⟩

/-- C32: `reserve(20)` on the `stable_stack<int, 4>` holding ten elements in three
blocks returns the stack as it was: the capacity is still `12`, below the `20`
asked for, and the third push after it (the one at size `12`) appends a fourth
block. -/
theorem reserve_creates_no_block :
    reserve 4 ten_pushed 20 = some ten_pushed ∧
    (ten_pushed).capacity = 12 ∧ (ten_pushed).data.length = 3 ∧
    (run 4 ten_pushed [Op.push 10, Op.push 11, Op.push 12]).map
      (fun s => (s.size, s.capacity, s.data.length)) = some (13, 16, 4) := by
  decide

/-- C33: every stack reached from the empty one by pushes, pops and reserves (blocks of
`N > 0` slots) has `capacity() == blocks * N` and `size() <= capacity()`, and an
`emplace_back` on it appends exactly one block, raising the capacity by `N`, when
`size() == capacity()` held before the call, and otherwise leaves the number of blocks
and the capacity unchanged. -/
theorem reachable_invariants [Inhabited α] (N : Nat) (hN : 0 < N) (cs : List (Call α)) :
    ∃ s, call_run N (empty : stable_stack α) cs = some s ∧
      s.capacity = s.data.length * N ∧ s.size ≤ s.capacity ∧
      ∀ x, ∃ s1 p, emplace_back N s x = some (s1, p) ∧
        (s1.data.length = s.data.length + 1 ↔ s.size = s.capacity) ∧
        (s.size = s.capacity →
          s1.data.length = s.data.length + 1 ∧ s1.capacity = s.capacity + N ∧
          block_addresses s1 = block_addresses s ++ [s.allocated + 1]) ∧
        (s.size ≠ s.capacity →
          s1.data.length = s.data.length ∧ s1.capacity = s.capacity ∧
          block_addresses s1 = block_addresses s) := by
  obtain ⟨s, hs, hv⟩ := call_run_spec N hN cs (empty : stable_stack α) (empty_Valid N)
  refine ⟨s, hs, by rw [hv.1, Nat.mul_comm], hv.2.1, ?_⟩
  intro x
  obtain ⟨s1, h1, _⟩ := emplace_back_stable N hN s x hv
  obtain ⟨_, hc, hl, hb⟩ := emplace_back_grows N hN s x hv s1 _ h1
  refine ⟨s1, _, h1, ?_, ?_, ?_⟩
  · rw [hl]
    by_cases hf : s.size = s.capacity <;> simp [hf]
  · intro hf
    rw [hc, hl, hb]
    simp [hf]
  · intro hf
    rw [hc, hl, hb]
    simp [hf]

/-- C33 at blocks of four slots and the calls push, reserve, push, pop. -/
theorem reachable_invariants_witness :
    0 < 4 ∧
    ∃ s, call_run 4 (empty : stable_stack Int)
        [Call.op (Op.push 1), Call.reserve 9, Call.op (Op.emplace_back 2),
          Call.op Op.pop] = some s ∧
      s.capacity = s.data.length * 4 ∧ s.size ≤ s.capacity ∧
      ∀ x, ∃ s1 p, emplace_back 4 s x = some (s1, p) ∧
        (s1.data.length = s.data.length + 1 ↔ s.size = s.capacity) ∧
        (s.size = s.capacity →
          s1.data.length = s.data.length + 1 ∧ s1.capacity = s.capacity + 4 ∧
          block_addresses s1 = block_addresses s ++ [s.allocated + 1]) ∧
        (s.size ≠ s.capacity →
          s1.data.length = s.data.length ∧ s1.capacity = s.capacity ∧
          block_addresses s1 = block_addresses s) :=
  ⟨by decide, reachable_invariants 4 (by decide) _⟩

/-- C37: for blocks of `N > 0` slots and every stack reached from the empty one by
pushes and pops, `emplace_back` returns, the block index `size() / N` it uses is
below the number of blocks the stack has after the growth check, the offset
`size() % N` is below `N`, and for every `i < size()` the subscript `[i]` finds block
`i / N` among the blocks and slot `i % N` inside it. -/
theorem indexing_in_bounds [Inhabited α] (N : Nat) (hN : 0 < N) (ops : List (Op α)) (x : α) :
    ∃ s, run N (empty : stable_stack α) ops = some s ∧
      (∃ s1, emplace_back N s x = some (s1, (s.size / N, s.size % N)) ∧
        s.size / N < s1.data.length ∧ s.size % N < N) ∧
      ∀ i, i < s.size →
        i / N < s.data.length ∧ i % N < N ∧ (∃ a, address N s i = some (a, i % N)) ∧
        ∃ y, get N s i = some y := by
  obtain ⟨s, hs, hv, _⟩ := run_spec N hN ops (empty : stable_stack α) (empty_Valid N)
  refine ⟨s, hs, ?_, ?_⟩
  · obtain ⟨s1, h1, hv1, hsz, _⟩ := emplace_back_stable N hN s x hv
    refine ⟨s1, h1, ?_, Nat.mod_lt _ hN⟩
    apply div_lt_blocks
    have := hv1.1
    have := hv1.2.1
    omega
  · intro i hi
    have hic : i < s.capacity := lt_of_lt_of_le hi hv.2.1
    obtain ⟨ha, hg⟩ := slot_exists N hN s hv i hic
    refine ⟨?_, Nat.mod_lt _ hN, ha, hg⟩
    apply div_lt_blocks
    have := hv.1
    omega

/-- C37 at blocks of four slots after three pushes and a pop. -/
theorem indexing_in_bounds_witness :
    0 < 4 ∧
    ∃ s, run 4 (empty : stable_stack Int) [Op.push 1, Op.push 2, Op.push 3, Op.pop] = some s ∧
      (∃ s1, emplace_back 4 s 7 = some (s1, (s.size / 4, s.size % 4)) ∧
        s.size / 4 < s1.data.length ∧ s.size % 4 < 4) ∧
      ∀ i, i < s.size →
        i / 4 < s.data.length ∧ i % 4 < 4 ∧ (∃ a, address 4 s i = some (a, i % 4)) ∧
        ∃ y, get 4 s i = some y :=
  ⟨by decide, indexing_in_bounds 4 (by decide) _ 7⟩

end stable_stack

namespace containers
namespace plain_array

variable {α : Type}

/-- C5: starting from an empty `plain_array<T, N>` (`safe = false`) or
`plain_array_safe<T, N>` (`safe = true`), along any sequence of bounds-checked
mutating calls whose positions lie in `[begin(), end()]`, every call returns,
`size() <= capacity()` holds in every state, and `capacity()` is `N`. -/
theorem size_never_exceeds_capacity [Inhabited α] (safe : Bool) (N : Nat) (ops : List (Op α))
    (h : checked_calls safe N (empty safe N) ops = true) :
    size_bounded safe N (empty safe N) ops :=
  size_bounded_of_checked safe N ops (empty safe N) (empty_WF safe N) h

/-- C5 at `N = 3`, for both classes: pushes beyond the capacity, a truncated
insertion of 5 copies, erasures, appends and `clear`. -/
theorem size_never_exceeds_capacity_witness :
    (checked_calls false 3 (empty false 3)
        [Op.push_back (1 : Int), .emplace_back 2, .insert_count 1 5 7, .push_back 3,
         .erase 0, .insert_rotate 1 4 8, .pop_front, .erase_range 0 2, .append 9 6,
         .insert 1 4, .emplace 0 5, .pop_back, .insert_range 0 [1, 2, 3, 4],
         .append_range [5, 6], .append_default 2, .insert_backwards 0 1 1, .clear,
         .push_back 1] = true ∧
      size_bounded false 3 (empty false 3)
        [Op.push_back (1 : Int), .emplace_back 2, .insert_count 1 5 7, .push_back 3,
         .erase 0, .insert_rotate 1 4 8, .pop_front, .erase_range 0 2, .append 9 6,
         .insert 1 4, .emplace 0 5, .pop_back, .insert_range 0 [1, 2, 3, 4],
         .append_range [5, 6], .append_default 2, .insert_backwards 0 1 1, .clear,
         .push_back 1]) ∧
    (checked_calls true 3 (empty true 3)
        [Op.push_back (1 : Int), .push_back 2, .push_back 3, .push_back 4, .insert 1 9,
         .erase 1, .insert_count 2 9 9] = true ∧
      size_bounded true 3 (empty true 3)
        [Op.push_back (1 : Int), .push_back 2, .push_back 3, .push_back 4, .insert 1 9,
         .erase 1, .insert_count 2 9 9]) :=
  ⟨⟨by decide, size_never_exceeds_capacity false 3 _ (by decide)⟩,
    ⟨by decide, size_never_exceeds_capacity true 3 _ (by decide)⟩⟩

/-- C6: on the `plain_array<int, 4>` holding `[1, 2, 3]` (three `emplace_back` calls on
an empty array), `a.insert(a.begin(), 1, a[1])`, an in-range insertion that fits, leaves
the live elements `[1, 1, 2, 3]`, in `plain_array_safe` as well: the value is read
through the reference after the elements have been moved up.  The same calls on the
reference list insert one copy of the value `2` that `a[1]` has at the call and give
`[2, 1, 2, 3]`, and so does the array when the argument is an object outside it. -/
theorem insert_of_element_departs_from_reference_list :
    run false 4 (empty false 4) [Op.emplace_back 1, .emplace_back 2, .emplace_back 3] =
      some three_of_four_slots ∧
    load three_of_four_slots.data (.element 1) = some 2 ∧
    (insert_count 4 three_of_four_slots 0 1 (.element 1)).map (fun r => elements r.1) =
      some [1, 1, 2, 3] ∧
    ((run true 4 (empty true 4) [Op.emplace_back 1, .emplace_back 2, .emplace_back 3]).bind
      fun a => (insert_count 4 a 0 1 (.element 1)).map (fun r => elements r.1)) =
      some [1, 1, 2, 3] ∧
    fits 4 [] [Op.emplace_back (1 : Int), .emplace_back 2, .emplace_back 3,
      .insert_count 0 1 2] = true ∧
    ref_run [] [Op.emplace_back (1 : Int), .emplace_back 2, .emplace_back 3,
      .insert_count 0 1 2] = [2, 1, 2, 3] ∧
    (insert_count 4 three_of_four_slots 0 1 (.outside 2)).map (fun r => elements r.1) =
      some [2, 1, 2, 3] := by
  decide

/-- C7: on the `plain_array<int, 8>` holding `[1, 2, 3, 4, 5]`,
`insert_backwards(begin() + 1, 2, a[3])` (and `insert(begin() + 1, 2, a[3])`) returns the
iterator at index `1` and size `7`, but leaves the elements `[1, 2, 2, 2, 3, 4, 5]`:
`copy_backward` has moved `2` into the slot the reference names before `fill` reads
it.  The value passed is `4`, and
`take 1 old ++ replicate 2 4 ++ drop 1 old` is `[1, 4, 4, 2, 3, 4, 5]`, which is what
the call gives for an object outside the array. -/
theorem insert_backwards_fills_from_moved_element :
    WF false 8 five_of_eight_slots ∧ load five_of_eight_slots.data (.element 3) = some 4 ∧
    insert_backwards 8 five_of_eight_slots 1 2 (.element 3) =
      some ({ data := [1, 2, 2, 2, 3, 4, 5, 0], size := 7, overrun := false }, 1) ∧
    insert_count 8 five_of_eight_slots 1 2 (.element 3) =
      some ({ data := [1, 2, 2, 2, 3, 4, 5, 0], size := 7, overrun := false }, 1) ∧
    (copy_backward five_of_eight_slots.data 1 5 7 (loop_fuel five_of_eight_slots.data)).map
      Prod.fst = some [1, 2, 3, 2, 3, 4, 5, 0] ∧
    load [1, 2, 3, 2, 3, 4, 5, 0] (.element 3) = some (2 : Int) ∧
    (elements five_of_eight_slots).take 1 ++ List.replicate (min 2 (8 - 5)) 4 ++
      (elements five_of_eight_slots).drop 1 = [1, 4, 4, 2, 3, 4, 5] ∧
    (insert_backwards 8 five_of_eight_slots 1 2 (.outside 4)).map (fun r => elements r.1) =
      some [1, 4, 4, 2, 3, 4, 5] := by
  decide

/-- C8: on the `plain_array<int, 4>` holding `[1, 2, 3]` and the call with position
`begin()`, count `1` and value `a[1]`, `insert_rotate` leaves `[2, 1, 2, 3]` and
`insert_backwards` leaves `[1, 1, 2, 3]`: the first fills the new slot before it moves
the elements, the second after.  Size and returned position agree, the live elements
do not. -/
theorem insert_rotate_differs_on_element_argument :
    WF false 4 three_of_four_slots ∧
    insert_rotate 4 three_of_four_slots 0 1 (.element 1) =
      some ({ data := [2, 1, 2, 3], size := 4, overrun := false }, 0) ∧
    insert_backwards 4 three_of_four_slots 0 1 (.element 1) =
      some ({ data := [1, 1, 2, 3], size := 4, overrun := false }, 0) ∧
    (insert_rotate 4 three_of_four_slots 0 1 (.element 1)).map (fun r => elements r.1) ≠
      (insert_backwards 4 three_of_four_slots 0 1 (.element 1)).map (fun r => elements r.1) ∧
    (insert_rotate 8 five_of_eight_slots 1 2 (.element 3)).map (fun r => elements r.1) =
      some [1, 4, 4, 2, 3, 4, 5] ∧
    (insert_backwards 8 five_of_eight_slots 1 2 (.element 3)).map (fun r => elements r.1) =
      some [1, 2, 2, 2, 3, 4, 5] := by
  decide

/-- With value arguments that are objects outside the array: from any well-formed
`plain_array` / `plain_array_safe` state, a sequence of calls with valid positions
during which the reference list never needs more than `N` elements returns, and the
live elements `[0, size())` are those of the reference list after the same calls. -/
theorem live_elements_follow_reference_list [Inhabited α] (safe : Bool) (N : Nat)
    (a : plain_array α) (ops : List (Op α)) (hwf : WF safe N a)
    (hfit : fits N (elements a) ops = true) :
    ∃ a1, run safe N a ops = some a1 ∧ elements a1 = ref_run (elements a) ops ∧
      a1.size = (ref_run (elements a) ops).length := by
  obtain ⟨a1, e, w, h⟩ := run_refines safe N ops a hwf hfit
  refine ⟨a1, e, h, ?_⟩
  rw [← h, elements_length safe N a1 w]

/-- The `constexpr` test of `containers.cpp` (`N = 32`) for both classes: the result is
`[2, 3, 4, 6, 7, 24, 4, 4, 25, 26, 27, 28, 29]`, as on the reference list. -/
theorem live_elements_follow_reference_list_witness :
    (WF false 32 (empty false 32 : plain_array Int) ∧
      fits 32 (elements (empty false 32 : plain_array Int)) main_test_ops = true) ∧
    (∃ a1, run false 32 (empty false 32) main_test_ops = some a1 ∧
      elements a1 = ref_run (elements (empty false 32 : plain_array Int)) main_test_ops ∧
      a1.size = (ref_run (elements (empty false 32 : plain_array Int)) main_test_ops).length) ∧
    (WF true 32 (empty true 32 : plain_array Int) ∧
      fits 32 (elements (empty true 32 : plain_array Int)) main_test_ops = true) ∧
    (∃ a1, run true 32 (empty true 32) main_test_ops = some a1 ∧
      elements a1 = ref_run (elements (empty true 32 : plain_array Int)) main_test_ops ∧
      a1.size = (ref_run (elements (empty true 32 : plain_array Int)) main_test_ops).length) ∧
    ref_run (elements (empty false 32 : plain_array Int)) main_test_ops =
      [2, 3, 4, 6, 7, 24, 4, 4, 25, 26, 27, 28, 29] ∧
    ref_run (elements (empty true 32 : plain_array Int)) main_test_ops =
      [2, 3, 4, 6, 7, 24, 4, 4, 25, 26, 27, 28, 29] ∧
    (run false 32 (empty false 32) main_test_ops).map elements =
      some [2, 3, 4, 6, 7, 24, 4, 4, 25, 26, 27, 28, 29] ∧
    (run true 32 (empty true 32) main_test_ops).map elements =
      some [2, 3, 4, 6, 7, 24, 4, 4, 25, 26, 27, 28, 29] :=
  ⟨⟨empty_WF false 32, by decide⟩,
    live_elements_follow_reference_list false 32 _ main_test_ops (empty_WF false 32) (by decide),
    ⟨empty_WF true 32, by decide⟩,
    live_elements_follow_reference_list true 32 _ main_test_ops (empty_WF true 32) (by decide),
    by decide, by decide, by decide, by decide⟩

/-- With a value `v` that is an object outside the array: on a well-formed array with
`size() = s` and a position `i <= s`, if `s < N`, `insert_backwards(begin() + i, c, v)`
(and `insert(pos, count, value)`, which calls it) returns the iterator at index `i`,
the elements become `take i old ++ replicate k v ++ drop i old` with
`k = min(c, N - s)`, and the size becomes `s + k`; if `s = N`, the array is unchanged
and `end()` is returned. -/
theorem insert_backwards_truncates (safe : Bool) (N : Nat) (a : plain_array α) (i c : Nat)
    (v : α) (hwf : WF safe N a) (hi : i ≤ a.size) :
    (a.size < N →
      ∃ a1, insert_backwards N a i c (.outside v) = some (a1, i) ∧
        insert_count N a i c (.outside v) = some (a1, i) ∧
        elements a1 = (elements a).take i ++ List.replicate (min c (N - a.size)) v ++
          (elements a).drop i ∧
        a1.size = a.size + min c (N - a.size)) ∧
    (a.size = N →
      insert_backwards N a i c (.outside v) = some (a, a.size) ∧
      insert_count N a i c (.outside v) = some (a, a.size)) := by
  constructor
  · intro hs
    obtain ⟨a1, e, _, s, _, h⟩ := insert_backwards_elements safe N a i c v hwf hi hs
    exact ⟨a1, e, e, h, s⟩
  · intro hs
    have h := (insert_full N a i c v (by omega)).1
    exact ⟨h, h⟩

/-- At `N = 8`: five copies of 9 asked for at index 2 of `[1, 2, 3, 4, 5]`, three fit; and
a full array is left alone. -/
theorem insert_backwards_truncates_witness :
    (WF false 8 (⟨[1, 2, 3, 4, 5, 0, 0, 0], 5, false⟩ : plain_array Int) ∧ 2 ≤ 5 ∧ 5 < 8) ∧
    (∃ a1, insert_backwards 8 (⟨[1, 2, 3, 4, 5, 0, 0, 0], 5, false⟩ : plain_array Int) 2 5
          (.outside 9) =
        some (a1, 2) ∧
      insert_count 8 (⟨[1, 2, 3, 4, 5, 0, 0, 0], 5, false⟩ : plain_array Int) 2 5 (.outside 9) =
        some (a1, 2) ∧
      elements a1 = [1, 2, 9, 9, 9, 3, 4, 5] ∧ a1.size = 8) ∧
    (WF false 2 (⟨[1, 2], 2, false⟩ : plain_array Int) ∧
      insert_backwards 2 (⟨[1, 2], 2, false⟩ : plain_array Int) 1 3 (.outside 9) =
        some (⟨[1, 2], 2, false⟩, 2) ∧
      insert_count 2 (⟨[1, 2], 2, false⟩ : plain_array Int) 1 3 (.outside 9) =
        some (⟨[1, 2], 2, false⟩, 2)) :=
  ⟨⟨by decide, by decide, by decide⟩,
    (insert_backwards_truncates false 8 ⟨[1, 2, 3, 4, 5, 0, 0, 0], 5, false⟩ 2 5 9
      (by decide) (by decide)).1 (by decide),
    ⟨by decide,
      (insert_backwards_truncates false 2 ⟨[1, 2], 2, false⟩ 1 3 9
        (by decide) (by decide)).2 rfl⟩⟩

/-- With a value that is an object outside the array: on a well-formed array
(`size() <= N`) and a position `i <= size()`, `insert_rotate` and `insert_backwards`
both return, with the same size, the same live elements and the same returned
position (they even leave the same storage). -/
theorem insert_rotate_agrees_with_insert_backwards (safe : Bool) (N : Nat)
    (a : plain_array α) (i c : Nat) (v : α) (hwf : WF safe N a) (hi : i ≤ a.size) :
    ∃ r b, insert_rotate N a i c (.outside v) = some r ∧
      insert_backwards N a i c (.outside v) = some b ∧
      r.1.size = b.1.size ∧ elements r.1 = elements b.1 ∧ r.2 = b.2 ∧ r.1.data = b.1.data := by
  obtain ⟨r, h1, h2⟩ := insert_rotate_eq_insert_backwards safe N a i c v hwf hi
  exact ⟨r, r, h1, h2, rfl, rfl, rfl, rfl⟩

/-- At `N = 8`: two copies of 9 at index 2 of `[1, 2, 3, 4, 5]`, by either strategy. -/
theorem insert_rotate_agrees_with_insert_backwards_witness :
    (WF false 8 (⟨[1, 2, 3, 4, 5, 0, 0, 0], 5, false⟩ : plain_array Int) ∧ 2 ≤ 5) ∧
    (∃ r b, insert_rotate 8 (⟨[1, 2, 3, 4, 5, 0, 0, 0], 5, false⟩ : plain_array Int) 2 2
          (.outside 9) =
        some r ∧
      insert_backwards 8 (⟨[1, 2, 3, 4, 5, 0, 0, 0], 5, false⟩ : plain_array Int) 2 2 (.outside 9) =
        some b ∧
      r.1.size = b.1.size ∧ elements r.1 = elements b.1 ∧ r.2 = b.2 ∧ r.1.data = b.1.data) ∧
    insert_rotate 8 (⟨[1, 2, 3, 4, 5, 0, 0, 0], 5, false⟩ : plain_array Int) 2 2 (.outside 9) =
      some (⟨[1, 2, 9, 9, 3, 4, 5, 0], 7, false⟩, 2) :=
  ⟨⟨by decide, by decide⟩,
    insert_rotate_agrees_with_insert_backwards false 8 ⟨[1, 2, 3, 4, 5, 0, 0, 0], 5, false⟩ 2 2 9
      (by decide) (by decide),
    by decide⟩

/-- C24: for every `plain_array<T, N>` (and `plain_array_safe<T, N>`) with `N >= 1`: if
`size() < N`, `emplace_back(x)` / `push_back(x)` stores `x` at index `size()`,
increments the size by one, leaves the elements `[0, old size)` unchanged and returns
the new element; if `size() == N` it leaves the state unchanged and returns the
element at index `N - 1`. -/
theorem emplace_back_contract (safe : Bool) (N : Nat) (a : plain_array α) (x : α) (hN : 1 ≤ N)
    (hN64 : N < SIZE_T_MOD) (hwf : WF safe N a) :
    (a.size < N →
      ∃ a1, emplace_back N a x = some (a1, a.size) ∧ push_back N a x = some a1 ∧
        a1.size = a.size + 1 ∧ a1.data[a.size]? = some x ∧
        elements a1 = elements a ++ [x]) ∧
    (a.size = N → emplace_back N a x = some (a, N - 1) ∧ push_back N a x = some a) := by
  constructor
  · intro hs
    obtain ⟨a1, e, _, s1, d1⟩ := emplace_back_spec safe N a x hwf hs
    have hlt : a.size < a.data.length := by
      have := le_slots safe N
      rw [hwf.1]
      omega
    refine ⟨a1, e, by simp [push_back, e], s1, ?_, elements_push safe N a a1 x hwf hs s1 d1⟩
    rw [d1, List.getElem?_set, if_pos rfl, if_pos hlt]
  · intro hs
    have hb : back a = N - 1 := by
      unfold back
      rw [hs]
      have e : N + SIZE_T_MOD - 1 = (N - 1) + SIZE_T_MOD := by omega
      rw [e, Nat.add_mod_right]
      exact Nat.mod_eq_of_lt (by omega)
    have e := emplace_back_full N a x (by omega)
    rw [hb] at e
    exact ⟨e, by simp [push_back, e]⟩

/-- C24 at `N = 4`: on `[1, 2]` and on the full `[1, 2, 3, 4]`. -/
theorem emplace_back_contract_witness :
    (1 ≤ 4 ∧ 4 < SIZE_T_MOD ∧ WF false 4 two_of_four_slots ∧ WF false 4 four_slots_full) ∧
    ((two_of_four_slots.size < 4 →
        ∃ a1, emplace_back 4 two_of_four_slots 9 = some (a1, two_of_four_slots.size) ∧
          push_back 4 two_of_four_slots 9 = some a1 ∧
          a1.size = two_of_four_slots.size + 1 ∧ a1.data[two_of_four_slots.size]? = some 9 ∧
          elements a1 = elements two_of_four_slots ++ [9]) ∧
      (two_of_four_slots.size = 4 →
        emplace_back 4 two_of_four_slots 9 = some (two_of_four_slots, 4 - 1) ∧
          push_back 4 two_of_four_slots 9 = some two_of_four_slots)) ∧
    (four_slots_full.size = 4 →
      emplace_back 4 four_slots_full 9 = some (four_slots_full, 4 - 1) ∧
        push_back 4 four_slots_full 9 = some four_slots_full) :=
  ⟨⟨by decide, by decide, by decide, by decide⟩,
    emplace_back_contract false 4 two_of_four_slots 9 (by decide) (by decide) (by decide),
    (emplace_back_contract false 4 four_slots_full 9 (by decide) (by decide) (by decide)).2⟩

/-- C25: for every `plain_array<T, N>` (and `plain_array_safe<T, N>`) with element
sequence `xs` and indices `f <= l <= size()`, `erase(begin() + f, begin() + l)` leaves
the elements equal to `take f xs ++ drop l xs`, sets the size to `|xs| - (l - f)` and
returns the iterator at index `f`, an empty range changing nothing; and for every
`i < size()`, `erase(begin() + i)` gives the same state and iterator as
`erase(begin() + i, begin() + i + 1)`. -/
theorem plain_erase_contract (safe : Bool) (N : Nat) (a : plain_array α) (xs : List α)
    (f l : Nat) (hwf : WF safe N a) (hxs : elements a = xs) (hfl : f ≤ l) (hl : l ≤ a.size) :
    (∃ a1, erase_range a f l = some (a1, f) ∧ elements a1 = xs.take f ++ xs.drop l ∧
      a1.size = xs.length - (l - f) ∧ (f = l → a1 = a)) ∧
    ∀ i, i < a.size → erase a i = erase_range a i (i + 1) := by
  have hlen : xs.length = a.size := by
    rw [← hxs]
    exact elements_length safe N a hwf
  constructor
  · by_cases h : f = l
    · subst h
      refine ⟨a, by simp [erase_range], ?_, by omega, fun _ => rfl⟩
      rw [List.take_append_drop, hxs]
    · obtain ⟨a1, e, _, s, el⟩ := erase_range_spec safe N a f l hwf (by omega) hl
      exact ⟨a1, e, by rw [el, hxs], by omega, fun h1 => absurd h1 h⟩
  · intro i hi
    have hN := le_slots safe N
    have hdl : a.size ≤ a.data.length := by
      rw [hwf.1]
      have := hwf.2
      omega
    obtain ⟨d1, e, _, _⟩ := copy_spec a.size (loop_fuel a.data) a.data (i + 1) i (by omega)
      (by omega) hdl (by unfold loop_fuel; omega)
    have hz : a.size ≠ 0 := by omega
    have hne : i ≠ i + 1 := by omega
    have hc : i < i + 1 ∧ i < a.size ∧ i + 1 ≤ a.size := by omega
    have hsz : i + (a.size - (i + 1)) = a.size - 1 := by omega
    simp only [erase, erase_range, ne_eq, hz, not_false_eq_true, if_true, if_pos hi, e, if_neg hne,
      if_pos hc, hsz]

/-- C25 at `N = 4`, erasing the indices `1` and `2` of `[1, 2, 3, 4]`. -/
theorem plain_erase_contract_witness :
    (WF false 4 four_slots_full ∧ elements four_slots_full = [1, 2, 3, 4] ∧ 1 ≤ 3 ∧
      3 ≤ four_slots_full.size) ∧
    ((∃ a1, erase_range four_slots_full 1 3 = some (a1, 1) ∧
        elements a1 = [(1 : Int), 2, 3, 4].take 1 ++ [(1 : Int), 2, 3, 4].drop 3 ∧
        a1.size = [(1 : Int), 2, 3, 4].length - (3 - 1) ∧ (1 = 3 → a1 = four_slots_full)) ∧
      ∀ i, i < four_slots_full.size →
        erase four_slots_full i = erase_range four_slots_full i (i + 1)) :=
  ⟨⟨by decide, by decide, by decide, by decide⟩,
    plain_erase_contract false 4 four_slots_full [1, 2, 3, 4] 1 3 (by decide) (by decide)
      (by decide) (by decide)⟩

/-- C26 (diverges): on the `plain_array<int, 4>` holding `[1, 2]`, the calls
`emplace(begin() + 3, 9)`, `insert(begin() + 3, 9)`, `insert(begin() + 3, 1, 9)` and
`emplace(begin() + 7, 9)` have no defined result: the position is clamped to `N`, not
to `size()`, and `copy_backward` runs from a `first` beyond its `last`, down past
`begin()`.  The same calls at `end()` give `[1, 2, 9]`. -/
theorem insert_beyond_end_leaves_array :
    two_of_four_slots.size < 4 ∧
    emplace false 4 two_of_four_slots 3 (.outside 9) = none ∧
    insert false 4 two_of_four_slots 3 (.outside 9) = none ∧
    insert_count 4 two_of_four_slots 3 1 (.outside 9) = none ∧
    emplace false 4 two_of_four_slots 7 (.outside 9) = none ∧
    (emplace false 4 two_of_four_slots 2 (.outside 9)).map (fun r => elements r.1) =
      some [1, 2, 9] ∧
    (insert false 4 two_of_four_slots 2 (.outside 9)).map (fun r => elements r.1) =
      some [1, 2, 9] ∧
    (insert_count 4 two_of_four_slots 2 1 (.outside 9)).map (fun r => elements r.1) =
      some [1, 2, 9] := by
  refine ⟨by decide, by decide, by decide, by decide, by decide, by decide, by decide,
    by decide⟩

/-- C27 (diverges): on an empty `plain_array_safe<int, 2>`, `unchecked_emplace_back(1);
unchecked_emplace_back(2);` fills the array to exactly `N = 2` elements, no call being
made while `size() == N`, and leaves the overrun flag true; so does `append(2, 7)`.
Filling it with `emplace_back` leaves the flag false. -/
theorem overrun_set_on_exact_fill :
    (run true 2 (empty true 2) [.unchecked_emplace_back (1 : Int),
        .unchecked_emplace_back 2]).map (fun a => (a.size, elements a, a.overrun)) =
      some (2, [1, 2], true) ∧
    overrun_attempted true 2 (empty true 2) [.unchecked_emplace_back (1 : Int),
        .unchecked_emplace_back 2] = false ∧
    (run true 2 (empty true 2) [.append 2 (7 : Int)]).map (fun a => (a.size, a.overrun)) =
      some (2, true) ∧
    (run true 2 (empty true 2) [.emplace_back (1 : Int), .emplace_back 2]).map
        (fun a => (a.size, a.overrun)) = some (2, false) := by
  refine ⟨by decide, by decide, by decide, by decide⟩

/-- C28: for every sequence of calls, each a mutator with its positions in
`[begin(), end()]` or an `unchecked_emplace_back` made while `size() < N`, applied in
lockstep to an empty `plain_array<T, N>` and an empty `plain_array_safe<T, N>`: after
every step both containers have returned from all calls so far and have the same
`size()` and the same live elements. -/
theorem safe_variant_in_lockstep [Inhabited α] (N : Nat) (ops : List (Op α))
    (hu : unchecked_within false N (empty false N) ops = true)
    (hc : emplace_or_push_calls false N (empty false N) ops = true) :
    ∀ k, ∃ a b, run false N (empty false N) (ops.take k) = some a ∧
      run true N (empty true N) (ops.take k) = some b ∧ a.size = b.size ∧
      elements a = elements b := by
  intro k
  obtain ⟨a0, ha0, _⟩ := run_within false N (ops.take k) (empty false N) (empty_WF false N)
    (unchecked_within_take false N ops _ k hu) (emplace_or_push_calls_take false N ops _ k hc)
  rcases run_lockstep N (ops.take k) (empty false N) (empty true N) (empty_lockstep N)
    (unchecked_within_take false N ops _ k hu) with h1 | ⟨a, b, e1, e2, _, _, hs, he⟩
  · rw [ha0] at h1
    exact absurd h1.1 (by simp)
  · exact ⟨a, b, e1, e2, hs, he⟩

/-- C28 on the call sequence of the `constexpr` test of `containers.cpp` (`N = 32`): both
containers end with `[2, 3, 4, 6, 7, 24, 4, 4, 25, 26, 27, 28, 29]`. -/
theorem safe_variant_in_lockstep_witness :
    (unchecked_within false 32 (empty false 32) main_test_ops = true ∧
      emplace_or_push_calls false 32 (empty false 32) main_test_ops = true) ∧
    (∀ k, ∃ a b, run false 32 (empty false 32) (main_test_ops.take k) = some a ∧
        run true 32 (empty true 32) (main_test_ops.take k) = some b ∧ a.size = b.size ∧
        elements a = elements b) ∧
    (run false 32 (empty false 32) main_test_ops).map elements =
      some [2, 3, 4, 6, 7, 24, 4, 4, 25, 26, 27, 28, 29] ∧
    (run true 32 (empty true 32) main_test_ops).map elements =
      some [2, 3, 4, 6, 7, 24, 4, 4, 25, 26, 27, 28, 29] :=
  ⟨⟨by decide, by decide⟩, safe_variant_in_lockstep 32 main_test_ops (by decide) (by decide),
    by decide, by decide⟩

/-- C29: for every pair of distinct `plain_array<T, N>` objects `a` and `b`, `a.swap(b)`
returns and leaves `a` with the size and live elements `b` had and `b` with those `a`
had; swapping again restores both. -/
theorem swap_contract (N : Nat) (a b : plain_array α) (ha : WF false N a) (hb : WF false N b) :
    ∃ a1 b1, swap N a b = some (a1, b1) ∧ a1.size = b.size ∧ elements a1 = elements b ∧
      b1.size = a.size ∧ elements b1 = elements a ∧ swap N a1 b1 = some (a, b) := by
  have ha1 : a.data.length = N := by simpa [slots] using ha.1
  have hb1 : b.data.length = N := by simpa [slots] using hb.1
  refine ⟨{ a with data := b.data, size := b.size }, { b with data := a.data, size := a.size },
    swap_spec N a b ha1 hb1 ha.2 hb.2, rfl, rfl, rfl, rfl, ?_⟩
  exact swap_spec N _ _ hb1 ha1 hb.2 ha.2

/-- C29 on the swap test of `containers.cpp` (`N = 32`): `a = [10, 2]`, `b = [3]` gives
`a = [3]`, `b = [10, 2]`. -/
theorem swap_contract_witness :
    (WF false 32 swap_test ∧ WF false 32 swap_test_2) ∧
    (∃ a1 b1, swap 32 swap_test swap_test_2 = some (a1, b1) ∧ a1.size = swap_test_2.size ∧
      elements a1 = elements swap_test_2 ∧ b1.size = swap_test.size ∧
      elements b1 = elements swap_test ∧ swap 32 a1 b1 = some (swap_test, swap_test_2)) ∧
    (swap 32 swap_test swap_test_2).map (fun r => (elements r.1, elements r.2)) =
      some ([3], [10, 2]) :=
  ⟨⟨by decide, by decide⟩, swap_contract 32 swap_test swap_test_2 (by decide) (by decide),
    by decide⟩

/-- C35: on a `plain_array<int, 4>`, `assign(6, 9)` and the constructor
`plain_array(6, 9)` store `int()` at index `4`, past the last slot, which is undefined;
in a `plain_array_safe<int, 4>`, `assign(5, 9)` stores `int()` in the slot with index
`4 >= N`.  With `count <= N` (`assign(3, 9)`, `assign(4, 9)`) the size is `count` and the
elements are `count` copies of the value. -/
theorem assign_fill_writes_past_capacity :
    assign_fill 4 (empty false 4 : plain_array Int) 6 9 = none ∧
    construct_fill false 4 6 (9 : Int) = none ∧
    assign_fill 4 ({ data := [1, 2, 3, 4, 5], size := 0, overrun := false } : plain_array Int)
      5 9 = some { data := [9, 9, 9, 9, 0], size := 4, overrun := false } ∧
    assign_fill 4 (empty false 4 : plain_array Int) 3 9 =
      some { data := [9, 9, 9, 0], size := 3, overrun := false } ∧
    assign_fill 4 (empty false 4 : plain_array Int) 4 9 =
      some { data := [9, 9, 9, 9], size := 4, overrun := false } := by
  decide

/-- C38: with `a` an empty `plain_array<int, 4>` and `b` holding `[1, 2]`, the move
assignment `a = std::move(b)` returns with `a` still empty (size `0`, no element of
`b`), and the copy assignment `a = b` does not type-check. -/
theorem assignment_leaves_target :
    move_assign false 4 (empty false 4 : plain_array Int) two_of_four_slots =
      some (empty false 4, two_of_four_slots) ∧
    (empty false 4 : plain_array Int).size = 0 ∧ (two_of_four_slots).size = 2 ∧
    elements (empty false 4 : plain_array Int) = [] ∧ elements two_of_four_slots = [1, 2] ∧
    copy_assign (empty false 4 : plain_array Int) two_of_four_slots =
      .error real.failure.ill_formed := by
  decide

/-- C39: on a `plain_array_safe<T, N>` with `size() == N`, `unchecked_emplace_back(x)`
returns a reference to slot `N`, leaves `size() == N`, leaves the elements and every
slot below `N` as they were and stores `x` in the spare slot `N`; and every sequence
of calls on an empty `plain_array_safe<T, N>`, each an `unchecked_emplace_back` or a
bounds-checked mutator, returns with `size() <= N`. -/
theorem unchecked_at_capacity_contract [Inhabited α] (N : Nat) (a : plain_array α) (x : α)
    (hwf : WF true N a) (hs : a.size = N) :
    (∃ a1, unchecked_emplace_back true N a x = some (a1, N) ∧ a1.size = N ∧
      elements a1 = elements a ∧ (∀ i, i < N → a1.data[i]? = a.data[i]?) ∧
      a1.data[N]? = some x ∧ a1.data.length = N + 1) ∧
    ∀ ops : List (Op α), emplace_or_push_calls true N (empty true N) ops = true →
      ∃ a2, run true N (empty true N) ops = some a2 ∧ a2.size ≤ N ∧
        a2.data.length = N + 1 := by
  have hlen : a.data.length = N + 1 := by simpa [slots] using hwf.1
  constructor
  · refine ⟨{ data := a.data.set N x, size := N, overrun := true },
      unchecked_emplace_back_at_capacity N a x hwf hs, rfl, ?_, ?_, ?_, ?_⟩
    · simp only [elements, hs]
      apply List.ext_getElem?
      intro j
      simp only [List.getElem?_take, List.getElem?_set]
      split_ifs <;> first | rfl | omega
    · intro i hi
      simp only [List.getElem?_set]
      split_ifs <;> first | rfl | omega
    · simp [hlen]
    · simp [hlen]
  · intro ops hc
    obtain ⟨a2, h2, w2⟩ := run_emplace_or_push N ops (empty true N) (empty_WF true N) hc
    exact ⟨a2, h2, w2.2, by simpa [slots] using w2.1⟩

/-- C39 at the full `plain_array_safe<int, 4>` holding `[1, 2, 3, 4]` and the value `9`. -/
theorem unchecked_at_capacity_contract_witness :
    WF true 4 four_full_safe ∧ (four_full_safe).size = 4 ∧
    (∃ a1, unchecked_emplace_back true 4 four_full_safe 9 = some (a1, 4) ∧ a1.size = 4 ∧
      elements a1 = elements four_full_safe ∧
      (∀ i, i < 4 → a1.data[i]? = (four_full_safe).data[i]?) ∧
      a1.data[4]? = some 9 ∧ a1.data.length = 4 + 1) ∧
    ∀ ops : List (Op Int), emplace_or_push_calls true 4 (empty true 4) ops = true →
      ∃ a2, run true 4 (empty true 4) ops = some a2 ∧ a2.size ≤ 4 ∧
        a2.data.length = 4 + 1 :=
  ⟨by decide, by decide, unchecked_at_capacity_contract 4 four_full_safe 9 (by decide) (by decide)⟩

end plain_array
end containers

namespace containers_cpp

/-- C40: on the array `0, 1, ..., 9` the cycle-based `rotate` of `containers.cpp` called
with `first = 3` and `mid = last = 10` (and likewise with `mid = last = 8`) returns
for no amount of fuel: its inner loop starts at `j = m + n`, which the update of `j`
leaves fixed, so `j != m` holds forever (and the first read is `first[n]`, outside
`[first, last)`).  The three-reversal `rotate` returns the array unchanged there.
On the call of `main`, `first = 3`, `mid = 6`, `last = 10`, both give
`0, 1, 2, 6, 7, 8, 9, 3, 4, 5`. -/
theorem cycle_rotate_never_returns :
    (∀ fuel, rotate values 3 10 10 fuel = none) ∧
    (∀ fuel, rotate values 3 8 8 fuel = none) ∧
    containers.rotate values 3 10 10 (containers.loop_fuel values) = some values ∧
    containers.rotate values 3 8 8 (containers.loop_fuel values) = some values ∧
    rotate values 3 6 10 (containers.loop_fuel values) = some [0, 1, 2, 6, 7, 8, 9, 3, 4, 5] ∧
    containers.rotate values 3 6 10 (containers.loop_fuel values) =
      some [0, 1, 2, 6, 7, 8, 9, 3, 4, 5] :=
  ⟨fun fuel => rotate_mid_eq_last_diverges values 3 10 (by decide) fuel,
   fun fuel => rotate_mid_eq_last_diverges values 3 8 (by decide) fuel,
   by decide, by decide, by decide, by decide⟩

end containers_cpp
